import Mathlib

/-!
A verification development for the networkanalysis-ts library.

The TypeScript sources are embedded shallowly:

* JavaScript `number` values are modelled by `ℚ` (the library only adds,
  subtracts, multiplies and divides, so exact rational arithmetic tracks the
  real-valued semantics of the algorithms; floating-point rounding is out of
  scope of this model).
* mutable arrays are modelled by total functions `ℕ → ℚ` / `ℕ → ℕ` together
  with explicit length fields, writes becoming `Function.update`;
* `for` loops become folds over `List.range` / `Finset.range`, and the
  `do … while` loops of the local moving algorithms become fuel-indexed
  recursion (the source loops terminate; every theorem below holds for every
  amount of fuel, hence in particular for the terminating run);
* the pseudorandom generator is modelled by explicit streams of naturals
  (for `nextInt`) and rationals (for `nextDouble`) supplied as arguments.
-/

/-- Clustering of the nodes in a network, following clustering.ts: the
`clusters` array maps each node to its cluster, `nClusters` is the number of
clusters. -/
structure Clustering where
  nNodes : ℕ
  nClusters : ℕ
  clusters : ℕ → ℕ

/-- `calcMaximum` from utils/arrays.ts, specialised to natural values: the
first element, then folding `max` over the remaining elements. -/
def calcMaximum (values : List ℕ) : ℕ :=
  values.tail.foldl Nat.max (values.headD 0)

/-- `initSingletonClustersHelper` / construction from a node count
(clustering.ts): each node `i` is assigned to cluster `i` and
`nClusters = nNodes`. -/
def Clustering.initSingleton (nNodes : ℕ) : Clustering :=
  { nNodes := nNodes, nClusters := nNodes, clusters := fun i => i }

/-- `initializeBasedOnClusters` (clustering.ts): the clustering copies the
given array and sets `nClusters` to one more than the maximum stored id. -/
def Clustering.initBasedOnClusters (cs : List ℕ) : Clustering :=
  { nNodes := cs.length
    nClusters := calcMaximum cs + 1
    clusters := fun i => cs.getD i 0 }

/-- `setCluster` (clustering.ts): assigns a node to a cluster, widening
`nClusters` when the new cluster id does not fit. -/
def Clustering.setCluster (c : Clustering) (node cluster : ℕ) : Clustering :=
  { c with
    clusters := Function.update c.clusters node cluster
    nClusters := Nat.max c.nClusters (cluster + 1) }

/-- Whether cluster `l` holds at least one node; in `removeEmptyClusters`
(clustering.ts) this is the `nonEmptyClusters` flag array, filled by a pass
over the nodes. -/
def Clustering.nonEmpty (c : Clustering) (l : ℕ) : Prop :=
  ∃ i < c.nNodes, c.clusters i = l

instance (c : Clustering) (l : ℕ) : Decidable (c.nonEmpty l) := by
  unfold Clustering.nonEmpty; infer_instance

/-- The clustering validity the library maintains: every stored cluster id is
below `nClusters` (the arrays indexed by cluster in the algorithms are read
and written through these ids). -/
def ValidClustering (c : Clustering) : Prop :=
  ∀ i < c.nNodes, c.clusters i < c.nClusters

instance (c : Clustering) : Decidable (ValidClustering c) := by
  unfold ValidClustering; infer_instance

/-- The relabelling array `newClusters` of `removeEmptyClusters`
(clustering.ts): a non-empty cluster receives the running count of non-empty
clusters below it; an empty cluster keeps the fill value `0`. -/
def Clustering.newLabel (c : Clustering) (l : ℕ) : ℕ :=
  if c.nonEmpty l then ((Finset.range l).filter c.nonEmpty).card else 0

/-- `removeEmptyClusters` (clustering.ts): clusters are relabelled to a
consecutive numbering of the non-empty clusters. -/
def Clustering.removeEmptyClusters (c : Clustering) : Clustering :=
  { c with
    nClusters := ((Finset.range c.nClusters).filter c.nonEmpty).card
    clusters := fun i => c.newLabel (c.clusters i) }

/-- The per-cluster total node weight accumulated by `orderClustersByWeight`
(clustering.ts) before sorting. -/
def Clustering.clusterWeightOf (c : Clustering) (nodeWeights : ℕ → ℚ) (l : ℕ) : ℚ :=
  ∑ i ∈ Finset.range c.nNodes, if c.clusters i = l then nodeWeights i else 0

/-- The comparator of `orderClustersByWeight` (clustering.ts) sorts cluster
records by strictly decreasing weight; the sort of the source is stable, so
ties keep increasing cluster id. -/
def clusterOrderLE (w : ℕ → ℚ) (a b : ℕ) : Bool :=
  w b < w a ∨ (¬ w b < w a ∧ ¬ w a < w b)

/-- The sorted list of cluster ids built by `orderClustersByWeight`
(clustering.ts): ids `0, …, nClusters - 1` sorted by decreasing weight,
stably. -/
def Clustering.sortedClusterIds (c : Clustering) (nodeWeights : ℕ → ℚ) : List ℕ :=
  (List.range c.nClusters).mergeSort (clusterOrderLE (c.clusterWeightOf nodeWeights))

/-- The number of ranks assigned by the `do … while` loop of
`orderClustersByWeight` (clustering.ts): rank `0` is always assigned, and
further ranks are assigned while the cluster at the next rank has positive
weight. -/
def assignedRankCount (w : ℕ → ℚ) (sorted : List ℕ) : ℕ :=
  1 + ((List.range (sorted.length - 1)).takeWhile
        (fun i => decide (0 < w (sorted.getD (i + 1) 0)))).length

/-- The position of the first occurrence of a value in a list, if any. -/
def rankIn : List ℕ → ℕ → Option ℕ
  | [], _ => none
  | y :: t, x => if y = x then some 0 else (rankIn t x).map (· + 1)

/-- The relabelling computed by `orderClustersByWeight` (clustering.ts):
cluster `l` maps to its rank when it received one, and to the fill value `0`
otherwise. -/
def rankLabel (sorted : List ℕ) (nRanks : ℕ) (l : ℕ) : ℕ :=
  match rankIn (sorted.take nRanks) l with
  | some r => r
  | none => 0

/-- `orderClustersByWeight` (clustering.ts): clusters are ordered by
decreasing total node weight; clusters beyond the first whose weight is not
positive are dropped from `nClusters` and their nodes keep the fill label 0. -/
def Clustering.orderClustersByWeight (c : Clustering) (nodeWeights : ℕ → ℚ) : Clustering :=
  let sorted := c.sortedClusterIds nodeWeights
  let nRanks := assignedRankCount (c.clusterWeightOf nodeWeights) sorted
  { c with
    nClusters := nRanks
    clusters := fun i => rankLabel sorted nRanks (c.clusters i) }

/-- `orderClustersByNNodes` (clustering.ts): ordering by weight with all node
weights equal to 1. -/
def Clustering.orderClustersByNNodes (c : Clustering) : Clustering :=
  c.orderClustersByWeight (fun _ => 1)

/-- `mergeClusters` (clustering.ts): composes an outer clustering of the
clusters with this clustering. -/
def Clustering.mergeClusters (c outer : Clustering) : Clustering :=
  { c with
    clusters := fun i => outer.clusters (c.clusters i)
    nClusters := outer.nClusters }

/-- `getNodesPerCluster` (clustering.ts) restricted to one cluster: the nodes
of cluster `l` in increasing order (the source buckets nodes in index order). -/
def Clustering.nodesOfCluster (c : Clustering) (l : ℕ) : List ℕ :=
  (List.range c.nNodes).filter (fun i => c.clusters i = l)

/-- Network, following network.ts: compressed sparse row adjacency with node
weights, edge weights and the total edge weight of self links. -/
structure Network where
  nNodes : ℕ
  nEdges : ℕ
  nodeWeights : ℕ → ℚ
  firstNeighborIndices : ℕ → ℕ
  neighbors : ℕ → ℕ
  edgeWeights : ℕ → ℚ
  totalEdgeWeightSelfLinks : ℚ

/-- The slots of the adjacency row of node `i`:
`firstNeighborIndices[i], …, firstNeighborIndices[i+1] - 1`. -/
def Network.row (net : Network) (i : ℕ) : Finset ℕ :=
  Finset.Ico (net.firstNeighborIndices i) (net.firstNeighborIndices (i + 1))

/-- `getTotalNodeWeight` (network.ts): sum of all node weights. -/
def Network.getTotalNodeWeight (net : Network) : ℚ :=
  ∑ i ∈ Finset.range net.nNodes, net.nodeWeights i

/-- `getTotalEdgeWeight` (network.ts): half the sum of all edge weights (each
edge is stored in both directions). -/
def Network.getTotalEdgeWeight (net : Network) : ℚ :=
  (∑ k ∈ Finset.range net.nEdges, net.edgeWeights k) / 2

/-- `getTotalEdgeWeight(node)` (network.ts): the sum of the weights of the
edges of one node. -/
def Network.nodeTotalEdgeWeight (net : Network) (i : ℕ) : ℚ :=
  ∑ k ∈ net.row i, net.edgeWeights k

/-- The total weight of the edges from node `i` to node `j`: the adjacency
weight `a[i][j]` realised by the CSR rows (0 when `i` and `j` are not
adjacent). -/
def Network.pairWeight (net : Network) (i j : ℕ) : ℚ :=
  ∑ k ∈ net.row i, if net.neighbors k = j then net.edgeWeights k else 0

/-- Construction invariants of network.ts (`checkIntegrity`): offset array
anchored and non-decreasing, neighbour ids in range, strictly increasing per
row (hence duplicate-free), no self links, and every edge stored in both
directions with the same weight (stated via the row-wise pair weights). -/
structure NetworkInvariants (net : Network) : Prop where
  fni_zero : net.firstNeighborIndices 0 = 0
  fni_last : net.firstNeighborIndices net.nNodes = net.nEdges
  fni_mono : ∀ i < net.nNodes,
    net.firstNeighborIndices i ≤ net.firstNeighborIndices (i + 1)
  nbr_lt : ∀ i < net.nNodes, ∀ k ∈ net.row i, net.neighbors k < net.nNodes
  no_self : ∀ i < net.nNodes, ∀ k ∈ net.row i, net.neighbors k ≠ i
  sorted_row : ∀ i < net.nNodes, ∀ k ∈ net.row i, ∀ k' ∈ net.row i,
    k < k' → net.neighbors k < net.neighbors k'
  symmetric : ∀ i < net.nNodes, ∀ j < net.nNodes,
    net.pairWeight i j = net.pairWeight j i

/-- The per-cluster total node weight accumulated by the first loops of
`calcQuality` (CPMClusteringAlgorithm.ts). -/
def clusterWeight (net : Network) (c : Clustering) (l : ℕ) : ℚ :=
  ∑ i ∈ Finset.range net.nNodes, if c.clusters i = l then net.nodeWeights i else 0

/-- The double loop of `calcQuality` (CPMClusteringAlgorithm.ts): the summed
weight of the adjacency slots whose two endpoints share a cluster. -/
def internalEdgeSum (net : Network) (c : Clustering) : ℚ :=
  ∑ i ∈ Finset.range net.nNodes, ∑ k ∈ net.row i,
    if c.clusters (net.neighbors k) = c.clusters i then net.edgeWeights k else 0

/-- `calcQuality` (CPMClusteringAlgorithm.ts, lines 81-105): internal edge
weight plus the self-link total, minus `resolution` times the summed squares
of the cluster weights, divided by `2 * totalEdgeWeight +
totalEdgeWeightSelfLinks`.  The source accumulates the cluster weights into an
array of length `nClusters`; this model reads the same totals through
`clusterWeight`, which agrees for every clustering whose ids are in range. -/
def calcQuality (resolution : ℚ) (net : Network) (c : Clustering) : ℚ :=
  (internalEdgeSum net c + net.totalEdgeWeightSelfLinks
    - ∑ l ∈ Finset.range c.nClusters,
        clusterWeight net c l * clusterWeight net c l * resolution)
  / (2 * net.getTotalEdgeWeight + net.totalEdgeWeightSelfLinks)

/-- The CPM quality exactly as the specification states it: the sum of
`a[i][j]` over ordered pairs of nodes in the same cluster, plus the self-link
total, minus `resolution` times the summed squares of the per-cluster total
node weights, divided by `2W + S`. -/
def specCPMQuality (resolution : ℚ) (net : Network) (c : Clustering) : ℚ :=
  ((∑ i ∈ Finset.range net.nNodes, ∑ j ∈ Finset.range net.nNodes,
      if c.clusters i = c.clusters j then net.pairWeight i j else 0)
    + net.totalEdgeWeightSelfLinks
    - resolution * ∑ l ∈ Finset.range c.nClusters,
        clusterWeight net c l * clusterWeight net c l)
  / (2 * net.getTotalEdgeWeight + net.totalEdgeWeightSelfLinks)

theorem internalEdgeSum_eq_pairSum (net : Network) (c : Clustering)
    (hnbr : ∀ i < net.nNodes, ∀ k ∈ net.row i, net.neighbors k < net.nNodes) :
    internalEdgeSum net c
      = ∑ i ∈ Finset.range net.nNodes, ∑ j ∈ Finset.range net.nNodes,
          if c.clusters i = c.clusters j then net.pairWeight i j else 0 := by
  unfold internalEdgeSum Network.pairWeight
  refine Finset.sum_congr rfl ?_
  intro i hi
  rw [Finset.mem_range] at hi
  have h1 : ∀ j ∈ Finset.range net.nNodes,
      (if c.clusters i = c.clusters j then
        ∑ k ∈ net.row i, (if net.neighbors k = j then net.edgeWeights k else 0) else 0)
      = ∑ k ∈ net.row i,
          if net.neighbors k = j then
            (if c.clusters i = c.clusters j then net.edgeWeights k else 0) else 0 := by
    intro j _
    by_cases h : c.clusters i = c.clusters j <;> simp [h]
  rw [Finset.sum_congr rfl h1, Finset.sum_comm]
  refine Finset.sum_congr rfl ?_
  intro k hk
  have hmem : net.neighbors k ∈ Finset.range net.nNodes :=
    Finset.mem_range.mpr (hnbr i hi k hk)
  rw [Finset.sum_ite_eq (Finset.range net.nNodes) (net.neighbors k)
    (fun j => if c.clusters i = c.clusters j then net.edgeWeights k else 0), if_pos hmem]
  by_cases h : c.clusters (net.neighbors k) = c.clusters i
  · rw [if_pos h, if_pos h.symm]
  · rw [if_neg h, if_neg (fun hh => h hh.symm)]

/-- C1: for every network satisfying the construction invariants and every
clustering of its nodes, `calcQuality` of the CPM quality function returns
exactly the specification formula: the sum of `a[i][j]` over ordered pairs of
adjacent nodes in a common cluster, plus the total self-link weight `S`, minus
`resolution` times the summed squares of the per-cluster total node weights,
all divided by `2W + S`. -/
theorem calcQuality_eq_specCPMQuality (resolution : ℚ) (net : Network) (c : Clustering)
    (hinv : NetworkInvariants net) :
    calcQuality resolution net c = specCPMQuality resolution net c := by
  unfold calcQuality specCPMQuality
  rw [internalEdgeSum_eq_pairSum net c hinv.nbr_lt]
  rw [Finset.mul_sum]
  congr 1
  congr 1
  refine Finset.sum_congr rfl ?_
  intro l _
  ring

/-- A one-node network whose single edge is a self link of weight 1: built by
the network.ts edge-list constructor from the edge list `[(0, 0)]`, the self
link is accumulated into `totalEdgeWeightSelfLinks` and the adjacency stays
empty. -/
def selfLinkNet : Network :=
  { nNodes := 1
    nEdges := 0
    nodeWeights := fun _ => 1
    firstNeighborIndices := fun _ => 0
    neighbors := fun _ => 0
    edgeWeights := fun _ => 0
    totalEdgeWeightSelfLinks := 1 }

/-- C6 counterexample: on the one-node graph carrying a self link of weight 1,
the CPM quality of the singleton clustering at resolution 0 is `S / (2W + S) =
1`, not 0: the claim fails on any graph whose total self-link weight is
non-zero. -/
theorem calcQuality_singleton_self_link_ne_zero :
    calcQuality 0 selfLinkNet (Clustering.initSingleton selfLinkNet.nNodes) ≠ 0 := by
  have h : calcQuality 0 selfLinkNet (Clustering.initSingleton selfLinkNet.nNodes) = 1 := by
    unfold calcQuality internalEdgeSum clusterWeight Network.getTotalEdgeWeight
      Network.row selfLinkNet Clustering.initSingleton
    norm_num
  rw [h]
  norm_num

/-- C6 (amended): on every graph without self links (`S = 0`, which is the
only change the counterexample forces: with `S ≠ 0` the value is `S / (2W +
S)`), the CPM quality of the singleton clustering at resolution 0 is exactly
0. -/
theorem calcQuality_singleton_res_zero (net : Network)
    (hns : ∀ i < net.nNodes, ∀ k ∈ net.row i, net.neighbors k ≠ i)
    (hS : net.totalEdgeWeightSelfLinks = 0) :
    calcQuality 0 net (Clustering.initSingleton net.nNodes) = 0 := by
  unfold calcQuality
  have hE : internalEdgeSum net (Clustering.initSingleton net.nNodes) = 0 := by
    unfold internalEdgeSum
    refine Finset.sum_eq_zero ?_
    intro i hi
    refine Finset.sum_eq_zero ?_
    intro k hk
    rw [Finset.mem_range] at hi
    exact if_neg (hns i hi k hk)
  rw [hE, hS]
  simp

/-- A two-node network with one undirected edge of weight 1 between nodes 0
and 1 (stored in both directions), unit node weights and no self links. -/
def pathNet2 : Network :=
  { nNodes := 2
    nEdges := 2
    nodeWeights := fun _ => 1
    firstNeighborIndices := fun i => [0, 1, 2].getD i 0
    neighbors := fun k => [1, 0].getD k 0
    edgeWeights := fun _ => 1
    totalEdgeWeightSelfLinks := 0 }

theorem pathNet2_invariants : NetworkInvariants pathNet2 := by
  refine ⟨rfl, rfl, ?_, ?_, ?_, ?_, ?_⟩
  · decide
  · decide
  · decide
  · decide
  · intro i hi j hj
    simp only [pathNet2] at hi hj
    unfold Network.pairWeight Network.row pathNet2
    interval_cases i <;> interval_cases j <;>
      simp [Finset.sum_Ico_eq_sum_range, Finset.sum_range_succ] <;> decide

theorem calcQuality_singleton_res_zero_witness :
    calcQuality 0 pathNet2 (Clustering.initSingleton pathNet2.nNodes) = 0 :=
  calcQuality_singleton_res_zero pathNet2 (by decide) rfl

theorem calcQuality_eq_specCPMQuality_witness :
    calcQuality 1 pathNet2 (Clustering.initSingleton pathNet2.nNodes)
      = specCPMQuality 1 pathNet2 (Clustering.initSingleton pathNet2.nNodes) :=
  calcQuality_eq_specCPMQuality 1 pathNet2 _ pathNet2_invariants

/-- The node that owns adjacency slot `k`: in network.ts the normalisation
loops run `i` over the nodes and `j` over row `i`, so the owner is determined
by the offsets; with non-decreasing offsets it is the number of rows that end
at or before `k`. -/
def slotSource (net : Network) (k : ℕ) : ℕ :=
  ((Finset.range net.nNodes).filter
    (fun i => net.firstNeighborIndices (i + 1) ≤ k)).card

theorem fni_le_of_le (net : Network)
    (hmono : ∀ i < net.nNodes,
      net.firstNeighborIndices i ≤ net.firstNeighborIndices (i + 1)) :
    ∀ a b, a ≤ b → b ≤ net.nNodes →
      net.firstNeighborIndices a ≤ net.firstNeighborIndices b := by
  intro a b hab hbn
  induction b with
  | zero => cases Nat.le_zero.mp hab; exact le_rfl
  | succ b ih =>
    rcases Nat.lt_or_ge a (b + 1) with h | h
    · exact le_trans (ih (Nat.lt_succ_iff.mp h) (le_trans (Nat.le_succ b) hbn))
        (hmono b (Nat.lt_of_lt_of_le (Nat.lt_succ_self b) hbn))
    · have : a = b + 1 := le_antisymm hab h
      subst this; exact le_rfl

theorem slotSource_eq (net : Network) (i k : ℕ)
    (hmono : ∀ i' < net.nNodes,
      net.firstNeighborIndices i' ≤ net.firstNeighborIndices (i' + 1))
    (hi : i < net.nNodes) (hk : k ∈ net.row i) :
    slotSource net k = i := by
  rw [Network.row, Finset.mem_Ico] at hk
  unfold slotSource
  have hset : (Finset.range net.nNodes).filter
      (fun i' => net.firstNeighborIndices (i' + 1) ≤ k) = Finset.range i := by
    ext i'
    simp only [Finset.mem_filter, Finset.mem_range]
    constructor
    · rintro ⟨hi'n, hle⟩
      by_contra hge
      push_neg at hge
      have : net.firstNeighborIndices (i + 1) ≤ net.firstNeighborIndices (i' + 1) :=
        fni_le_of_le net hmono (i + 1) (i' + 1) (Nat.succ_le_succ hge) hi'n
      exact absurd (lt_of_lt_of_le hk.2 (le_trans this hle)) (lt_irrefl k)
    · intro hi'i
      refine ⟨lt_trans hi'i hi, ?_⟩
      exact le_trans (fni_le_of_le net hmono (i' + 1) i hi'i (le_of_lt hi)) hk.1
  rw [hset, Finset.card_range]

/-- `createNormalizedNetworkUsingAssociationStrength` (network.ts, lines
394-414): a copy of the network sharing the CSR topology, with each edge
weight divided by `n[i] * n[j] / totalNodeWeight`, node weights set to 1 and
the self-link total set to 0. -/
def Network.createNormalizedNetworkUsingAssociationStrength (net : Network) : Network :=
  { nNodes := net.nNodes
    nEdges := net.nEdges
    nodeWeights := fun _ => 1
    firstNeighborIndices := net.firstNeighborIndices
    neighbors := net.neighbors
    edgeWeights := fun k => net.edgeWeights k /
      ((net.nodeWeights (slotSource net k) * net.nodeWeights (net.neighbors k))
        / net.getTotalNodeWeight)
    totalEdgeWeightSelfLinks := 0 }

/-- C5: for every network with strictly positive node weights,
`createNormalizedNetworkUsingAssociationStrength` shares the CSR topology, has
every edge weight `w[i][j]` replaced by `w[i][j] / (n[i] * n[j] / T)` with `T`
the total node weight of the input, has every node weight set to 1 so the
total node weight of the result is the node count, and has a zero self-link
total. -/
theorem createNormalizedAssociationStrength_spec (net : Network)
    (hmono : ∀ i' < net.nNodes,
      net.firstNeighborIndices i' ≤ net.firstNeighborIndices (i' + 1))
    (hpos : ∀ i < net.nNodes, 0 < net.nodeWeights i) :
    net.createNormalizedNetworkUsingAssociationStrength.nNodes = net.nNodes
    ∧ net.createNormalizedNetworkUsingAssociationStrength.nEdges = net.nEdges
    ∧ net.createNormalizedNetworkUsingAssociationStrength.firstNeighborIndices
        = net.firstNeighborIndices
    ∧ net.createNormalizedNetworkUsingAssociationStrength.neighbors = net.neighbors
    ∧ (∀ i < net.nNodes, ∀ k ∈ net.row i,
        net.createNormalizedNetworkUsingAssociationStrength.edgeWeights k
          = net.edgeWeights k /
              ((net.nodeWeights i * net.nodeWeights (net.neighbors k))
                / net.getTotalNodeWeight))
    ∧ (∀ i, net.createNormalizedNetworkUsingAssociationStrength.nodeWeights i = 1)
    ∧ net.createNormalizedNetworkUsingAssociationStrength.getTotalNodeWeight
        = (net.nNodes : ℚ)
    ∧ net.createNormalizedNetworkUsingAssociationStrength.totalEdgeWeightSelfLinks = 0 := by
  refine ⟨rfl, rfl, rfl, rfl, ?_, fun _ => rfl, ?_, rfl⟩
  · intro i hi k hk
    unfold Network.createNormalizedNetworkUsingAssociationStrength
    simp only
    rw [slotSource_eq net i k hmono hi hk]
  · unfold Network.getTotalNodeWeight Network.createNormalizedNetworkUsingAssociationStrength
    simp

theorem createNormalizedAssociationStrength_spec_witness :
    (∀ i < pathNet2.nNodes, ∀ k ∈ pathNet2.row i,
      pathNet2.createNormalizedNetworkUsingAssociationStrength.edgeWeights k
        = pathNet2.edgeWeights k /
            ((pathNet2.nodeWeights i * pathNet2.nodeWeights (pathNet2.neighbors k))
              / pathNet2.getTotalNodeWeight))
    ∧ pathNet2.createNormalizedNetworkUsingAssociationStrength.getTotalNodeWeight
        = (pathNet2.nNodes : ℚ) :=
  ⟨(createNormalizedAssociationStrength_spec pathNet2 (by decide)
      (by intro i hi; norm_num [pathNet2])).2.2.2.2.1,
   (createNormalizedAssociationStrength_spec pathNet2 (by decide)
      (by intro i hi; norm_num [pathNet2])).2.2.2.2.2.2.1⟩

theorem rankIn_lt_length (l : List ℕ) (x r : ℕ) (h : rankIn l x = some r) :
    r < l.length := by
  induction l generalizing r with
  | nil => simp [rankIn] at h
  | cons y t ih =>
    unfold rankIn at h
    by_cases hy : y = x
    · rw [if_pos hy] at h
      cases h
      simp
    · rw [if_neg hy] at h
      rcases Option.map_eq_some'.mp h with ⟨r', hr', hr⟩
      subst hr
      exact Nat.succ_lt_succ (ih r' hr')

theorem foldl_max_le_iff (l : List ℕ) (a c : ℕ) :
    l.foldl Nat.max a ≤ c ↔ a ≤ c ∧ ∀ x ∈ l, x ≤ c := by
  induction l generalizing a with
  | nil => simp
  | cons y t ih =>
    simp only [List.foldl_cons, ih, Nat.max_le, List.mem_cons]
    constructor
    · rintro ⟨⟨ha, hy⟩, ht⟩
      exact ⟨ha, fun x hx => hx.elim (fun hh => hh ▸ hy) (ht x)⟩
    · rintro ⟨ha, hall⟩
      exact ⟨⟨ha, hall y (Or.inl rfl)⟩, fun x hx => hall x (Or.inr hx)⟩

theorem le_calcMaximum (cs : List ℕ) (x : ℕ) (hx : x ∈ cs) : x ≤ calcMaximum cs := by
  cases cs with
  | nil => cases hx
  | cons h t =>
    have hfold : t.foldl Nat.max h ≤ calcMaximum (h :: t) := le_rfl
    rw [foldl_max_le_iff] at hfold
    rcases List.mem_cons.mp hx with rfl | hxt
    · exact hfold.1
    · exact hfold.2 x hxt

/-- The largest cluster id stored in the clusters array. -/
def maxStoredId (c : Clustering) : ℕ :=
  Finset.sup (Finset.range c.nNodes) c.clusters

theorem valid_initSingleton (n : ℕ) : ValidClustering (Clustering.initSingleton n) :=
  fun i hi => hi

theorem valid_initBasedOnClusters (cs : List ℕ) :
    ValidClustering (Clustering.initBasedOnClusters cs) := by
  intro i hi
  unfold Clustering.initBasedOnClusters at hi ⊢
  simp only at hi ⊢
  have hmem : cs.getD i 0 ∈ cs := by
    rw [List.getD_eq_getElem cs 0 hi]
    exact List.getElem_mem hi
  exact Nat.lt_succ_of_le (le_calcMaximum cs _ hmem)

theorem valid_setCluster (c : Clustering) (node cluster : ℕ)
    (h : ValidClustering c) : ValidClustering (c.setCluster node cluster) := by
  intro i hi
  unfold Clustering.setCluster
  simp only
  by_cases hin : i = node
  · subst hin
    rw [Function.update_same]
    exact lt_of_lt_of_le (Nat.lt_succ_self cluster) (Nat.le_max_right _ _)
  · rw [Function.update_noteq hin]
    exact lt_of_lt_of_le (h i hi) (Nat.le_max_left _ _)

theorem newLabel_lt (c : Clustering) (l : ℕ) (hl : l < c.nClusters)
    (hne : c.nonEmpty l) :
    c.newLabel l < ((Finset.range c.nClusters).filter c.nonEmpty).card := by
  unfold Clustering.newLabel
  rw [if_pos hne]
  refine Finset.card_lt_card ?_
  constructor
  · exact Finset.filter_subset_filter _ (Finset.range_subset.mpr (le_of_lt hl))
  · intro hsub
    have : l ∈ (Finset.range l).filter c.nonEmpty :=
      hsub (Finset.mem_filter.mpr ⟨Finset.mem_range.mpr hl, hne⟩)
    exact absurd (Finset.mem_range.mp (Finset.mem_filter.mp this).1) (lt_irrefl l)

theorem valid_removeEmptyClusters (c : Clustering) (h : ValidClustering c) :
    ValidClustering c.removeEmptyClusters := by
  intro i hi
  unfold Clustering.removeEmptyClusters at hi ⊢
  simp only at hi ⊢
  exact newLabel_lt c (c.clusters i) (h i hi) ⟨i, hi, rfl⟩

theorem rankLabel_lt (sorted : List ℕ) (nRanks : ℕ) (h : 0 < nRanks) (l : ℕ) :
    rankLabel sorted nRanks l < nRanks := by
  unfold rankLabel
  cases hr : rankIn (sorted.take nRanks) l with
  | none => exact h
  | some r =>
    have := rankIn_lt_length _ _ _ hr
    rw [List.length_take] at this
    exact lt_of_lt_of_le this (min_le_left _ _)

theorem assignedRankCount_pos (w : ℕ → ℚ) (sorted : List ℕ) :
    0 < assignedRankCount w sorted := by
  unfold assignedRankCount
  omega

theorem valid_orderClustersByWeight (c : Clustering) (w : ℕ → ℚ) :
    ValidClustering (c.orderClustersByWeight w) := by
  intro i hi
  unfold Clustering.orderClustersByWeight
  simp only
  exact rankLabel_lt _ _ (assignedRankCount_pos _ _) _

theorem valid_mergeClusters (c outer : Clustering)
    (houter : ValidClustering outer)
    (hdom : ∀ i < c.nNodes, c.clusters i < outer.nNodes) :
    ValidClustering (c.mergeClusters outer) := by
  intro i hi
  unfold Clustering.mergeClusters at hi ⊢
  simp only at hi ⊢
  exact houter _ (hdom i hi)

theorem maxStoredId_lt_iff (c : Clustering) (m : ℕ) (hm : 0 < m) :
    maxStoredId c < m ↔ ∀ i < c.nNodes, c.clusters i < m := by
  unfold maxStoredId
  rw [Finset.sup_lt_iff (by exact hm)]
  constructor
  · intro h i hi
    exact h i (Finset.mem_range.mpr hi)
  · intro h i hi
    exact h i (Finset.mem_range.mp hi)

/-- The two nodes start in singleton clusters; re-assigning node 1 to cluster
0 leaves the stale costume `nClusters = 2` behind while the maximum stored id
drops to 0. -/
def setClusterDemo : Clustering := (Clustering.initSingleton 2).setCluster 1 0

/-- C7 counterexample: after `setCluster(1, 0)` on a two-node singleton
clustering, `nClusters` is 2 while the maximum stored cluster id is 0:
`setCluster` only widens `nClusters` and never shrinks it, so `nClusters`
can exceed the maximum stored id plus one. -/
theorem setCluster_breaks_max_plus_one :
    setClusterDemo.nClusters ≠ maxStoredId setClusterDemo + 1 := by
  decide

theorem sup_range_id (n : ℕ) (hn : 0 < n) :
    Finset.sup (Finset.range n) (fun i => i) = n - 1 := by
  apply le_antisymm
  · exact Finset.sup_le (fun i hi => Nat.le_sub_one_of_lt (Finset.mem_range.mp hi))
  · have hm : n - 1 ∈ Finset.range n := Finset.mem_range.mpr (by omega)
    exact Finset.le_sup (f := fun i => i) hm

theorem initSingleton_eq_max_plus_one (n : ℕ) (hn : 0 < n) :
    (Clustering.initSingleton n).nClusters
      = maxStoredId (Clustering.initSingleton n) + 1 := by
  have h : maxStoredId (Clustering.initSingleton n) = n - 1 := by
    unfold maxStoredId Clustering.initSingleton
    exact sup_range_id n hn
  rw [h]
  show n = n - 1 + 1
  omega

theorem foldl_max_attained (l : List ℕ) (a : ℕ) :
    l.foldl Nat.max a = a ∨ l.foldl Nat.max a ∈ l := by
  induction l generalizing a with
  | nil => exact Or.inl rfl
  | cons y t ih =>
    rw [List.foldl_cons]
    rcases ih (Nat.max a y) with h | h
    · rcases max_choice a y with h2 | h2
      · exact Or.inl (h.trans h2)
      · exact Or.inr (List.mem_cons.mpr (Or.inl (h.trans h2)))
    · exact Or.inr (List.mem_cons_of_mem y h)

theorem calcMaximum_mem (cs : List ℕ) (h : cs ≠ []) : calcMaximum cs ∈ cs := by
  cases cs with
  | nil => exact absurd rfl h
  | cons y t =>
    have heq : calcMaximum (y :: t) = t.foldl Nat.max y := rfl
    rw [heq]
    rcases foldl_max_attained t y with h2 | h2
    · rw [h2]
      exact List.mem_cons_self y t
    · exact List.mem_cons_of_mem y h2

theorem initBasedOnClusters_eq_max_plus_one (cs : List ℕ) (h : cs ≠ []) :
    (Clustering.initBasedOnClusters cs).nClusters
      = maxStoredId (Clustering.initBasedOnClusters cs) + 1 := by
  have hle : maxStoredId (Clustering.initBasedOnClusters cs) ≤ calcMaximum cs := by
    refine Finset.sup_le ?_
    intro i hi
    rw [Finset.mem_range] at hi
    exact Nat.lt_succ_iff.mp (valid_initBasedOnClusters cs i hi)
  have hge : calcMaximum cs ≤ maxStoredId (Clustering.initBasedOnClusters cs) := by
    rcases List.getElem_of_mem (calcMaximum_mem cs h) with ⟨i, hilen, hig⟩
    have : (Clustering.initBasedOnClusters cs).clusters i = calcMaximum cs := by
      unfold Clustering.initBasedOnClusters
      simp only
      rw [List.getD_eq_getElem cs 0 hilen]
      exact hig
    calc calcMaximum cs = (Clustering.initBasedOnClusters cs).clusters i := this.symm
    _ ≤ maxStoredId (Clustering.initBasedOnClusters cs) :=
        Finset.le_sup (Finset.mem_range.mpr hilen)
  have heq : maxStoredId (Clustering.initBasedOnClusters cs) = calcMaximum cs :=
    le_antisymm hle hge
  rw [heq]
  rfl

theorem removeEmpty_eq_max_plus_one (c : Clustering) (h : ValidClustering c)
    (h0 : 0 < c.nNodes) :
    c.removeEmptyClusters.nClusters = maxStoredId c.removeEmptyClusters + 1 := by
  classical
  set s := (Finset.range c.nClusters).filter c.nonEmpty with hs
  have hne : s.Nonempty := by
    refine ⟨c.clusters 0, ?_⟩
    rw [hs, Finset.mem_filter, Finset.mem_range]
    exact ⟨h 0 h0, 0, h0, rfl⟩
  set lstar := s.max' hne with hlstar
  have hmem : lstar ∈ s := s.max'_mem hne
  have hlm : lstar < c.nClusters := by
    have := (Finset.mem_filter.mp hmem).1
    exact Finset.mem_range.mp this
  have hlp : c.nonEmpty lstar := (Finset.mem_filter.mp hmem).2
  have hsplit : s = insert lstar ((Finset.range lstar).filter c.nonEmpty) := by
    ext x
    rw [Finset.mem_insert, Finset.mem_filter, Finset.mem_filter, Finset.mem_range,
      Finset.mem_range]
    constructor
    · rintro ⟨hx, px⟩
      rcases Nat.lt_or_ge x lstar with hlt | hge
      · exact Or.inr ⟨hlt, px⟩
      · left
        have : x ≤ lstar := by
          refine Finset.le_max' s x ?_
          rw [hs, Finset.mem_filter, Finset.mem_range]
          exact ⟨hx, px⟩
        omega
    · rintro (rfl | ⟨hlt, px⟩)
      · exact ⟨hlm, hlp⟩
      · exact ⟨lt_trans hlt hlm, px⟩
  have hnotmem : lstar ∉ (Finset.range lstar).filter c.nonEmpty := by
    intro hmem2
    exact absurd (Finset.mem_range.mp (Finset.mem_filter.mp hmem2).1) (lt_irrefl lstar)
  have hcard : s.card = ((Finset.range lstar).filter c.nonEmpty).card + 1 := by
    rw [hsplit, Finset.card_insert_of_not_mem hnotmem]
  have hlabel : c.newLabel lstar = s.card - 1 := by
    unfold Clustering.newLabel
    rw [if_pos hlp, hcard]
    omega
  rcases hlp with ⟨i0, hi0, hci0⟩
  have hub : maxStoredId c.removeEmptyClusters ≤ s.card - 1 := by
    refine Finset.sup_le ?_
    intro i hi
    rw [Finset.mem_range] at hi
    have := valid_removeEmptyClusters c h i hi
    unfold Clustering.removeEmptyClusters at this
    simp only at this
    exact Nat.le_sub_one_of_lt this
  have hlb : s.card - 1 ≤ maxStoredId c.removeEmptyClusters := by
    have hval : c.removeEmptyClusters.clusters i0 = s.card - 1 := by
      unfold Clustering.removeEmptyClusters
      simp only
      rw [hci0]
      exact hlabel
    calc s.card - 1 = c.removeEmptyClusters.clusters i0 := hval.symm
    _ ≤ maxStoredId c.removeEmptyClusters := by
        refine Finset.le_sup ?_
        rw [Finset.mem_range]
        exact hi0
  have hcc : maxStoredId c.removeEmptyClusters = s.card - 1 := le_antisymm hub hlb
  have hpos : 0 < s.card := Finset.card_pos.mpr hne
  have : c.removeEmptyClusters.nClusters = s.card := rfl
  omega

/-- C7 (amended): across the public operations, `nClusters` is at least one
more than the maximum cluster id stored in the clusters array — construction
(singleton or from an explicit array) gives equality, `removeEmptyClusters`
restores equality, and `setCluster`, the ordering operations and
`mergeClusters` preserve the bound; `setCluster` can leave `nClusters`
strictly larger than the maximum stored id plus one, so equality does not hold
for every reachable clustering. -/
theorem nClusters_bounds_maxStoredId :
    (∀ n : ℕ, 0 < n → (Clustering.initSingleton n).nClusters
        = maxStoredId (Clustering.initSingleton n) + 1)
    ∧ (∀ cs : List ℕ, cs ≠ [] → (Clustering.initBasedOnClusters cs).nClusters
        = maxStoredId (Clustering.initBasedOnClusters cs) + 1)
    ∧ (∀ (c : Clustering) (node cluster : ℕ),
        maxStoredId c + 1 ≤ c.nClusters →
        maxStoredId (c.setCluster node cluster) + 1 ≤ (c.setCluster node cluster).nClusters)
    ∧ (∀ c : Clustering, ValidClustering c → 0 < c.nNodes →
        c.removeEmptyClusters.nClusters = maxStoredId c.removeEmptyClusters + 1)
    ∧ (∀ (c : Clustering) (w : ℕ → ℚ),
        maxStoredId (c.orderClustersByWeight w) + 1 ≤ (c.orderClustersByWeight w).nClusters)
    ∧ (∀ c : Clustering,
        maxStoredId c.orderClustersByNNodes + 1 ≤ c.orderClustersByNNodes.nClusters)
    ∧ (∀ c outer : Clustering, maxStoredId outer + 1 ≤ outer.nClusters →
        (∀ i < c.nNodes, c.clusters i < outer.nNodes) →
        maxStoredId (c.mergeClusters outer) + 1 ≤ (c.mergeClusters outer).nClusters) := by
  have hvalid_of : ∀ c : Clustering, maxStoredId c + 1 ≤ c.nClusters → ValidClustering c := by
    intro c hb
    have h0 : 0 < c.nClusters := by omega
    exact (maxStoredId_lt_iff c c.nClusters h0).mp (by omega)
  have hof_valid : ∀ c : Clustering, ValidClustering c → 0 < c.nClusters →
      maxStoredId c + 1 ≤ c.nClusters := by
    intro c hv h0
    have := (maxStoredId_lt_iff c c.nClusters h0).mpr hv
    omega
  refine ⟨initSingleton_eq_max_plus_one, initBasedOnClusters_eq_max_plus_one, ?_, ?_, ?_, ?_, ?_⟩
  · intro c node cluster hb
    refine hof_valid _ (valid_setCluster c node cluster (hvalid_of c hb)) ?_
    exact lt_of_lt_of_le (Nat.succ_pos cluster) (Nat.le_max_right _ _)
  · exact removeEmpty_eq_max_plus_one
  · intro c w
    exact hof_valid _ (valid_orderClustersByWeight c w) (assignedRankCount_pos _ _)
  · intro c
    exact hof_valid _ (valid_orderClustersByWeight c _) (assignedRankCount_pos _ _)
  · intro c outer hb hdom
    have h0 : 0 < outer.nClusters := by omega
    exact hof_valid _ (valid_mergeClusters c outer (hvalid_of outer hb) hdom) h0

theorem nClusters_bounds_maxStoredId_witness :
    (Clustering.initSingleton 2).nClusters = maxStoredId (Clustering.initSingleton 2) + 1
    ∧ maxStoredId ((Clustering.initSingleton 2).setCluster 1 0) + 1
        ≤ ((Clustering.initSingleton 2).setCluster 1 0).nClusters
    ∧ setClusterDemo.removeEmptyClusters.nClusters
        = maxStoredId setClusterDemo.removeEmptyClusters + 1 :=
  ⟨nClusters_bounds_maxStoredId.1 2 (by decide),
   nClusters_bounds_maxStoredId.2.2.1 (Clustering.initSingleton 2) 1 0 (by decide),
   nClusters_bounds_maxStoredId.2.2.2.1 setClusterDemo (by decide) (by decide)⟩

/-- The adjacency slots of node `l` as a list, in loop order. -/
def rowSlots (net : Network) (l : ℕ) : List ℕ :=
  List.range' (net.firstNeighborIndices l)
    (net.firstNeighborIndices (l + 1) - net.firstNeighborIndices l)

/-- The in-progress per-cluster scan of `createReducedNetwork` (network.ts):
`j` counts the distinct neighbouring clusters found so far,
`neighbors2`/`edgeWeights2` are the scratch arrays
`reducedNetworkNeighbors2`/`reducedNetworkEdgeWeights2`, `nodeWeight`
accumulates the weight of the current super-node and `selfLinks` the running
self-link total of the reduced network. -/
structure ClusterScan where
  j : ℕ
  neighbors2 : ℕ → ℕ
  edgeWeights2 : ℕ → ℚ
  nodeWeight : ℚ
  selfLinks : ℚ

/-- One adjacency slot `m` of a member node, inside the innermost loop of
`createReducedNetwork` (network.ts): an edge to another cluster `nn` is
accumulated into the scratch weight array (recording `nn` on first sight),
an intra-cluster edge folds into the self-link total. -/
def scanSlot (net : Network) (c : Clustering) (i : ℕ) (st : ClusterScan) (m : ℕ) :
    ClusterScan :=
  let nn := c.clusters (net.neighbors m)
  if nn ≠ i then
    { st with
      neighbors2 := if st.edgeWeights2 nn = 0
        then Function.update st.neighbors2 st.j nn else st.neighbors2
      j := if st.edgeWeights2 nn = 0 then st.j + 1 else st.j
      edgeWeights2 :=
        Function.update st.edgeWeights2 nn (st.edgeWeights2 nn + net.edgeWeights m) }
  else
    { st with selfLinks := st.selfLinks + net.edgeWeights m }

/-- One member node `l` of the cluster being reduced: its weight joins the
super-node weight and its adjacency row is scanned slot by slot. -/
def scanNode (net : Network) (c : Clustering) (i : ℕ) (st : ClusterScan) (l : ℕ) :
    ClusterScan :=
  (rowSlots net l).foldl (scanSlot net c i)
    { st with nodeWeight := st.nodeWeight + net.nodeWeights l }

/-- The builder state of `createReducedNetwork` (network.ts) between clusters:
the fields of the reduced network under construction together with the
persistent scratch arrays. -/
structure ReducedState where
  nEdges : ℕ
  nodeWeights : ℕ → ℚ
  firstNeighborIndices : ℕ → ℕ
  neighbors1 : ℕ → ℕ
  edgeWeights1 : ℕ → ℚ
  totalEdgeWeightSelfLinks : ℚ
  neighbors2 : ℕ → ℕ
  edgeWeights2 : ℕ → ℚ

/-- Processing of one cluster `i` by `createReducedNetwork` (network.ts):
scan the member nodes, then copy the `j` accumulated neighbouring clusters
and weights into the CSR arrays, resetting the touched scratch entries, and
record the new offset. -/
def reduceCluster (net : Network) (c : Clustering) (st : ReducedState) (i : ℕ) :
    ReducedState :=
  let scan := (c.nodesOfCluster i).foldl (scanNode net c i)
    { j := 0, neighbors2 := st.neighbors2, edgeWeights2 := st.edgeWeights2,
      nodeWeight := 0, selfLinks := st.totalEdgeWeightSelfLinks }
  let copied := (List.range scan.j).foldl
    (fun (acc : (ℕ → ℕ) × (ℕ → ℚ) × (ℕ → ℚ)) k =>
      let nn := scan.neighbors2 k
      (Function.update acc.1 (st.nEdges + k) nn,
       Function.update acc.2.1 (st.nEdges + k) (acc.2.2 nn),
       Function.update acc.2.2 nn 0))
    (st.neighbors1, st.edgeWeights1, scan.edgeWeights2)
  { nEdges := st.nEdges + scan.j
    nodeWeights := Function.update st.nodeWeights i scan.nodeWeight
    firstNeighborIndices :=
      Function.update st.firstNeighborIndices (i + 1) (st.nEdges + scan.j)
    neighbors1 := copied.1
    edgeWeights1 := copied.2.1
    totalEdgeWeightSelfLinks := scan.selfLinks
    neighbors2 := scan.neighbors2
    edgeWeights2 := copied.2.2 }

/-- `createReducedNetwork` (network.ts, lines 677-724): one super-node per
cluster, super-node weight the sum of member weights, inter-cluster edges
accumulated through the scratch arrays, intra-cluster edges folded into the
self-link total. -/
def Network.createReducedNetwork (net : Network) (c : Clustering) : Network :=
  let fin := (List.range c.nClusters).foldl (reduceCluster net c)
    { nEdges := 0
      nodeWeights := fun _ => 0
      firstNeighborIndices := fun _ => 0
      neighbors1 := fun _ => 0
      edgeWeights1 := fun _ => 0
      totalEdgeWeightSelfLinks := net.totalEdgeWeightSelfLinks
      neighbors2 := fun _ => 0
      edgeWeights2 := fun _ => 0 }
  { nNodes := c.nClusters
    nEdges := fin.nEdges
    nodeWeights := fin.nodeWeights
    firstNeighborIndices := fin.firstNeighborIndices
    neighbors := fin.neighbors1
    edgeWeights := fin.edgeWeights1
    totalEdgeWeightSelfLinks := fin.totalEdgeWeightSelfLinks }

theorem filter_range_eq_single (n t : ℕ) (ht : t < n) :
    (List.range n).filter (fun i => decide (i = t)) = [t] := by
  induction n with
  | zero => omega
  | succ n ih =>
    rw [List.range_succ, List.filter_append]
    rcases Nat.lt_or_ge t n with h | h
    · rw [ih h]
      have hne : ¬ (n = t) := by omega
      have : (List.filter (fun i => decide (i = t)) [n]) = [] := by
        simp [hne]
      rw [this, List.append_nil]
    · have ht2 : t = n := by omega
      subst ht2
      have h1 : (List.range t).filter (fun i => decide (i = t)) = [] := by
        rw [List.filter_eq_nil_iff]
        intro a ha
        simp only [decide_eq_true_eq]
        have := List.mem_range.mp ha
        omega
      rw [h1]
      simp

theorem nodesOfCluster_singleton (n t : ℕ) (ht : t < n) :
    (Clustering.initSingleton n).nodesOfCluster t = [t] := by
  unfold Clustering.nodesOfCluster Clustering.initSingleton
  simp only
  exact filter_range_eq_single n t ht

theorem mem_row_iff (net : Network) (t k : ℕ) :
    k ∈ net.row t ↔ net.firstNeighborIndices t ≤ k ∧ k < net.firstNeighborIndices (t + 1) := by
  rw [Network.row, Finset.mem_Ico]

theorem row_nbr_injective (net : Network) (t : ℕ) (ht : t < net.nNodes)
    (hsort : ∀ i < net.nNodes, ∀ k ∈ net.row i, ∀ k' ∈ net.row i,
      k < k' → net.neighbors k < net.neighbors k')
    (q q' : ℕ)
    (hq : net.firstNeighborIndices t + q < net.firstNeighborIndices (t + 1))
    (hq' : net.firstNeighborIndices t + q' < net.firstNeighborIndices (t + 1))
    (hne : q ≠ q') :
    net.neighbors (net.firstNeighborIndices t + q)
      ≠ net.neighbors (net.firstNeighborIndices t + q') := by
  have hm : net.firstNeighborIndices t + q ∈ net.row t :=
    (mem_row_iff net t _).mpr ⟨Nat.le_add_right _ _, hq⟩
  have hm' : net.firstNeighborIndices t + q' ∈ net.row t :=
    (mem_row_iff net t _).mpr ⟨Nat.le_add_right _ _, hq'⟩
  rcases Nat.lt_or_ge q q' with h | h
  · exact Nat.ne_of_lt (hsort t ht _ hm _ hm' (by omega))
  · have h2 : q' < q := by omega
    exact (Nat.ne_of_lt (hsort t ht _ hm' _ hm (by omega))).symm

theorem scan_row_singleton (net : Network) (t : ℕ) (ht : t < net.nNodes)
    (hns : ∀ i < net.nNodes, ∀ k ∈ net.row i, net.neighbors k ≠ i)
    (hsort : ∀ i < net.nNodes, ∀ k ∈ net.row i, ∀ k' ∈ net.row i,
      k < k' → net.neighbors k < net.neighbors k')
    (N0 : ℕ → ℕ) (w0 s0 : ℚ) (s : ℕ)
    (hs : net.firstNeighborIndices t + s ≤ net.firstNeighborIndices (t + 1)) :
    ((List.range' (net.firstNeighborIndices t) s).foldl
        (scanSlot net (Clustering.initSingleton net.nNodes) t)
        { j := 0, neighbors2 := N0, edgeWeights2 := fun _ => 0,
          nodeWeight := w0, selfLinks := s0 }).j = s
    ∧ (∀ q < s,
        ((List.range' (net.firstNeighborIndices t) s).foldl
          (scanSlot net (Clustering.initSingleton net.nNodes) t)
          { j := 0, neighbors2 := N0, edgeWeights2 := fun _ => 0,
            nodeWeight := w0, selfLinks := s0 }).neighbors2 q
          = net.neighbors (net.firstNeighborIndices t + q))
    ∧ (∀ x,
        ((List.range' (net.firstNeighborIndices t) s).foldl
          (scanSlot net (Clustering.initSingleton net.nNodes) t)
          { j := 0, neighbors2 := N0, edgeWeights2 := fun _ => 0,
            nodeWeight := w0, selfLinks := s0 }).edgeWeights2 x
          = ∑ q ∈ (Finset.range s).filter
              (fun q => net.neighbors (net.firstNeighborIndices t + q) = x),
              net.edgeWeights (net.firstNeighborIndices t + q))
    ∧ ((List.range' (net.firstNeighborIndices t) s).foldl
        (scanSlot net (Clustering.initSingleton net.nNodes) t)
        { j := 0, neighbors2 := N0, edgeWeights2 := fun _ => 0,
          nodeWeight := w0, selfLinks := s0 }).nodeWeight = w0
    ∧ ((List.range' (net.firstNeighborIndices t) s).foldl
        (scanSlot net (Clustering.initSingleton net.nNodes) t)
        { j := 0, neighbors2 := N0, edgeWeights2 := fun _ => 0,
          nodeWeight := w0, selfLinks := s0 }).selfLinks = s0 := by
  induction s with
  | zero =>
    refine ⟨rfl, ?_, ?_, rfl, rfl⟩
    · intro q hq; omega
    · intro x; simp
  | succ s ih =>
    have hs' : net.firstNeighborIndices t + s ≤ net.firstNeighborIndices (t + 1) := by
      omega
    obtain ⟨hj, hnbr2, hew2, hnw, hsl⟩ := ih hs'
    set base := net.firstNeighborIndices t with hbase
    set sc := (List.range' base s).foldl
        (scanSlot net (Clustering.initSingleton net.nNodes) t)
        { j := 0, neighbors2 := N0, edgeWeights2 := fun _ => 0,
          nodeWeight := w0, selfLinks := s0 } with hsc
    have hsplit : (List.range' base (s + 1)) = List.range' base s ++ [base + s] := by
      rw [List.range'_concat]
      simp
    rw [hsplit, List.foldl_append]
    simp only [List.foldl_cons, List.foldl_nil]
    rw [← hsc]
    have hmemrow : base + s ∈ net.row t :=
      (mem_row_iff net t _).mpr ⟨Nat.le_add_right _ _, by omega⟩
    have hnn : (Clustering.initSingleton net.nNodes).clusters
        (net.neighbors (base + s)) = net.neighbors (base + s) := rfl
    have hnnt : net.neighbors (base + s) ≠ t := hns t ht _ hmemrow
    have hfilter_empty : (Finset.range s).filter
        (fun q => net.neighbors (base + q) = net.neighbors (base + s)) = ∅ := by
      rw [Finset.filter_eq_empty_iff]
      intro q hq
      rw [Finset.mem_range] at hq
      exact row_nbr_injective net t ht hsort q s (by omega) (by omega) (by omega)
    have hcur0 : sc.edgeWeights2 (net.neighbors (base + s)) = 0 := by
      rw [hew2, hfilter_empty, Finset.sum_empty]
    unfold scanSlot
    rw [hnn, if_pos hnnt, if_pos hcur0, if_pos hcur0]
    refine ⟨by show sc.j + 1 = s + 1; omega, ?_, ?_, hnw, hsl⟩
    · intro q hq
      simp only
      rcases Nat.lt_or_ge q s with h | h
      · rw [Function.update_noteq (by omega)]
        exact hnbr2 q h
      · have hqs : q = s := by omega
        subst hqs
        rw [hj, Function.update_same]
    · intro x
      simp only
      by_cases hx : net.neighbors (base + s) = x
      · subst hx
        rw [Function.update_same, hcur0]
        have hfs : (Finset.range (s + 1)).filter
            (fun q => net.neighbors (base + q) = net.neighbors (base + s))
            = {s} := by
          rw [Finset.range_succ, Finset.filter_insert, if_pos rfl, hfilter_empty]
          rfl
        rw [hfs, Finset.sum_singleton]
        ring
      · rw [Function.update_noteq (fun hh => hx hh.symm), hew2]
        have hfs : (Finset.range (s + 1)).filter
            (fun q => net.neighbors (base + q) = x)
            = (Finset.range s).filter (fun q => net.neighbors (base + q) = x) := by
          rw [Finset.range_succ, Finset.filter_insert, if_neg hx]
        rw [hfs]

theorem copy_loop_singleton (net : Network) (t : ℕ) (ht : t < net.nNodes)
    (hsort : ∀ i < net.nNodes, ∀ k ∈ net.row i, ∀ k' ∈ net.row i,
      k < k' → net.neighbors k < net.neighbors k')
    (len : ℕ) (hlen : net.firstNeighborIndices t + len = net.firstNeighborIndices (t + 1))
    (nbrs2 : ℕ → ℕ) (hnbrs2 : ∀ q < len, nbrs2 q = net.neighbors (net.firstNeighborIndices t + q))
    (N1 : ℕ → ℕ) (W1 : ℕ → ℚ) (E2 : ℕ → ℚ)
    (hE2 : ∀ x, E2 x = ∑ q ∈ (Finset.range len).filter
        (fun q => net.neighbors (net.firstNeighborIndices t + q) = x),
        net.edgeWeights (net.firstNeighborIndices t + q))
    (r : ℕ) (hr : r ≤ len) :
    (∀ q < r, ((List.range r).foldl
        (fun (acc : (ℕ → ℕ) × (ℕ → ℚ) × (ℕ → ℚ)) k =>
          let nn := nbrs2 k
          (Function.update acc.1 (net.firstNeighborIndices t + k) nn,
           Function.update acc.2.1 (net.firstNeighborIndices t + k) (acc.2.2 nn),
           Function.update acc.2.2 nn 0)) (N1, W1, E2)).1
        (net.firstNeighborIndices t + q) = net.neighbors (net.firstNeighborIndices t + q))
    ∧ (∀ k < net.firstNeighborIndices t, ((List.range r).foldl
        (fun (acc : (ℕ → ℕ) × (ℕ → ℚ) × (ℕ → ℚ)) k =>
          let nn := nbrs2 k
          (Function.update acc.1 (net.firstNeighborIndices t + k) nn,
           Function.update acc.2.1 (net.firstNeighborIndices t + k) (acc.2.2 nn),
           Function.update acc.2.2 nn 0)) (N1, W1, E2)).1 k = N1 k)
    ∧ (∀ q < r, ((List.range r).foldl
        (fun (acc : (ℕ → ℕ) × (ℕ → ℚ) × (ℕ → ℚ)) k =>
          let nn := nbrs2 k
          (Function.update acc.1 (net.firstNeighborIndices t + k) nn,
           Function.update acc.2.1 (net.firstNeighborIndices t + k) (acc.2.2 nn),
           Function.update acc.2.2 nn 0)) (N1, W1, E2)).2.1
        (net.firstNeighborIndices t + q) = net.edgeWeights (net.firstNeighborIndices t + q))
    ∧ (∀ k < net.firstNeighborIndices t, ((List.range r).foldl
        (fun (acc : (ℕ → ℕ) × (ℕ → ℚ) × (ℕ → ℚ)) k =>
          let nn := nbrs2 k
          (Function.update acc.1 (net.firstNeighborIndices t + k) nn,
           Function.update acc.2.1 (net.firstNeighborIndices t + k) (acc.2.2 nn),
           Function.update acc.2.2 nn 0)) (N1, W1, E2)).2.1 k = W1 k)
    ∧ (∀ x, ((List.range r).foldl
        (fun (acc : (ℕ → ℕ) × (ℕ → ℚ) × (ℕ → ℚ)) k =>
          let nn := nbrs2 k
          (Function.update acc.1 (net.firstNeighborIndices t + k) nn,
           Function.update acc.2.1 (net.firstNeighborIndices t + k) (acc.2.2 nn),
           Function.update acc.2.2 nn 0)) (N1, W1, E2)).2.2 x
        = ∑ q ∈ (Finset.Ico r len).filter
            (fun q => net.neighbors (net.firstNeighborIndices t + q) = x),
            net.edgeWeights (net.firstNeighborIndices t + q)) := by
  induction r with
  | zero =>
    refine ⟨fun q hq => absurd hq (Nat.not_lt_zero q), fun k _ => rfl,
      fun q hq => absurd hq (Nat.not_lt_zero q), fun k _ => rfl, ?_⟩
    intro x
    simp only [List.range_zero, List.foldl_nil]
    rw [hE2 x, Finset.range_eq_Ico]
  | succ r ih =>
    have hr' : r ≤ len := by omega
    obtain ⟨h1, h2, h3, h4, h5⟩ := ih hr'
    set base := net.firstNeighborIndices t with hbase
    set acc := (List.range r).foldl
        (fun (acc : (ℕ → ℕ) × (ℕ → ℚ) × (ℕ → ℚ)) k =>
          let nn := nbrs2 k
          (Function.update acc.1 (base + k) nn,
           Function.update acc.2.1 (base + k) (acc.2.2 nn),
           Function.update acc.2.2 nn 0)) (N1, W1, E2) with hacc
    rw [List.range_succ, List.foldl_append]
    simp only [List.foldl_cons, List.foldl_nil]
    rw [← hacc]
    have hnn : nbrs2 r = net.neighbors (base + r) := hnbrs2 r (by omega)
    have hread : acc.2.2 (nbrs2 r) = net.edgeWeights (base + r) := by
      rw [h5 (nbrs2 r), hnn]
      have hfs : (Finset.Ico r len).filter
          (fun q => net.neighbors (base + q) = net.neighbors (base + r)) = {r} := by
        ext q
        rw [Finset.mem_filter, Finset.mem_Ico, Finset.mem_singleton]
        constructor
        · rintro ⟨⟨hq1, hq2⟩, hq3⟩
          by_contra hne
          exact row_nbr_injective net t ht hsort q r (by omega) (by omega) hne hq3
        · rintro rfl
          exact ⟨⟨le_rfl, by omega⟩, rfl⟩
      rw [hfs, Finset.sum_singleton]
    refine ⟨?_, ?_, ?_, ?_, ?_⟩
    · intro q hq
      rcases Nat.lt_or_ge q r with h | h
      · rw [Function.update_noteq (by omega)]
        exact h1 q h
      · have hqr : q = r := by omega
        subst hqr
        rw [Function.update_same]
        exact hnn
    · intro k hk
      rw [Function.update_noteq (by omega)]
      exact h2 k hk
    · intro q hq
      rcases Nat.lt_or_ge q r with h | h
      · rw [Function.update_noteq (by omega)]
        exact h3 q h
      · have hqr : q = r := by omega
        subst hqr
        rw [Function.update_same]
        exact hread
    · intro k hk
      rw [Function.update_noteq (by omega)]
      exact h4 k hk
    · intro x
      by_cases hx : nbrs2 r = x
      · subst hx
        rw [Function.update_same]
        symm
        rw [Finset.sum_eq_zero_iff_of_nonneg]
        · intro q hq
          rw [Finset.mem_filter, Finset.mem_Ico] at hq
          exfalso
          rw [hnn] at hq
          exact row_nbr_injective net t ht hsort q r (by omega) (by omega)
            (by omega) hq.2
        · intro q hq
          rw [Finset.mem_filter, Finset.mem_Ico] at hq
          exfalso
          rw [hnn] at hq
          exact row_nbr_injective net t ht hsort q r (by omega) (by omega)
            (by omega) hq.2
      · rw [Function.update_noteq (fun hh => hx hh.symm), h5 x]
        have hfs : (Finset.Ico r len).filter (fun q => net.neighbors (base + q) = x)
            = (Finset.Ico (r + 1) len).filter (fun q => net.neighbors (base + q) = x) := by
          ext q
          rw [Finset.mem_filter, Finset.mem_filter, Finset.mem_Ico, Finset.mem_Ico]
          constructor
          · rintro ⟨⟨hq1, hq2⟩, hq3⟩
            refine ⟨⟨?_, hq2⟩, hq3⟩
            rcases Nat.lt_or_ge r q with h | h
            · omega
            · have hqr : q = r := by omega
              subst hqr
              rw [hnn] at hx
              exact absurd hq3 hx
          · rintro ⟨⟨hq1, hq2⟩, hq3⟩
            exact ⟨⟨by omega, hq2⟩, hq3⟩
        rw [hfs]

/-- The state invariant of the `createReducedNetwork` builder after the first
`t` clusters, for the singleton clustering: the fields built so far agree with
the input network and the scratch accumulator is clean. -/
def ReducedInvariant (net : Network) (t : ℕ) (st : ReducedState) : Prop :=
  st.nEdges = net.firstNeighborIndices t
  ∧ (∀ i ≤ t, st.firstNeighborIndices i = net.firstNeighborIndices i)
  ∧ (∀ i < t, st.nodeWeights i = net.nodeWeights i)
  ∧ (∀ k < net.firstNeighborIndices t, st.neighbors1 k = net.neighbors k)
  ∧ (∀ k < net.firstNeighborIndices t, st.edgeWeights1 k = net.edgeWeights k)
  ∧ st.totalEdgeWeightSelfLinks = net.totalEdgeWeightSelfLinks
  ∧ (∀ x, st.edgeWeights2 x = 0)

theorem reduceCluster_singleton_step (net : Network) (hinv : NetworkInvariants net)
    (t : ℕ) (ht : t < net.nNodes) (st : ReducedState)
    (h : ReducedInvariant net t st) :
    ReducedInvariant net (t + 1)
      (reduceCluster net (Clustering.initSingleton net.nNodes) st t) := by
  obtain ⟨hE, hF, hW, hN1, hW1, hS, hE2⟩ := h
  have hmono_t : net.firstNeighborIndices t ≤ net.firstNeighborIndices (t + 1) :=
    hinv.fni_mono t ht
  set base := net.firstNeighborIndices t with hbase
  set len := net.firstNeighborIndices (t + 1) - net.firstNeighborIndices t with hlen
  have hbl : base + len = net.firstNeighborIndices (t + 1) := by omega
  have hE2fun : st.edgeWeights2 = fun _ => 0 := funext hE2
  unfold reduceCluster
  rw [nodesOfCluster_singleton net.nNodes t ht]
  simp only [List.foldl_cons, List.foldl_nil]
  unfold scanNode
  have hrowslots : rowSlots net t = List.range' base len := rfl
  rw [hrowslots, hE2fun]
  obtain ⟨hj, hnbr2, hew2, hnw, hsl⟩ := scan_row_singleton net t ht hinv.no_self
    hinv.sorted_row st.neighbors2 (0 + net.nodeWeights t) st.totalEdgeWeightSelfLinks
    len (by omega)
  set scan := (List.range' base len).foldl
      (scanSlot net (Clustering.initSingleton net.nNodes) t)
      { j := 0, neighbors2 := st.neighbors2, edgeWeights2 := fun _ => 0,
        nodeWeight := 0 + net.nodeWeights t, selfLinks := st.totalEdgeWeightSelfLinks }
    with hscan
  rw [hE]
  obtain ⟨c1, c2, c3, c4, c5⟩ := copy_loop_singleton net t ht hinv.sorted_row len hbl
    scan.neighbors2 hnbr2 st.neighbors1 st.edgeWeights1 scan.edgeWeights2 hew2
    scan.j (le_of_eq hj)
  rw [hj] at c1 c2 c3 c4 c5 ⊢
  refine ⟨?_, ?_, ?_, ?_, ?_, ?_, ?_⟩
  · show base + len = net.firstNeighborIndices (t + 1)
    exact hbl
  · intro i hi
    show Function.update st.firstNeighborIndices (t + 1) (base + len) i
      = net.firstNeighborIndices i
    rcases Nat.lt_or_ge i (t + 1) with h | h
    · rw [Function.update_noteq (by omega)]
      exact hF i (by omega)
    · have : i = t + 1 := by omega
      subst this
      rw [Function.update_same]
      exact hbl
  · intro i hi
    show Function.update st.nodeWeights t scan.nodeWeight i = net.nodeWeights i
    rcases Nat.lt_or_ge i t with h | h
    · rw [Function.update_noteq (by omega)]
      exact hW i h
    · have : i = t := by omega
      subst this
      rw [Function.update_same, hnw]
      ring
  · intro k hk
    rcases Nat.lt_or_ge k base with h | h
    · exact (c2 k h).trans (hN1 k h)
    · have hq : k = base + (k - base) := by omega
      rw [hq]
      exact c1 (k - base) (by omega)
  · intro k hk
    rcases Nat.lt_or_ge k base with h | h
    · exact (c4 k h).trans (hW1 k h)
    · have hq : k = base + (k - base) := by omega
      rw [hq]
      exact c3 (k - base) (by omega)
  · show scan.selfLinks = net.totalEdgeWeightSelfLinks
    rw [hsl]
    exact hS
  · intro x
    have h5' := c5 x
    rw [Finset.Ico_self, Finset.filter_empty, Finset.sum_empty] at h5'
    exact h5'

theorem reduced_singleton_invariant (net : Network) (hinv : NetworkInvariants net) :
    ∀ t ≤ net.nNodes, ReducedInvariant net t
      ((List.range t).foldl
        (reduceCluster net (Clustering.initSingleton net.nNodes))
        { nEdges := 0
          nodeWeights := fun _ => 0
          firstNeighborIndices := fun _ => 0
          neighbors1 := fun _ => 0
          edgeWeights1 := fun _ => 0
          totalEdgeWeightSelfLinks := net.totalEdgeWeightSelfLinks
          neighbors2 := fun _ => 0
          edgeWeights2 := fun _ => 0 }) := by
  intro t
  induction t with
  | zero =>
    intro _
    refine ⟨hinv.fni_zero.symm, ?_, ?_, ?_, ?_, rfl, fun x => rfl⟩
    · intro i hi
      cases Nat.le_zero.mp hi
      exact hinv.fni_zero.symm
    · intro i hi; omega
    · intro k hk
      rw [hinv.fni_zero] at hk
      omega
    · intro k hk
      rw [hinv.fni_zero] at hk
      omega
  | succ t ih =>
    intro hts
    rw [List.range_succ, List.foldl_append]
    simp only [List.foldl_cons, List.foldl_nil]
    exact reduceCluster_singleton_step net hinv t (by omega) _ (ih (by omega))

/-- C4: for every network satisfying the construction invariants,
`createReducedNetwork` applied with the singleton clustering returns a network
equal to the original field by field: same node and edge counts, node weights,
offsets, neighbour lists, edge weights and self-link total. -/
theorem createReducedNetwork_singleton_identity (net : Network)
    (hinv : NetworkInvariants net) :
    (net.createReducedNetwork (Clustering.initSingleton net.nNodes)).nNodes = net.nNodes
    ∧ (net.createReducedNetwork (Clustering.initSingleton net.nNodes)).nEdges = net.nEdges
    ∧ (∀ i < net.nNodes,
        (net.createReducedNetwork (Clustering.initSingleton net.nNodes)).nodeWeights i
          = net.nodeWeights i)
    ∧ (∀ i ≤ net.nNodes,
        (net.createReducedNetwork (Clustering.initSingleton net.nNodes)).firstNeighborIndices i
          = net.firstNeighborIndices i)
    ∧ (∀ k < net.nEdges,
        (net.createReducedNetwork (Clustering.initSingleton net.nNodes)).neighbors k
          = net.neighbors k)
    ∧ (∀ k < net.nEdges,
        (net.createReducedNetwork (Clustering.initSingleton net.nNodes)).edgeWeights k
          = net.edgeWeights k)
    ∧ (net.createReducedNetwork (Clustering.initSingleton net.nNodes)).totalEdgeWeightSelfLinks
        = net.totalEdgeWeightSelfLinks := by
  obtain ⟨hE, hF, hW, hN1, hW1, hS, hE2⟩ :=
    reduced_singleton_invariant net hinv net.nNodes le_rfl
  rw [hinv.fni_last] at hE hN1 hW1
  exact ⟨rfl, hE, hW, hF, hN1, hW1, hS⟩

theorem createReducedNetwork_singleton_identity_witness :
    (pathNet2.createReducedNetwork (Clustering.initSingleton pathNet2.nNodes)).nEdges
      = pathNet2.nEdges
    ∧ (∀ k < pathNet2.nEdges,
        (pathNet2.createReducedNetwork (Clustering.initSingleton pathNet2.nNodes)).edgeWeights k
          = pathNet2.edgeWeights k) :=
  ⟨(createReducedNetwork_singleton_identity pathNet2 pathNet2_invariants).2.1,
   (createReducedNetwork_singleton_identity pathNet2 pathNet2_invariants).2.2.2.2.2.1⟩

/-- The lexicographic edge comparator of `sortEdges` (network.ts,
`compareEdges`): sort index `a` before index `b` when edge `a` is
lexicographically no greater than edge `b` (the source sort is stable, so tied
edges keep their order). -/
def edgeLE (e0 e1 : List ℕ) (a b : ℕ) : Bool :=
  decide (e0.getD a 0 < e0.getD b 0
    ∨ (e0.getD a 0 = e0.getD b 0 ∧ e1.getD a 0 ≤ e1.getD b 0))

/-- `sortEdges` (network.ts, lines 964-998): determine the sorting order of
the edge indices, rebuild both coordinate arrays in that order, and reorder
the edge weight array alongside when one was supplied.  The mutation of the
arrays is made explicit by returning the new values. -/
def sortEdges (e0 e1 : List ℕ) (w : Option (List ℚ)) :
    (List ℕ × List ℕ) × Option (List ℚ) :=
  let indices := (List.range e0.length).mergeSort (edgeLE e0 e1)
  ((indices.map (fun i => e0.getD i 0), indices.map (fun i => e1.getD i 0)),
   w.map (fun ws => indices.map (fun i => ws.getD i 0)))

/-- The symmetrisation pass of `initializeNetworkBasedOnEdges` (network.ts,
lines 827-847): every edge is emitted, and every non-self-link is also
emitted in the reverse direction, the weights following along. -/
def symmetrizeEdges (e0 e1 : List ℕ) (w : Option (List ℚ)) :
    (List ℕ × List ℕ) × Option (List ℚ) :=
  let step := fun (acc : (List ℕ × List ℕ) × Option (List ℚ)) (j : ℕ) =>
    let u := e0.getD j 0
    let v := e1.getD j 0
    let acc1 := ((acc.1.1 ++ [u], acc.1.2 ++ [v]),
      acc.2.map (fun ws => ws ++ [(w.getD []).getD j 0]))
    if u ≠ v then
      ((acc1.1.1 ++ [v], acc1.1.2 ++ [u]),
        acc1.2.map (fun ws => ws ++ [(w.getD []).getD j 0]))
    else acc1
  (List.range e0.length).foldl step (([], []), w.map (fun _ => []))

/-- The offset-filling inner loop of `initializeNetworkBasedOnEdges`
(network.ts): `firstNeighborIndices[lo..hi]` are all set to `val`. -/
def fillOffsets (f : ℕ → ℕ) (lo hi val : ℕ) : ℕ → ℕ :=
  fun x => if lo ≤ x ∧ x ≤ hi then val else f x

/-- The CSR-building state of `initializeNetworkBasedOnEdges` (network.ts):
the next offset index to fill, the edge count, the offsets, the neighbour and
weight lists and the self-link total. -/
structure CsrBuild where
  iFill : ℕ
  nEdges : ℕ
  firstNeighborIndices : ℕ → ℕ
  neighbors : List ℕ
  edgeWeights : List ℚ
  totalEdgeWeightSelfLinks : ℚ

/-- The CSR-building loop of `initializeNetworkBasedOnEdges` (network.ts,
lines 850-874) over a sorted directed edge list: non-self-links stream into
the CSR arrays while the offsets catch up, self links accumulate into the
self-link total. -/
def buildCsr (nNodes : ℕ) (e0 e1 : List ℕ) (w : Option (List ℚ)) : CsrBuild :=
  let step := fun (st : CsrBuild) (j : ℕ) =>
    let u := e0.getD j 0
    let v := e1.getD j 0
    let wj := match w with
      | some ws => ws.getD j 0
      | none => 1
    if u ≠ v then
      { st with
        iFill := u + 1
        firstNeighborIndices := fillOffsets st.firstNeighborIndices st.iFill u st.nEdges
        neighbors := st.neighbors ++ [v]
        edgeWeights := st.edgeWeights ++ [wj]
        nEdges := st.nEdges + 1 }
    else
      { st with totalEdgeWeightSelfLinks := st.totalEdgeWeightSelfLinks + wj }
  let looped := (List.range e0.length).foldl step
    { iFill := 1, nEdges := 0, firstNeighborIndices := fun _ => 0,
      neighbors := [], edgeWeights := [], totalEdgeWeightSelfLinks := 0 }
  { looped with
    firstNeighborIndices :=
      fillOffsets looped.firstNeighborIndices looped.iFill nNodes looped.nEdges }

/-- `initializeNetworkBasedOnEdges` (network.ts, lines 825-883).  The source
mutates its `edges` argument: when the edges are not pre-sorted it
symmetrises them and then re-points `edges[0]` and `edges[1]` at the sorted
arrays inside `sortEdges`, which the caller observes.  The `edgeWeights`
argument, in contrast, is only rebound locally (the sorted weights are
written into the local copy `edgeWeights2.slice(0, i)`, not into the caller's
array).  The model makes both effects explicit by returning, next to the
network, the final caller-visible `edges` value and the final caller-visible
`edgeWeights` value. -/
def initNetworkBasedOnEdges (nNodes : ℕ) (nodeWeights : Option (List ℚ))
    (setNodeWeightsToTotalEdgeWeights : Bool) (e0 e1 : List ℕ)
    (edgeWeights : Option (List ℚ)) (sortedEdges : Bool) :
    Network × (List ℕ × List ℕ) × Option (List ℚ) :=
  let prepared := if sortedEdges then ((e0, e1), edgeWeights) else
    sortEdges (symmetrizeEdges e0 e1 edgeWeights).1.1
      (symmetrizeEdges e0 e1 edgeWeights).1.2 (symmetrizeEdges e0 e1 edgeWeights).2
  let csr := buildCsr nNodes prepared.1.1 prepared.1.2 prepared.2
  let net0 : Network :=
    { nNodes := nNodes
      nEdges := csr.nEdges
      nodeWeights := fun _ => 1
      firstNeighborIndices := csr.firstNeighborIndices
      neighbors := fun k => csr.neighbors.getD k 0
      edgeWeights := fun k => csr.edgeWeights.getD k 0
      totalEdgeWeightSelfLinks := csr.totalEdgeWeightSelfLinks }
  let net : Network :=
    { net0 with
      nodeWeights := match nodeWeights with
        | some ws => fun i => ws.getD i 0
        | none => if setNodeWeightsToTotalEdgeWeights
            then fun i => net0.nodeTotalEdgeWeight i
            else fun _ => 1 }
  (net, prepared.1, edgeWeights)

/-- The lexicographic order on directed edges used by the specification of the
sorted edge list. -/
def edgePairLE (p q : ℕ × ℕ) : Prop :=
  p.1 < q.1 ∨ (p.1 = q.1 ∧ p.2 ≤ q.2)

theorem symmetrizeEdges_length_eq (e0 e1 : List ℕ) (w : Option (List ℚ)) :
    (symmetrizeEdges e0 e1 w).1.1.length = (symmetrizeEdges e0 e1 w).1.2.length := by
  unfold symmetrizeEdges
  generalize List.range e0.length = l
  have hgen : ∀ (acc : (List ℕ × List ℕ) × Option (List ℚ)),
      acc.1.1.length = acc.1.2.length →
      (l.foldl (fun acc j =>
        let u := e0.getD j 0
        let v := e1.getD j 0
        let acc1 := ((acc.1.1 ++ [u], acc.1.2 ++ [v]),
          acc.2.map (fun ws => ws ++ [(w.getD []).getD j 0]))
        if u ≠ v then
          ((acc1.1.1 ++ [v], acc1.1.2 ++ [u]),
            acc1.2.map (fun ws => ws ++ [(w.getD []).getD j 0]))
        else acc1) acc).1.1.length
      = (l.foldl (fun acc j =>
        let u := e0.getD j 0
        let v := e1.getD j 0
        let acc1 := ((acc.1.1 ++ [u], acc.1.2 ++ [v]),
          acc.2.map (fun ws => ws ++ [(w.getD []).getD j 0]))
        if u ≠ v then
          ((acc1.1.1 ++ [v], acc1.1.2 ++ [u]),
            acc1.2.map (fun ws => ws ++ [(w.getD []).getD j 0]))
        else acc1) acc).1.2.length := by
    induction l with
    | nil => intro acc h; exact h
    | cons j t ih =>
      intro acc h
      simp only [List.foldl_cons]
      apply ih
      by_cases hne : e0.getD j 0 ≠ e1.getD j 0
      · rw [if_pos hne]
        simp [h]
      · rw [if_neg hne]
        simp [h]
  exact hgen (([], []), w.map (fun _ => [])) rfl

theorem map_range_getD_zip (l0 : List ℕ) :
    ∀ l1 : List ℕ, l0.length = l1.length →
    (List.range l0.length).map (fun i => (l0.getD i 0, l1.getD i 0)) = l0.zip l1 := by
  induction l0 with
  | nil => intro l1 h; simp
  | cons x t ih =>
    intro l1 h
    cases l1 with
    | nil => simp at h
    | cons y t1 =>
      have hlen : t.length = t1.length := by
        simpa using h
      simp only [List.length_cons, List.range_succ_eq_map, List.map_cons, List.map_map]
      rw [List.zip_cons_cons]
      congr 1
      have : ((fun i => ((x :: t).getD i 0, (y :: t1).getD i 0)) ∘ Nat.succ)
          = fun i => (t.getD i 0, t1.getD i 0) := by
        funext i
        simp [List.getD_cons_succ]
      rw [this]
      exact ih t1 hlen

theorem edgeLE_trans (e0 e1 : List ℕ) :
    ∀ a b c : ℕ, edgeLE e0 e1 a b = true → edgeLE e0 e1 b c = true →
      edgeLE e0 e1 a c = true := by
  intro a b c hab hbc
  simp only [edgeLE, decide_eq_true_eq] at hab hbc ⊢
  omega

theorem edgeLE_total (e0 e1 : List ℕ) :
    ∀ a b : ℕ, (edgeLE e0 e1 a b || edgeLE e0 e1 b a) = true := by
  intro a b
  simp only [edgeLE, Bool.or_eq_true, decide_eq_true_eq]
  omega

/-- C10: when the constructor of network.ts is handed an unsorted edge list
(`sortedEdges` false), the caller's `edges` argument ends up holding the
symmetrised, lexicographically sorted directed edge list — its pair list is
sorted and is a permutation of the symmetrised input — while a caller-supplied
`edgeWeights` array is left unchanged. -/
theorem initNetworkBasedOnEdges_frame (nNodes : ℕ) (nodeWeights : Option (List ℚ))
    (flag : Bool) (e0 e1 : List ℕ) (w : Option (List ℚ)) :
    (initNetworkBasedOnEdges nNodes nodeWeights flag e0 e1 w false).2.1
      = (sortEdges (symmetrizeEdges e0 e1 w).1.1 (symmetrizeEdges e0 e1 w).1.2
          (symmetrizeEdges e0 e1 w).2).1
    ∧ List.Pairwise edgePairLE
        ((initNetworkBasedOnEdges nNodes nodeWeights flag e0 e1 w false).2.1.1.zip
          (initNetworkBasedOnEdges nNodes nodeWeights flag e0 e1 w false).2.1.2)
    ∧ ((initNetworkBasedOnEdges nNodes nodeWeights flag e0 e1 w false).2.1.1.zip
          (initNetworkBasedOnEdges nNodes nodeWeights flag e0 e1 w false).2.1.2).Perm
        ((symmetrizeEdges e0 e1 w).1.1.zip (symmetrizeEdges e0 e1 w).1.2)
    ∧ (initNetworkBasedOnEdges nNodes nodeWeights flag e0 e1 w false).2.2 = w := by
  set s0 := (symmetrizeEdges e0 e1 w).1.1 with hs0
  set s1 := (symmetrizeEdges e0 e1 w).1.2 with hs1
  have hlen : s0.length = s1.length := symmetrizeEdges_length_eq e0 e1 w
  have hedges : (initNetworkBasedOnEdges nNodes nodeWeights flag e0 e1 w false).2.1
      = ((List.range s0.length).mergeSort (edgeLE s0 s1) |>.map (fun i => s0.getD i 0),
         (List.range s0.length).mergeSort (edgeLE s0 s1) |>.map (fun i => s1.getD i 0)) :=
    rfl
  have hzip : ((initNetworkBasedOnEdges nNodes nodeWeights flag e0 e1 w false).2.1.1.zip
      (initNetworkBasedOnEdges nNodes nodeWeights flag e0 e1 w false).2.1.2)
      = ((List.range s0.length).mergeSort (edgeLE s0 s1)).map
          (fun i => (s0.getD i 0, s1.getD i 0)) := by
    rw [hedges]
    exact List.zip_map' _ _ _
  refine ⟨rfl, ?_, ?_, rfl⟩
  · rw [hzip]
    have hpw : List.Pairwise (fun a b => edgeLE s0 s1 a b = true)
        ((List.range s0.length).mergeSort (edgeLE s0 s1)) :=
      List.sorted_mergeSort (edgeLE_trans s0 s1) (edgeLE_total s0 s1) _
    refine List.Pairwise.map _ ?_ hpw
    intro a b hab
    simp only [edgeLE, decide_eq_true_eq] at hab
    exact hab
  · rw [hzip]
    have hperm : ((List.range s0.length).mergeSort (edgeLE s0 s1)).Perm
        (List.range s0.length) := List.mergeSort_perm _ _
    have := hperm.map (fun i => (s0.getD i 0, s1.getD i 0))
    rw [map_range_getD_zip s0 s1 hlen] at this
    exact this

/-- `generateRandomPermutation` (utils/arrays.ts): the identity array followed
by one random transposition per index, the random indices taken from the
`nextInt(nElements)` stream. -/
def generateRandomPermutation (nElements : ℕ) (stream : ℕ → ℕ) : ℕ → ℕ :=
  (List.range nElements).foldl
    (fun perm i =>
      let j := stream i % nElements
      Function.update (Function.update perm i (perm j)) j (perm i))
    (fun i => i)

theorem generateRandomPermutation_lt (nElements : ℕ) (stream : ℕ → ℕ)
    (hn : 0 < nElements) :
    ∀ x < nElements, generateRandomPermutation nElements stream x < nElements := by
  unfold generateRandomPermutation
  have hgen : ∀ (l : List ℕ), (∀ i ∈ l, i < nElements) → ∀ perm : ℕ → ℕ,
      (∀ x < nElements, perm x < nElements) →
      ∀ x < nElements,
        (l.foldl (fun perm i =>
          let j := stream i % nElements
          Function.update (Function.update perm i (perm j)) j (perm i)) perm) x
          < nElements := by
    intro l
    induction l with
    | nil => intro _ perm h x hx; exact h x hx
    | cons i t ih =>
      intro hl perm h x hx
      simp only [List.foldl_cons]
      refine ih (fun a ha => hl a (List.mem_cons_of_mem i ha)) _ ?_ x hx
      intro y hy
      have hj : stream i % nElements < nElements := Nat.mod_lt _ hn
      have hi : i < nElements := hl i (List.mem_cons_self i t)
      by_cases h1 : y = stream i % nElements
      · subst h1
        rw [Function.update_same]
        exact h i hi
      · rw [Function.update_noteq h1]
        by_cases h2 : y = i
        · subst h2
          rw [Function.update_same]
          exact h _ hj
        · rw [Function.update_noteq h2]
          exact h y hy
  exact hgen (List.range nElements) (fun i hi => List.mem_range.mp hi)
    (fun i => i) (fun x hx => hx)

/-- The adjacency slots of node `j` as a list, identical to `rowSlots` but
named for the local moving loops of
standardLocalMovingAlgorithm.ts / fastLocalMovingAlgorithm.ts. -/
def scanNeighboringClusters (net : Network) (cl : ℕ → ℕ) (j u : ℕ) :
    (ℕ → ℚ) × List ℕ :=
  (rowSlots net j).foldl
    (fun (st : (ℕ → ℚ) × List ℕ) k =>
      let l := cl (net.neighbors k)
      let st1 := if st.1 l = 0 then (st.1, st.2 ++ [l]) else st
      (Function.update st1.1 l (st1.1 l + net.edgeWeights k), st1.2))
    (fun _ => 0, [u])

/-- The candidate loop of the local moving algorithms
(standardLocalMovingAlgorithm.ts lines 175-187, fastLocalMovingAlgorithm.ts
lines 168-180): starting from the gain of staying in the current cluster,
every neighbouring cluster's quality increment is computed from the
accumulated edge weights (resetting each entry after reading it), and a
candidate replaces the best cluster only on a strictly larger increment. -/
def chooseBestCluster (net : Network) (resolution : ℚ) (j currentCluster : ℕ)
    (cw : ℕ → ℚ) (ewpc : ℕ → ℚ) (cands : List ℕ) : ℕ :=
  (cands.foldl
    (fun (st : (ℕ → ℚ) × ℕ × ℚ) l =>
      let qvi := st.1 l - net.nodeWeights j * cw l * resolution
      ((Function.update st.1 l 0),
       (if st.2.2 < qvi then l else st.2.1),
       (if st.2.2 < qvi then qvi else st.2.2)))
    (ewpc, currentCluster,
      ewpc currentCluster - net.nodeWeights j * cw currentCluster * resolution)).2.1

/-- The result of the shared per-node block of the two local moving
algorithms: the node has been removed from its cluster, the best cluster
chosen and the node inserted there, with the cluster statistics updated. -/
structure MoveResult where
  clustering : Clustering
  clusterWeights : ℕ → ℚ
  nNodesPerCluster : ℕ → ℕ
  unusedClusters : ℕ → ℕ
  nUnusedClusters : ℕ
  bestCluster : ℕ
  currentCluster : ℕ

/-- The per-node block shared verbatim by
`StandardLocalMovingAlgorithm.improveClustering`
(standardLocalMovingAlgorithm.ts lines 136-214) and
`FastLocalMovingAlgorithm.improveClusteringOneIteration`
(fastLocalMovingAlgorithm.ts lines 129-210): remove node `j` from its
cluster (pushing the cluster onto the unused stack when it empties), scan the
neighbouring clusters with the top unused cluster as extra candidate, choose
the best cluster, insert `j` there (popping the stack when the top was
chosen) and, when the node moved, record the new cluster and widen
`nClusters` if needed. -/
def localMovingVisitNode (net : Network) (resolution : ℚ) (c : Clustering)
    (cw : ℕ → ℚ) (npc : ℕ → ℕ) (unused : ℕ → ℕ) (nUnused : ℕ) (j : ℕ) :
    MoveResult :=
  let currentCluster := c.clusters j
  let cw1 := Function.update cw currentCluster (cw currentCluster - net.nodeWeights j)
  let npc1 := Function.update npc currentCluster (npc currentCluster - 1)
  let unused1 := if npc1 currentCluster = 0
    then Function.update unused nUnused currentCluster else unused
  let nUnused1 := if npc1 currentCluster = 0 then nUnused + 1 else nUnused
  let scan := scanNeighboringClusters net c.clusters j (unused1 (nUnused1 - 1))
  let bestCluster := chooseBestCluster net resolution j currentCluster cw1 scan.1 scan.2
  let cw2 := Function.update cw1 bestCluster (cw1 bestCluster + net.nodeWeights j)
  let npc2 := Function.update npc1 bestCluster (npc1 bestCluster + 1)
  let nUnused2 := if bestCluster = unused1 (nUnused1 - 1) then nUnused1 - 1 else nUnused1
  let clustering' := if bestCluster ≠ currentCluster then
      { c with
        clusters := Function.update c.clusters j bestCluster
        nClusters := if c.nClusters ≤ bestCluster then bestCluster + 1 else c.nClusters }
    else c
  { clustering := clustering'
    clusterWeights := cw2
    nNodesPerCluster := npc2
    unusedClusters := unused1
    nUnusedClusters := nUnused2
    bestCluster := bestCluster
    currentCluster := currentCluster }

/-- The loop state of `StandardLocalMovingAlgorithm.improveClustering`
(standardLocalMovingAlgorithm.ts). -/
structure StdLMState where
  clustering : Clustering
  clusterWeights : ℕ → ℚ
  nNodesPerCluster : ℕ → ℕ
  unusedClusters : ℕ → ℕ
  nUnusedClusters : ℕ
  nodeOrder : ℕ → ℕ
  nUnstableNodes : ℕ
  i : ℕ
  update : Bool

/-- One visit of the standard local moving loop
(standardLocalMovingAlgorithm.ts lines 133-217): run the shared per-node
block on `nodeOrder[i]`, decrement the unstable counter, and on an actual
move reset it to `nNodes` and remember that the clustering changed; then
step the cyclic index. -/
def standardLMVisit (net : Network) (resolution : ℚ) (s : StdLMState) : StdLMState :=
  let j := s.nodeOrder s.i
  let mv := localMovingVisitNode net resolution s.clustering s.clusterWeights
    s.nNodesPerCluster s.unusedClusters s.nUnusedClusters j
  let moved := mv.bestCluster ≠ mv.currentCluster
  { clustering := mv.clustering
    clusterWeights := mv.clusterWeights
    nNodesPerCluster := mv.nNodesPerCluster
    unusedClusters := mv.unusedClusters
    nUnusedClusters := mv.nUnusedClusters
    nodeOrder := s.nodeOrder
    nUnstableNodes := if moved then net.nNodes else s.nUnstableNodes - 1
    i := if s.i < net.nNodes - 1 then s.i + 1 else 0
    update := s.update || decide moved }

/-- The `do … while (nUnstableNodes > 0)` loop of
`StandardLocalMovingAlgorithm.improveClustering`, indexed by fuel. -/
def standardLMLoop (net : Network) (resolution : ℚ) : ℕ → StdLMState → StdLMState
  | 0, s => s
  | fuel + 1, s =>
    let s' := standardLMVisit net resolution s
    if 0 < s'.nUnstableNodes then standardLMLoop net resolution fuel s' else s'

/-- The number of nodes of cluster `l`, as accumulated by the initial loops of
the local moving algorithms. -/
def clusterNNodes (net : Network) (c : Clustering) (l : ℕ) : ℕ :=
  ((Finset.range net.nNodes).filter (fun i => c.clusters i = l)).card

/-- The initial unused-cluster stack of the local moving algorithms: empty
cluster ids collected in decreasing id order. -/
def initialUnusedClusters (net : Network) (c : Clustering) : List ℕ :=
  (List.range net.nNodes).reverse.filter (fun l => clusterNNodes net c l = 0)

/-- `StandardLocalMovingAlgorithm.improveClustering`
(standardLocalMovingAlgorithm.ts lines 98-224): initialise the cluster
statistics and the unused-cluster stack, cycle through a random permutation
of the nodes moving each visited node to its best cluster, stop when a full
pass makes no move (the fuel bounds the number of visits; the source loop
terminates), and compact empty clusters when anything moved. -/
def StandardLocalMovingAlgorithm.improveClustering (net : Network) (resolution : ℚ)
    (clustering : Clustering) (stream : ℕ → ℕ) (fuel : ℕ) : Clustering × Bool :=
  if net.nNodes = 1 then (clustering, false)
  else
    let s0 : StdLMState :=
      { clustering := clustering
        clusterWeights := fun l => clusterWeight net clustering l
        nNodesPerCluster := fun l => clusterNNodes net clustering l
        unusedClusters := fun k => (initialUnusedClusters net clustering).getD k 0
        nUnusedClusters := (initialUnusedClusters net clustering).length
        nodeOrder := generateRandomPermutation net.nNodes stream
        nUnstableNodes := net.nNodes
        i := 0
        update := false }
    let sF := standardLMLoop net resolution fuel s0
    (if sF.update then sF.clustering.removeEmptyClusters else sF.clustering, sF.update)

/-- The loop state of `FastLocalMovingAlgorithm.improveClusteringOneIteration`
(fastLocalMovingAlgorithm.ts): the standard state plus the stability flags
and the permutation buffer doubling as queue ring. -/
structure FastLMState where
  clustering : Clustering
  clusterWeights : ℕ → ℚ
  nNodesPerCluster : ℕ → ℕ
  unusedClusters : ℕ → ℕ
  nUnusedClusters : ℕ
  nodeOrder : ℕ → ℕ
  stableNodes : ℕ → Bool
  nUnstableNodes : ℕ
  i : ℕ
  update : Bool

/-- One visit of the fast local moving loop
(fastLocalMovingAlgorithm.ts lines 126-224): run the shared per-node block on
`nodeOrder[i]`, mark the node stable and dequeue it, and on an actual move
re-enqueue every stable neighbour outside the new cluster at the tail of the
ring buffer. -/
def fastLMVisit (net : Network) (resolution : ℚ) (s : FastLMState) : FastLMState :=
  let j := s.nodeOrder s.i
  let mv := localMovingVisitNode net resolution s.clustering s.clusterWeights
    s.nNodesPerCluster s.unusedClusters s.nUnusedClusters j
  let moved := mv.bestCluster ≠ mv.currentCluster
  let stable1 := Function.update s.stableNodes j true
  let nUnstable1 := s.nUnstableNodes - 1
  let queued := if moved then
      (rowSlots net j).foldl
        (fun (st : (ℕ → Bool) × ℕ × (ℕ → ℕ)) k =>
          let v := net.neighbors k
          if st.1 v = true ∧ mv.clustering.clusters v ≠ mv.bestCluster then
            (Function.update st.1 v false,
             st.2.1 + 1,
             Function.update st.2.2
               (if s.i + (st.2.1 + 1) < net.nNodes then s.i + (st.2.1 + 1)
                else s.i + (st.2.1 + 1) - net.nNodes) v)
          else st)
        (stable1, nUnstable1, s.nodeOrder)
    else (stable1, nUnstable1, s.nodeOrder)
  { clustering := mv.clustering
    clusterWeights := mv.clusterWeights
    nNodesPerCluster := mv.nNodesPerCluster
    unusedClusters := mv.unusedClusters
    nUnusedClusters := mv.nUnusedClusters
    nodeOrder := queued.2.2
    stableNodes := queued.1
    nUnstableNodes := queued.2.1
    i := if s.i < net.nNodes - 1 then s.i + 1 else 0
    update := s.update || decide moved }

/-- The `do … while (nUnstableNodes > 0)` loop of
`FastLocalMovingAlgorithm.improveClusteringOneIteration`, indexed by fuel. -/
def fastLMLoop (net : Network) (resolution : ℚ) : ℕ → FastLMState → FastLMState
  | 0, s => s
  | fuel + 1, s =>
    let s' := fastLMVisit net resolution s
    if 0 < s'.nUnstableNodes then fastLMLoop net resolution fuel s' else s'

/-- `FastLocalMovingAlgorithm.improveClusteringOneIteration`
(fastLocalMovingAlgorithm.ts lines 89-231): queue all nodes in a random
permutation, repeatedly move the head node to its best cluster, re-enqueueing
disturbed stable neighbours, until the queue empties (the fuel bounds the
number of visits; the source loop terminates), and compact empty clusters
when anything moved. -/
def FastLocalMovingAlgorithm.improveClusteringOneIteration (net : Network)
    (resolution : ℚ) (clustering : Clustering) (stream : ℕ → ℕ) (fuel : ℕ) :
    Clustering × Bool :=
  if net.nNodes = 1 then (clustering, false)
  else
    let s0 : FastLMState :=
      { clustering := clustering
        clusterWeights := fun l => clusterWeight net clustering l
        nNodesPerCluster := fun l => clusterNNodes net clustering l
        unusedClusters := fun k => (initialUnusedClusters net clustering).getD k 0
        nUnusedClusters := (initialUnusedClusters net clustering).length
        nodeOrder := generateRandomPermutation net.nNodes stream
        stableNodes := fun _ => false
        nUnstableNodes := net.nNodes
        i := 0
        update := false }
    let sF := fastLMLoop net resolution fuel s0
    (if sF.update then sF.clustering.removeEmptyClusters else sF.clustering, sF.update)

/-- The accumulated edge weight between node `j` and cluster `l`, the value
the `edgeWeightPerCluster` scratch array holds after the neighbour scan. -/
def edgeWeightPerClusterOf (net : Network) (cl : ℕ → ℕ) (j l : ℕ) : ℚ :=
  ∑ k ∈ net.row j, if cl (net.neighbors k) = l then net.edgeWeights k else 0

theorem sum_map_range'_eq (f : ℕ → ℚ) (b : ℕ) :
    ∀ len : ℕ, ((List.range' b len).map f).sum = ∑ k ∈ Finset.Ico b (b + len), f k := by
  intro len
  induction len with
  | zero => simp
  | succ len ih =>
    rw [List.range'_concat]
    simp only [List.map_append, List.sum_append, List.map_cons, List.map_nil,
      List.sum_cons, List.sum_nil]
    rw [ih]
    have hb : b ≤ b + len := Nat.le_add_right b len
    rw [show b + (len + 1) = (b + len) + 1 by omega, Finset.sum_Ico_succ_top hb]
    simp

theorem sum_map_rowSlots (net : Network) (j : ℕ) (f : ℕ → ℚ) :
    ((rowSlots net j).map f).sum = ∑ k ∈ net.row j, f k := by
  unfold rowSlots Network.row
  rw [sum_map_range'_eq]
  rcases Nat.le_total (net.firstNeighborIndices j) (net.firstNeighborIndices (j + 1)) with h | h
  · rw [show net.firstNeighborIndices j
        + (net.firstNeighborIndices (j + 1) - net.firstNeighborIndices j)
        = net.firstNeighborIndices (j + 1) by omega]
  · have h1 : net.firstNeighborIndices j
        + (net.firstNeighborIndices (j + 1) - net.firstNeighborIndices j)
        = net.firstNeighborIndices j := by omega
    rw [h1]
    rw [Finset.Ico_self, Finset.sum_empty]
    rw [Finset.Ico_eq_empty (by omega), Finset.sum_empty]

theorem scanNeighboringClusters_fst (net : Network) (cl : ℕ → ℕ) (j u : ℕ) :
    ∀ l, (scanNeighboringClusters net cl j u).1 l = edgeWeightPerClusterOf net cl j l := by
  have hgen : ∀ (slots : List ℕ) (f0 : ℕ → ℚ) (c0 : List ℕ) (l : ℕ),
      ((slots.foldl
        (fun (st : (ℕ → ℚ) × List ℕ) k =>
          let l := cl (net.neighbors k)
          let st1 := if st.1 l = 0 then (st.1, st.2 ++ [l]) else st
          (Function.update st1.1 l (st1.1 l + net.edgeWeights k), st1.2))
        (f0, c0)).1) l
      = f0 l + ((slots.map
          (fun k => if cl (net.neighbors k) = l then net.edgeWeights k else 0)).sum) := by
    intro slots
    induction slots with
    | nil => intro f0 c0 l; simp
    | cons k t ih =>
      intro f0 c0 l
      simp only [List.foldl_cons, List.map_cons, List.sum_cons]
      have hstep : ∀ (st : (ℕ → ℚ) × List ℕ),
          ((let l := cl (net.neighbors k)
            let st1 := if st.1 l = 0 then (st.1, st.2 ++ [l]) else st
            (Function.update st1.1 l (st1.1 l + net.edgeWeights k), st1.2)) :
              (ℕ → ℚ) × List ℕ).1
          = Function.update st.1 (cl (net.neighbors k))
              (st.1 (cl (net.neighbors k)) + net.edgeWeights k) := by
        intro st
        by_cases h : st.1 (cl (net.neighbors k)) = 0 <;> simp [h]
      rw [show ((let l := cl (net.neighbors k)
            let st1 := if (f0, c0).1 l = 0 then ((f0, c0).1, (f0, c0).2 ++ [l]) else (f0, c0)
            (Function.update st1.1 l (st1.1 l + net.edgeWeights k), st1.2)) :
              (ℕ → ℚ) × List ℕ)
          = (Function.update f0 (cl (net.neighbors k))
              (f0 (cl (net.neighbors k)) + net.edgeWeights k),
             ((let l := cl (net.neighbors k)
               let st1 := if f0 l = 0 then (f0, c0 ++ [l]) else (f0, c0)
               (Function.update st1.1 l (st1.1 l + net.edgeWeights k), st1.2)) :
                 (ℕ → ℚ) × List ℕ).2) from ?_]
      · rw [ih]
        by_cases h : cl (net.neighbors k) = l
        · subst h
          rw [Function.update_same]
          simp
          try ring
        · rw [Function.update_noteq (fun hh => h hh.symm)]
          rw [if_neg h]
          ring
      · by_cases h : f0 (cl (net.neighbors k)) = 0 <;> simp [h]
  intro l
  unfold scanNeighboringClusters
  rw [hgen, edgeWeightPerClusterOf, ← sum_map_rowSlots]
  simp

theorem chooseBestCluster_gain_ge (net : Network) (resolution : ℚ) (j cur : ℕ)
    (cw : ℕ → ℚ) (e : ℕ → ℚ) (f0 : ℕ → ℚ) (hf0 : ∀ l, f0 l = e l)
    (hnonneg : ∀ l, 0 ≤ e l) (cands : List ℕ) :
    e cur - net.nodeWeights j * cw cur * resolution
      ≤ e (chooseBestCluster net resolution j cur cw f0 cands)
        - net.nodeWeights j * cw (chooseBestCluster net resolution j cur cw f0 cands)
          * resolution := by
  have hfold : ∀ (cands : List ℕ) (st : (ℕ → ℚ) × ℕ × ℚ),
      (∀ l, st.1 l = e l ∨ st.1 l = 0) →
      e cur - net.nodeWeights j * cw cur * resolution ≤ st.2.2 →
      st.2.2 ≤ e st.2.1 - net.nodeWeights j * cw st.2.1 * resolution →
      e cur - net.nodeWeights j * cw cur * resolution
        ≤ e ((cands.foldl
            (fun (st : (ℕ → ℚ) × ℕ × ℚ) l =>
              let qvi := st.1 l - net.nodeWeights j * cw l * resolution
              ((Function.update st.1 l 0),
               (if st.2.2 < qvi then l else st.2.1),
               (if st.2.2 < qvi then qvi else st.2.2)))
            st).2.1)
          - net.nodeWeights j
            * cw ((cands.foldl
                (fun (st : (ℕ → ℚ) × ℕ × ℚ) l =>
                  let qvi := st.1 l - net.nodeWeights j * cw l * resolution
                  ((Function.update st.1 l 0),
                   (if st.2.2 < qvi then l else st.2.1),
                   (if st.2.2 < qvi then qvi else st.2.2)))
                st).2.1)
            * resolution := by
    intro cands
    induction cands with
    | nil =>
      intro st h1 h2 h3
      exact le_trans h2 h3
    | cons l t ih =>
      intro st h1 h2 h3
      simp only [List.foldl_cons]
      refine ih _ ?_ ?_ ?_
      · intro x
        show Function.update st.1 l 0 x = e x ∨ Function.update st.1 l 0 x = 0
        by_cases hx : x = l
        · subst hx
          rw [Function.update_same]
          exact Or.inr rfl
        · rw [Function.update_noteq hx]
          exact h1 x
      · show e cur - net.nodeWeights j * cw cur * resolution
          ≤ if st.2.2 < st.1 l - net.nodeWeights j * cw l * resolution
            then st.1 l - net.nodeWeights j * cw l * resolution else st.2.2
        by_cases hlt : st.2.2 < st.1 l - net.nodeWeights j * cw l * resolution
        · rw [if_pos hlt]
          exact le_of_lt (lt_of_le_of_lt h2 hlt)
        · rw [if_neg hlt]
          exact h2
      · show (if st.2.2 < st.1 l - net.nodeWeights j * cw l * resolution
            then st.1 l - net.nodeWeights j * cw l * resolution else st.2.2)
          ≤ e (if st.2.2 < st.1 l - net.nodeWeights j * cw l * resolution then l else st.2.1)
            - net.nodeWeights j
              * cw (if st.2.2 < st.1 l - net.nodeWeights j * cw l * resolution
                  then l else st.2.1) * resolution
        have hle : st.1 l ≤ e l := by
          rcases h1 l with h | h
          · rw [h]
          · rw [h]; exact hnonneg l
        by_cases hlt : st.2.2 < st.1 l - net.nodeWeights j * cw l * resolution
        · rw [if_pos hlt, if_pos hlt]
          have : st.1 l - net.nodeWeights j * cw l * resolution
              ≤ e l - net.nodeWeights j * cw l * resolution := by linarith
          exact this
        · rw [if_neg hlt, if_neg hlt]
          exact h3
  unfold chooseBestCluster
  refine hfold cands (f0, cur,
    f0 cur - net.nodeWeights j * cw cur * resolution)
    (fun l => Or.inl (hf0 l)) ?_ ?_
  · rw [hf0 cur]
  · rw [hf0 cur]

theorem clusterWeight_clusters_update (net : Network) (c : Clustering) (j best : ℕ)
    (hj : j < net.nNodes) (cl' : ℕ → ℕ)
    (hcl' : cl' = Function.update c.clusters j best) (l : ℕ) :
    (∑ i ∈ Finset.range net.nNodes, if cl' i = l then net.nodeWeights i else 0)
      = clusterWeight net c l
        - (if c.clusters j = l then net.nodeWeights j else 0)
        + (if best = l then net.nodeWeights j else 0) := by
  subst hcl'
  have hmem : j ∈ Finset.range net.nNodes := Finset.mem_range.mpr hj
  unfold clusterWeight
  rw [← Finset.sum_erase_add _ _ hmem, ← Finset.sum_erase_add _
    (fun i => if c.clusters i = l then net.nodeWeights i else 0) hmem]
  have hcong : ∀ i ∈ (Finset.range net.nNodes).erase j,
      (if Function.update c.clusters j best i = l then net.nodeWeights i else 0)
        = (if c.clusters i = l then net.nodeWeights i else 0) := by
    intro i hi
    rw [Function.update_noteq (Finset.ne_of_mem_erase hi)]
  rw [Finset.sum_congr rfl hcong, Function.update_same]
  ring

theorem edgeWeightPerCluster_eq_pairSum (net : Network) (cl : ℕ → ℕ) (j l : ℕ)
    (hnbr : ∀ k ∈ net.row j, net.neighbors k < net.nNodes) :
    edgeWeightPerClusterOf net cl j l
      = ∑ i ∈ Finset.range net.nNodes,
          if cl i = l then net.pairWeight j i else 0 := by
  unfold edgeWeightPerClusterOf Network.pairWeight
  have h1 : ∀ i ∈ Finset.range net.nNodes,
      (if cl i = l then ∑ k ∈ net.row j,
          (if net.neighbors k = i then net.edgeWeights k else 0) else 0)
      = ∑ k ∈ net.row j,
          if net.neighbors k = i then
            (if cl i = l then net.edgeWeights k else 0) else 0 := by
    intro i _
    by_cases h : cl i = l <;> simp [h]
  rw [Finset.sum_congr rfl h1, Finset.sum_comm]
  refine Finset.sum_congr rfl ?_
  intro k hk
  have hmem : net.neighbors k ∈ Finset.range net.nNodes :=
    Finset.mem_range.mpr (hnbr k hk)
  rw [Finset.sum_ite_eq (Finset.range net.nNodes) (net.neighbors k)
    (fun i => if cl i = l then net.edgeWeights k else 0), if_pos hmem]

theorem pairWeight_self_zero (net : Network) (j : ℕ) (hj : j < net.nNodes)
    (hns : ∀ i < net.nNodes, ∀ k ∈ net.row i, net.neighbors k ≠ i) :
    net.pairWeight j j = 0 := by
  unfold Network.pairWeight
  refine Finset.sum_eq_zero ?_
  intro k hk
  exact if_neg (hns j hj k hk)

theorem internalEdgeSum_move (net : Network) (hinv : NetworkInvariants net)
    (c : Clustering) (j best : ℕ) (hj : j < net.nNodes) (cl' : ℕ → ℕ)
    (hcl' : cl' = Function.update c.clusters j best) :
    (∑ i ∈ Finset.range net.nNodes, ∑ k ∈ net.row i,
        if cl' (net.neighbors k) = cl' i then net.edgeWeights k else 0)
      = internalEdgeSum net c
        + 2 * (edgeWeightPerClusterOf net c.clusters j best
               - edgeWeightPerClusterOf net c.clusters j (c.clusters j)) := by
  subst hcl'
  have hmem : j ∈ Finset.range net.nNodes := Finset.mem_range.mpr hj
  set cur := c.clusters j with hcur
  set e := fun l => edgeWeightPerClusterOf net c.clusters j l with he
  -- peel row j from both double sums
  unfold internalEdgeSum
  rw [← Finset.sum_erase_add _ _ hmem, ← Finset.sum_erase_add _
    (fun i => ∑ k ∈ net.row i,
      if c.clusters (net.neighbors k) = c.clusters i then net.edgeWeights k else 0) hmem]
  -- the row of j after the move accumulates towards best, before towards cur
  have hrowj' : (∑ k ∈ net.row j,
      if Function.update c.clusters j best (net.neighbors k)
        = Function.update c.clusters j best j then net.edgeWeights k else 0)
      = e best := by
    rw [he]
    unfold edgeWeightPerClusterOf
    refine Finset.sum_congr rfl ?_
    intro k hk
    rw [Function.update_same,
      Function.update_noteq (hinv.no_self j hj k hk)]
  have hrowj : (∑ k ∈ net.row j,
      if c.clusters (net.neighbors k) = c.clusters j then net.edgeWeights k else 0)
      = e cur := rfl
  -- rows of other nodes change only at slots pointing to j
  have hother : ∀ i ∈ (Finset.range net.nNodes).erase j,
      (∑ k ∈ net.row i,
        if Function.update c.clusters j best (net.neighbors k)
          = Function.update c.clusters j best i then net.edgeWeights k else 0)
      = (∑ k ∈ net.row i,
          if c.clusters (net.neighbors k) = c.clusters i then net.edgeWeights k else 0)
        + ((if c.clusters i = best then net.pairWeight i j else 0)
           - (if c.clusters i = cur then net.pairWeight i j else 0)) := by
    intro i hi
    have hij : i ≠ j := Finset.ne_of_mem_erase hi
    have hupd_i : Function.update c.clusters j best i = c.clusters i :=
      Function.update_noteq hij best c.clusters
    have hsplit : ∀ k ∈ net.row i,
        (if Function.update c.clusters j best (net.neighbors k)
          = Function.update c.clusters j best i then net.edgeWeights k else 0)
        = (if c.clusters (net.neighbors k) = c.clusters i then net.edgeWeights k else 0)
          + ((if net.neighbors k = j then
              (if c.clusters i = best then net.edgeWeights k else 0)
              - (if c.clusters i = cur then net.edgeWeights k else 0) else 0)) := by
      intro k _
      rw [hupd_i]
      by_cases hkj : net.neighbors k = j
      · rw [hkj, Function.update_same, if_pos rfl, ← hcur]
        by_cases h1 : c.clusters i = best
        · rw [if_pos h1, if_pos h1.symm]
          by_cases h2 : c.clusters i = cur
          · rw [if_pos h2, if_pos h2.symm]
            ring
          · rw [if_neg h2, if_neg (fun hh => h2 hh.symm)]
            ring
        · rw [if_neg h1, if_neg (fun hh => h1 hh.symm)]
          by_cases h2 : c.clusters i = cur
          · rw [if_pos h2, if_pos h2.symm]
            ring
          · rw [if_neg h2, if_neg (fun hh => h2 hh.symm)]
            ring
      · rw [Function.update_noteq hkj, if_neg hkj]
        ring
    rw [Finset.sum_congr rfl hsplit, Finset.sum_add_distrib]
    congr 1
    have hA : (∑ k ∈ net.row i, if net.neighbors k = j then
        (if c.clusters i = best then net.edgeWeights k else 0) else 0)
        = if c.clusters i = best then net.pairWeight i j else 0 := by
      by_cases h1 : c.clusters i = best
      · simp only [if_pos h1]
        rfl
      · simp only [if_neg h1]
        exact Finset.sum_eq_zero (fun k _ => by rw [ite_self])
    have hB : (∑ k ∈ net.row i, if net.neighbors k = j then
        (if c.clusters i = cur then net.edgeWeights k else 0) else 0)
        = if c.clusters i = cur then net.pairWeight i j else 0 := by
      by_cases h1 : c.clusters i = cur
      · simp only [if_pos h1]
        rfl
      · simp only [if_neg h1]
        exact Finset.sum_eq_zero (fun k _ => by rw [ite_self])
    have hsub : (∑ k ∈ net.row i, ((if net.neighbors k = j then
        (if c.clusters i = best then net.edgeWeights k else 0)
        - (if c.clusters i = cur then net.edgeWeights k else 0) else 0)))
        = (∑ k ∈ net.row i, ((if net.neighbors k = j then
            (if c.clusters i = best then net.edgeWeights k else 0) else 0)
          - (if net.neighbors k = j then
            (if c.clusters i = cur then net.edgeWeights k else 0) else 0))) := by
      refine Finset.sum_congr rfl ?_
      intro k _
      by_cases hkj : net.neighbors k = j
      · rw [if_pos hkj, if_pos hkj, if_pos hkj]
      · rw [if_neg hkj, if_neg hkj, if_neg hkj]
        ring
    rw [hsub, Finset.sum_sub_distrib, hA, hB]
  -- identify the correction sums with the pair weights towards j
  have hpair : ∀ l : ℕ,
      (∑ i ∈ (Finset.range net.nNodes).erase j,
        if c.clusters i = l then net.pairWeight i j else 0) = e l := by
    intro l
    have hfull : (∑ i ∈ Finset.range net.nNodes,
        if c.clusters i = l then net.pairWeight i j else 0)
        = (∑ i ∈ (Finset.range net.nNodes).erase j,
            if c.clusters i = l then net.pairWeight i j else 0)
          + (if c.clusters j = l then net.pairWeight j j else 0) := by
      rw [Finset.sum_erase_add _ _ hmem]
    rw [pairWeight_self_zero net j hj hinv.no_self, ite_self] at hfull
    have hsym : (∑ i ∈ Finset.range net.nNodes,
        if c.clusters i = l then net.pairWeight i j else 0)
        = (∑ i ∈ Finset.range net.nNodes,
            if c.clusters i = l then net.pairWeight j i else 0) := by
      refine Finset.sum_congr rfl ?_
      intro i hi
      rw [hinv.symmetric i (Finset.mem_range.mp hi) j hj]
    rw [hsym] at hfull
    show (∑ i ∈ (Finset.range net.nNodes).erase j,
        if c.clusters i = l then net.pairWeight i j else 0)
      = edgeWeightPerClusterOf net c.clusters j l
    rw [edgeWeightPerCluster_eq_pairSum net c.clusters j l (hinv.nbr_lt j hj)]
    linarith [hfull]
  rw [Finset.sum_congr rfl hother, hrowj', hrowj, Finset.sum_add_distrib,
    Finset.sum_sub_distrib, hpair best, hpair cur]
  have h1 : edgeWeightPerClusterOf net c.clusters j best = e best := rfl
  have h2 : edgeWeightPerClusterOf net c.clusters j cur = e cur := rfl
  rw [h1, h2]
  ring

theorem row_subset_edges (net : Network) (hinv : NetworkInvariants net)
    (j : ℕ) (hj : j < net.nNodes) : ∀ k ∈ net.row j, k < net.nEdges := by
  intro k hk
  rw [Network.row, Finset.mem_Ico] at hk
  have h1 : net.firstNeighborIndices (j + 1) ≤ net.firstNeighborIndices net.nNodes :=
    fni_le_of_le net hinv.fni_mono (j + 1) net.nNodes hj le_rfl
  rw [hinv.fni_last] at h1
  exact lt_of_lt_of_le hk.2 h1

theorem edgeWeightPerCluster_nonneg (net : Network) (hinv : NetworkInvariants net)
    (hw : ∀ k < net.nEdges, 0 ≤ net.edgeWeights k) (cl : ℕ → ℕ) (j : ℕ)
    (hj : j < net.nNodes) (l : ℕ) : 0 ≤ edgeWeightPerClusterOf net cl j l := by
  unfold edgeWeightPerClusterOf
  refine Finset.sum_nonneg ?_
  intro k hk
  by_cases h : cl (net.neighbors k) = l
  · rw [if_pos h]
    exact hw k (row_subset_edges net hinv j hj k hk)
  · rw [if_neg h]

/-- Cluster ids at or above `nClusters` carry no node weight, so extending the
range of the squared-cluster-weight sum of `calcQuality` beyond `nClusters`
changes nothing (for a clustering whose ids are in range). -/
theorem sqSum_extend (net : Network) (c : Clustering) (res : ℚ) (N' : ℕ)
    (hN : c.nClusters ≤ N')
    (hval : ∀ i < net.nNodes, c.clusters i < c.nClusters) :
    (∑ l ∈ Finset.range N', clusterWeight net c l * clusterWeight net c l * res)
      = ∑ l ∈ Finset.range c.nClusters,
          clusterWeight net c l * clusterWeight net c l * res := by
  refine (Finset.sum_subset (Finset.range_subset.mpr hN) ?_).symm
  intro l hl1 hl2
  have hge : c.nClusters ≤ l := le_of_not_lt (fun h => hl2 (Finset.mem_range.mpr h))
  have hzero : clusterWeight net c l = 0 := by
    unfold clusterWeight
    refine Finset.sum_eq_zero ?_
    intro i hi
    have hlt : c.clusters i < c.nClusters := hval i (Finset.mem_range.mp hi)
    rw [if_neg (by omega)]
  rw [hzero]
  ring

/-- Moving node `j` from its cluster to a different cluster `best` changes the
squared-cluster-weight sum of `calcQuality` only at the two ids involved. -/
theorem sqSum_move (net : Network) (c : Clustering) (j best N : ℕ)
    (hj : j < net.nNodes) (hb : best < N) (hc : c.clusters j < N)
    (hbc : best ≠ c.clusters j) (cl' : ℕ → ℕ)
    (hcl' : cl' = Function.update c.clusters j best) (res : ℚ) :
    (∑ l ∈ Finset.range N,
        (∑ i ∈ Finset.range net.nNodes, if cl' i = l then net.nodeWeights i else 0)
        * (∑ i ∈ Finset.range net.nNodes, if cl' i = l then net.nodeWeights i else 0)
        * res)
      = (∑ l ∈ Finset.range N,
          clusterWeight net c l * clusterWeight net c l * res)
        + ((clusterWeight net c best + net.nodeWeights j)
             * (clusterWeight net c best + net.nodeWeights j)
           - clusterWeight net c best * clusterWeight net c best
           + (clusterWeight net c (c.clusters j) - net.nodeWeights j)
             * (clusterWeight net c (c.clusters j) - net.nodeWeights j)
           - clusterWeight net c (c.clusters j) * clusterWeight net c (c.clusters j))
          * res := by
  set cur := c.clusters j with hcur
  have hg : ∀ l,
      (∑ i ∈ Finset.range net.nNodes, if cl' i = l then net.nodeWeights i else 0)
      = clusterWeight net c l
        - (if cur = l then net.nodeWeights j else 0)
        + (if best = l then net.nodeWeights j else 0) :=
    fun l => clusterWeight_clusters_update net c j best hj cl' hcl' l
  have hmb : best ∈ Finset.range N := Finset.mem_range.mpr hb
  have hmc : cur ∈ (Finset.range N).erase best :=
    Finset.mem_erase.mpr ⟨fun h => hbc h.symm, Finset.mem_range.mpr hc⟩
  rw [← Finset.sum_erase_add (Finset.range N) _ hmb,
    ← Finset.sum_erase_add ((Finset.range N).erase best) _ hmc,
    ← Finset.sum_erase_add (Finset.range N)
      (fun l => clusterWeight net c l * clusterWeight net c l * res) hmb,
    ← Finset.sum_erase_add ((Finset.range N).erase best)
      (fun l => clusterWeight net c l * clusterWeight net c l * res) hmc]
  have hcong : ∀ l ∈ ((Finset.range N).erase best).erase cur,
      (∑ i ∈ Finset.range net.nNodes, if cl' i = l then net.nodeWeights i else 0)
        * (∑ i ∈ Finset.range net.nNodes, if cl' i = l then net.nodeWeights i else 0)
        * res
      = clusterWeight net c l * clusterWeight net c l * res := by
    intro l hl
    have hlc : l ≠ cur := (Finset.mem_erase.mp hl).1
    have hlb : l ≠ best := (Finset.mem_erase.mp (Finset.mem_erase.mp hl).2).1
    rw [hg l, if_neg (fun h => hlc h.symm), if_neg (fun h => hlb h.symm)]
    ring
  rw [Finset.sum_congr rfl hcong]
  have hgb : (∑ i ∈ Finset.range net.nNodes, if cl' i = best then net.nodeWeights i else 0)
      = clusterWeight net c best + net.nodeWeights j := by
    rw [hg best, if_neg (fun h => hbc h.symm), if_pos rfl]
    ring
  have hgc : (∑ i ∈ Finset.range net.nNodes, if cl' i = cur then net.nodeWeights i else 0)
      = clusterWeight net c cur - net.nodeWeights j := by
    rw [hg cur, if_pos rfl, if_neg hbc]
    ring
  rw [hgb, hgc]
  ring

/-- The per-node block of the local moving algorithms never decreases the CPM
quality, keeps every stored cluster id below `nClusters`, keeps the
`clusterWeights` scratch array consistent with the clustering, and leaves
`nNodes` unchanged. -/
theorem localMovingVisitNode_spec (net : Network) (hinv : NetworkInvariants net)
    (hw : ∀ k < net.nEdges, 0 ≤ net.edgeWeights k)
    (hS : 0 ≤ net.totalEdgeWeightSelfLinks)
    (resolution : ℚ) (c : Clustering) (cw : ℕ → ℚ) (npc : ℕ → ℕ)
    (unused : ℕ → ℕ) (nUnused j : ℕ) (hj : j < net.nNodes)
    (hval : ∀ i < net.nNodes, c.clusters i < c.nClusters)
    (hcw : ∀ l, cw l = clusterWeight net c l) :
    calcQuality resolution net c
        ≤ calcQuality resolution net
            (localMovingVisitNode net resolution c cw npc unused nUnused j).clustering
    ∧ (∀ i < net.nNodes,
        (localMovingVisitNode net resolution c cw npc unused nUnused j).clustering.clusters i
          < (localMovingVisitNode net resolution c cw npc unused nUnused j).clustering.nClusters)
    ∧ (∀ l, (localMovingVisitNode net resolution c cw npc unused nUnused j).clusterWeights l
        = clusterWeight net
            (localMovingVisitNode net resolution c cw npc unused nUnused j).clustering l)
    ∧ (localMovingVisitNode net resolution c cw npc unused nUnused j).clustering.nNodes
        = c.nNodes := by
  set cur := c.clusters j with hcur
  set nj := net.nodeWeights j with hnjdef
  set cw1 := Function.update cw cur (cw cur - nj) with hcw1def
  set u := (if Function.update npc cur (npc cur - 1) cur = 0
      then Function.update unused nUnused cur else unused)
      ((if Function.update npc cur (npc cur - 1) cur = 0 then nUnused + 1 else nUnused) - 1)
    with hu
  set scan := scanNeighboringClusters net c.clusters j u with hscan
  set best := chooseBestCluster net resolution j cur cw1 scan.1 scan.2 with hbestdef
  have hmvc : (localMovingVisitNode net resolution c cw npc unused nUnused j).clustering
      = if best ≠ cur then
          { c with
            clusters := Function.update c.clusters j best
            nClusters := if c.nClusters ≤ best then best + 1 else c.nClusters }
        else c := rfl
  have hmvw : (localMovingVisitNode net resolution c cw npc unused nUnused j).clusterWeights
      = Function.update cw1 best (cw1 best + nj) := rfl
  have hcw1cur : cw1 cur = clusterWeight net c cur - nj := by
    rw [hcw1def, Function.update_same, hcw cur]
  have hcw1of : ∀ l, l ≠ cur → cw1 l = clusterWeight net c l := by
    intro l hl
    rw [hcw1def, Function.update_noteq hl, hcw l]
  have hgain : edgeWeightPerClusterOf net c.clusters j cur - nj * cw1 cur * resolution
      ≤ edgeWeightPerClusterOf net c.clusters j best - nj * cw1 best * resolution := by
    have h0 := chooseBestCluster_gain_ge net resolution j cur cw1
      (fun l => edgeWeightPerClusterOf net c.clusters j l) scan.1
      (fun l => scanNeighboringClusters_fst net c.clusters j u l)
      (fun l => edgeWeightPerCluster_nonneg net hinv hw c.clusters j hj l) scan.2
    rw [← hbestdef] at h0
    exact h0
  by_cases hbc : best = cur
  · rw [hmvc, hmvw, if_neg (not_not_intro hbc)]
    refine ⟨le_rfl, hval, ?_, rfl⟩
    intro l
    by_cases hl : l = best
    · subst hl
      rw [Function.update_same, hbc, hcw1cur]
      ring
    · rw [Function.update_noteq hl]
      by_cases hl2 : l = cur
      · subst hl2
        exact absurd hbc.symm hl
      · exact hcw1of l hl2
  · have hbN : best < (if c.nClusters ≤ best then best + 1 else c.nClusters) := by
      by_cases h : c.nClusters ≤ best
      · rw [if_pos h]; omega
      · rw [if_neg h]; omega
    have hNN : c.nClusters ≤ (if c.nClusters ≤ best then best + 1 else c.nClusters) := by
      by_cases h : c.nClusters ≤ best
      · rw [if_pos h]; omega
      · rw [if_neg h]
    have hcN : cur < (if c.nClusters ≤ best then best + 1 else c.nClusters) :=
      lt_of_lt_of_le (hval j hj) hNN
    have hq : calcQuality resolution net c ≤ calcQuality resolution net
        { c with
          clusters := Function.update c.clusters j best
          nClusters := if c.nClusters ≤ best then best + 1 else c.nClusters } := by
      have hE : internalEdgeSum net
          { c with
            clusters := Function.update c.clusters j best
            nClusters := if c.nClusters ≤ best then best + 1 else c.nClusters }
          = internalEdgeSum net c
            + 2 * (edgeWeightPerClusterOf net c.clusters j best
                   - edgeWeightPerClusterOf net c.clusters j cur) :=
        internalEdgeSum_move net hinv c j best hj (Function.update c.clusters j best) rfl
      have hSq1 : (∑ l ∈ Finset.range
            ({ c with
              clusters := Function.update c.clusters j best
              nClusters := if c.nClusters ≤ best then best + 1 else c.nClusters } :
                Clustering).nClusters,
            clusterWeight net
              { c with
                clusters := Function.update c.clusters j best
                nClusters := if c.nClusters ≤ best then best + 1 else c.nClusters } l
            * clusterWeight net
              { c with
                clusters := Function.update c.clusters j best
                nClusters := if c.nClusters ≤ best then best + 1 else c.nClusters } l
            * resolution)
          = (∑ l ∈ Finset.range (if c.nClusters ≤ best then best + 1 else c.nClusters),
              clusterWeight net c l * clusterWeight net c l * resolution)
            + ((clusterWeight net c best + nj) * (clusterWeight net c best + nj)
               - clusterWeight net c best * clusterWeight net c best
               + (clusterWeight net c cur - nj) * (clusterWeight net c cur - nj)
               - clusterWeight net c cur * clusterWeight net c cur) * resolution :=
        sqSum_move net c j best (if c.nClusters ≤ best then best + 1 else c.nClusters)
          hj hbN hcN hbc (Function.update c.clusters j best) rfl resolution
      have hSq2 := sqSum_extend net c resolution
        (if c.nClusters ≤ best then best + 1 else c.nClusters) hNN hval
      unfold calcQuality
      refine div_le_div_of_nonneg_right ?_ ?_
      · rw [hE, hSq1, hSq2]
        rw [hcw1cur, hcw1of best hbc] at hgain
        nlinarith [hgain]
      · have hsum : 0 ≤ ∑ k ∈ Finset.range net.nEdges, net.edgeWeights k :=
          Finset.sum_nonneg (fun k hk => hw k (Finset.mem_range.mp hk))
        unfold Network.getTotalEdgeWeight
        linarith
    rw [hmvc, hmvw, if_pos hbc]
    refine ⟨hq, ?_, ?_, rfl⟩
    · intro i hi
      show (Function.update c.clusters j best) i
        < (if c.nClusters ≤ best then best + 1 else c.nClusters)
      by_cases hij : i = j
      · subst hij
        rw [Function.update_same]
        exact hbN
      · rw [Function.update_noteq hij]
        exact lt_of_lt_of_le (hval i hi) hNN
    · intro l
      have hgl : clusterWeight net
          { c with
            clusters := Function.update c.clusters j best
            nClusters := if c.nClusters ≤ best then best + 1 else c.nClusters } l
          = clusterWeight net c l
            - (if cur = l then nj else 0)
            + (if best = l then nj else 0) :=
        clusterWeight_clusters_update net c j best hj (Function.update c.clusters j best) rfl l
      rw [hgl]
      by_cases hl : l = best
      · subst hl
        rw [Function.update_same, hcw1of best hbc, if_neg (fun h => hbc h.symm), if_pos rfl]
        ring
      · rw [Function.update_noteq hl]
        by_cases hl2 : l = cur
        · subst hl2
          rw [hcw1cur, if_pos rfl, if_neg hbc]
          ring
        · rw [hcw1of l hl2, if_neg (fun h => hl2 h.symm), if_neg (fun h => hl h.symm)]
          ring

/-- The loop invariant of `StandardLocalMovingAlgorithm.improveClustering`:
cluster ids in range, `clusterWeights` consistent with the clustering,
`nNodes` matching the network, node order inside the node range and a valid
cyclic index. -/
def StdLMInv (net : Network) (s : StdLMState) : Prop :=
  (∀ i < net.nNodes, s.clustering.clusters i < s.clustering.nClusters)
  ∧ (∀ l, s.clusterWeights l = clusterWeight net s.clustering l)
  ∧ s.clustering.nNodes = net.nNodes
  ∧ (∀ x < net.nNodes, s.nodeOrder x < net.nNodes)
  ∧ s.i < net.nNodes

theorem standardLMVisit_spec (net : Network) (hinv : NetworkInvariants net)
    (hw : ∀ k < net.nEdges, 0 ≤ net.edgeWeights k)
    (hS : 0 ≤ net.totalEdgeWeightSelfLinks)
    (resolution : ℚ) (s : StdLMState) (hs : StdLMInv net s) :
    StdLMInv net (standardLMVisit net resolution s)
    ∧ calcQuality resolution net s.clustering
      ≤ calcQuality resolution net (standardLMVisit net resolution s).clustering := by
  obtain ⟨hval, hcw, hn, hord, hi⟩ := hs
  have hj : s.nodeOrder s.i < net.nNodes := hord s.i hi
  obtain ⟨hq, hval', hcw', hn'⟩ := localMovingVisitNode_spec net hinv hw hS resolution
    s.clustering s.clusterWeights s.nNodesPerCluster s.unusedClusters s.nUnusedClusters
    (s.nodeOrder s.i) hj hval hcw
  have hc : (standardLMVisit net resolution s).clustering
      = (localMovingVisitNode net resolution s.clustering s.clusterWeights
          s.nNodesPerCluster s.unusedClusters s.nUnusedClusters
          (s.nodeOrder s.i)).clustering := rfl
  have hwts : (standardLMVisit net resolution s).clusterWeights
      = (localMovingVisitNode net resolution s.clustering s.clusterWeights
          s.nNodesPerCluster s.unusedClusters s.nUnusedClusters
          (s.nodeOrder s.i)).clusterWeights := rfl
  have hordeq : (standardLMVisit net resolution s).nodeOrder = s.nodeOrder := rfl
  have hieq : (standardLMVisit net resolution s).i
      = if s.i < net.nNodes - 1 then s.i + 1 else 0 := rfl
  refine ⟨⟨?_, ?_, ?_, ?_, ?_⟩, ?_⟩
  · rw [hc]; exact hval'
  · rw [hwts, hc]; exact hcw'
  · rw [hc, hn']; exact hn
  · rw [hordeq]; exact hord
  · rw [hieq]
    by_cases h : s.i < net.nNodes - 1
    · rw [if_pos h]; omega
    · rw [if_neg h]; omega
  · rw [hc]; exact hq

theorem standardLMLoop_spec (net : Network) (hinv : NetworkInvariants net)
    (hw : ∀ k < net.nEdges, 0 ≤ net.edgeWeights k)
    (hS : 0 ≤ net.totalEdgeWeightSelfLinks) (resolution : ℚ) :
    ∀ (fuel : ℕ) (s : StdLMState), StdLMInv net s →
      StdLMInv net (standardLMLoop net resolution fuel s)
      ∧ calcQuality resolution net s.clustering
        ≤ calcQuality resolution net (standardLMLoop net resolution fuel s).clustering := by
  intro fuel
  induction fuel with
  | zero => intro s hs; exact ⟨hs, le_rfl⟩
  | succ fuel ih =>
    intro s hs
    obtain ⟨hs', hq'⟩ := standardLMVisit_spec net hinv hw hS resolution s hs
    simp only [standardLMLoop]
    by_cases h : 0 < (standardLMVisit net resolution s).nUnstableNodes
    · rw [if_pos h]
      obtain ⟨hinv2, hq2⟩ := ih (standardLMVisit net resolution s) hs'
      exact ⟨hinv2, le_trans hq' hq2⟩
    · rw [if_neg h]
      exact ⟨hs', hq'⟩

theorem rank_lt_rank (c : Clustering) (a b : ℕ) (hab : a < b) (ha : c.nonEmpty a) :
    ((Finset.range a).filter c.nonEmpty).card
      < ((Finset.range b).filter c.nonEmpty).card := by
  refine Finset.card_lt_card ⟨Finset.filter_subset_filter _
    (Finset.range_subset.mpr (le_of_lt hab)), ?_⟩
  intro hsub
  have hmem : a ∈ (Finset.range b).filter c.nonEmpty :=
    Finset.mem_filter.mpr ⟨Finset.mem_range.mpr hab, ha⟩
  have : a ∈ (Finset.range a).filter c.nonEmpty := hsub hmem
  exact absurd (Finset.mem_range.mp (Finset.mem_filter.mp this).1) (lt_irrefl a)

/-- `newClusters` of `removeEmptyClusters` is injective on the non-empty
cluster ids: two different non-empty clusters keep different labels. -/
theorem newLabel_inj (c : Clustering) (a b : ℕ) (ha : c.nonEmpty a)
    (hb : c.nonEmpty b) (h : c.newLabel a = c.newLabel b) : a = b := by
  unfold Clustering.newLabel at h
  rw [if_pos ha, if_pos hb] at h
  rcases Nat.lt_trichotomy a b with hab | hab | hab
  · exact absurd h (Nat.ne_of_lt (rank_lt_rank c a b hab ha))
  · exact hab
  · exact absurd h.symm (Nat.ne_of_lt (rank_lt_rank c b a hab hb))

/-- `removeEmptyClusters` does not change the CPM quality: the relabelling is
injective on the clusters that hold nodes, and empty clusters contribute
nothing to the squared-weight sum. -/
theorem calcQuality_removeEmptyClusters (net : Network) (hinv : NetworkInvariants net)
    (resolution : ℚ) (c : Clustering)
    (hval : ∀ i < net.nNodes, c.clusters i < c.nClusters)
    (hn : c.nNodes = net.nNodes) :
    calcQuality resolution net c.removeEmptyClusters = calcQuality resolution net c := by
  have hne : ∀ i < net.nNodes, c.nonEmpty (c.clusters i) := by
    intro i hi
    exact ⟨i, by rw [hn]; exact hi, rfl⟩
  have hE : internalEdgeSum net c.removeEmptyClusters = internalEdgeSum net c := by
    unfold internalEdgeSum
    refine Finset.sum_congr rfl ?_
    intro i hi
    refine Finset.sum_congr rfl ?_
    intro k hk
    have hiN : i < net.nNodes := Finset.mem_range.mp hi
    have hcond : (c.removeEmptyClusters.clusters (net.neighbors k)
          = c.removeEmptyClusters.clusters i)
        ↔ (c.clusters (net.neighbors k) = c.clusters i) := by
      constructor
      · intro h
        exact newLabel_inj c _ _ (hne (net.neighbors k) (hinv.nbr_lt i hiN k hk))
          (hne i hiN) h
      · intro h
        show c.newLabel (c.clusters (net.neighbors k)) = c.newLabel (c.clusters i)
        rw [h]
    by_cases h : c.clusters (net.neighbors k) = c.clusters i
    · rw [if_pos h, if_pos (hcond.mpr h)]
    · rw [if_neg h, if_neg (fun hh => h (hcond.mp hh))]
  have hzero : ∀ l ∈ Finset.range c.nClusters,
      l ∉ (Finset.range c.nClusters).filter c.nonEmpty →
      clusterWeight net c l * clusterWeight net c l * resolution = 0 := by
    intro l hl hnl
    have hempty : ¬ c.nonEmpty l := by
      intro hcon
      exact hnl (Finset.mem_filter.mpr ⟨hl, hcon⟩)
    have hW : clusterWeight net c l = 0 := by
      unfold clusterWeight
      refine Finset.sum_eq_zero ?_
      intro i hi
      refine if_neg ?_
      intro hcl
      exact hempty ⟨i, by rw [hn]; exact Finset.mem_range.mp hi, hcl⟩
    rw [hW]
    ring
  have hWpush : ∀ a ∈ (Finset.range c.nClusters).filter c.nonEmpty,
      clusterWeight net c a = clusterWeight net c.removeEmptyClusters (c.newLabel a) := by
    intro a hamem
    have hanem : c.nonEmpty a := (Finset.mem_filter.mp hamem).2
    unfold clusterWeight
    refine Finset.sum_congr rfl ?_
    intro i hi
    have hiN : i < net.nNodes := Finset.mem_range.mp hi
    have hiff : (c.clusters i = a)
        ↔ (c.removeEmptyClusters.clusters i = c.newLabel a) := by
      constructor
      · intro h
        show c.newLabel (c.clusters i) = c.newLabel a
        rw [h]
      · intro h
        exact newLabel_inj c _ _ (hne i hiN) hanem h
    by_cases h : c.clusters i = a
    · rw [if_pos h, if_pos (hiff.mp h)]
    · rw [if_neg h, if_neg (fun hh => h (hiff.mpr hh))]
  have hSq : (∑ l ∈ Finset.range c.removeEmptyClusters.nClusters,
        clusterWeight net c.removeEmptyClusters l
        * clusterWeight net c.removeEmptyClusters l * resolution)
      = ∑ l ∈ Finset.range c.nClusters,
          clusterWeight net c l * clusterWeight net c l * resolution := by
    rw [← Finset.sum_filter_add_sum_filter_not (Finset.range c.nClusters) c.nonEmpty
      (fun l => clusterWeight net c l * clusterWeight net c l * resolution)]
    have hzero2 : (∑ l ∈ (Finset.range c.nClusters).filter (fun l => ¬ c.nonEmpty l),
        clusterWeight net c l * clusterWeight net c l * resolution) = 0 := by
      refine Finset.sum_eq_zero ?_
      intro l hl
      refine hzero l (Finset.mem_of_mem_filter l hl) ?_
      intro hcon
      exact (Finset.mem_filter.mp hl).2 (Finset.mem_filter.mp hcon).2
    rw [hzero2, add_zero]
    refine (Finset.sum_bij (fun a _ => c.newLabel a) ?_ ?_ ?_ ?_).symm
    · intro a ha
      have haN : a < c.nClusters := Finset.mem_range.mp (Finset.mem_of_mem_filter a ha)
      have hanem : c.nonEmpty a := (Finset.mem_filter.mp ha).2
      exact Finset.mem_range.mpr (newLabel_lt c a haN hanem)
    · intro a₁ ha₁ a₂ ha₂ h
      exact newLabel_inj c a₁ a₂ (Finset.mem_filter.mp ha₁).2 (Finset.mem_filter.mp ha₂).2 h
    · intro b hb
      obtain ⟨a, ha, hab⟩ := Finset.surj_on_of_inj_on_of_card_le
        (fun a (_ : a ∈ (Finset.range c.nClusters).filter c.nonEmpty) => c.newLabel a)
        (fun a ha => by
          have haN : a < c.nClusters := Finset.mem_range.mp (Finset.mem_of_mem_filter a ha)
          exact Finset.mem_range.mpr (newLabel_lt c a haN (Finset.mem_filter.mp ha).2))
        (fun a₁ a₂ ha₁ ha₂ h => newLabel_inj c a₁ a₂ (Finset.mem_filter.mp ha₁).2
          (Finset.mem_filter.mp ha₂).2 h)
        (by rw [Finset.card_range]; exact le_rfl) b hb
      exact ⟨a, ha, hab.symm⟩
    · intro a ha
      rw [hWpush a ha]
  unfold calcQuality
  rw [hE, hSq]

theorem mem_rowSlots_row (net : Network) (j k : ℕ) (hk : k ∈ rowSlots net j) :
    k ∈ net.row j := by
  unfold rowSlots at hk
  rw [List.mem_range'_1] at hk
  rw [Network.row, Finset.mem_Ico]
  omega

theorem lm_finish (net : Network) (hinv : NetworkInvariants net) (resolution : ℚ)
    (c c' : Clustering) (b : Bool)
    (hval' : ∀ i < net.nNodes, c'.clusters i < c'.nClusters)
    (hn' : c'.nNodes = net.nNodes)
    (hq : calcQuality resolution net c ≤ calcQuality resolution net c') :
    calcQuality resolution net c
      ≤ calcQuality resolution net (if b then c'.removeEmptyClusters else c') := by
  by_cases hb : b = true
  · rw [if_pos hb, calcQuality_removeEmptyClusters net hinv resolution c' hval' hn']
    exact hq
  · rw [if_neg hb]
    exact hq

/-- `StandardLocalMovingAlgorithm.improveClustering` never decreases the CPM
quality of a valid clustering. -/
theorem std_improveClustering_quality (net : Network) (hinv : NetworkInvariants net)
    (hw : ∀ k < net.nEdges, 0 ≤ net.edgeWeights k)
    (hS : 0 ≤ net.totalEdgeWeightSelfLinks)
    (resolution : ℚ) (c : Clustering) (stream : ℕ → ℕ) (fuel : ℕ)
    (hval : ∀ i < net.nNodes, c.clusters i < c.nClusters)
    (hn : c.nNodes = net.nNodes) (hpos : 0 < net.nNodes) :
    calcQuality resolution net c
      ≤ calcQuality resolution net
          (StandardLocalMovingAlgorithm.improveClustering net resolution c stream fuel).1 := by
  unfold StandardLocalMovingAlgorithm.improveClustering
  by_cases h1 : net.nNodes = 1
  · rw [if_pos h1]
  · rw [if_neg h1]
    have hs0 : StdLMInv net
        { clustering := c
          clusterWeights := fun l => clusterWeight net c l
          nNodesPerCluster := fun l => clusterNNodes net c l
          unusedClusters := fun k => (initialUnusedClusters net c).getD k 0
          nUnusedClusters := (initialUnusedClusters net c).length
          nodeOrder := generateRandomPermutation net.nNodes stream
          nUnstableNodes := net.nNodes
          i := 0
          update := false } := by
      refine ⟨hval, fun l => rfl, hn, ?_, hpos⟩
      intro x hx
      exact generateRandomPermutation_lt net.nNodes stream hpos x hx
    obtain ⟨⟨hval', hcw', hn', _, _⟩, hq⟩ :=
      standardLMLoop_spec net hinv hw hS resolution fuel _ hs0
    exact lm_finish net hinv resolution c _ _ hval' hn' hq

/-- The re-enqueueing fold of the fast local moving algorithm only writes
neighbour ids into the queue ring, so every queue entry stays below
`nNodes`. -/
theorem queue_fold_preserves_order (net : Network) (hinv : NetworkInvariants net)
    (j i0 : ℕ) (hj : j < net.nNodes) (cl : ℕ → ℕ) (bc : ℕ) :
    ∀ (slots : List ℕ), (∀ k ∈ slots, k ∈ net.row j) →
    ∀ (st : (ℕ → Bool) × ℕ × (ℕ → ℕ)), (∀ x < net.nNodes, st.2.2 x < net.nNodes) →
    ∀ x < net.nNodes,
      (slots.foldl
        (fun (st : (ℕ → Bool) × ℕ × (ℕ → ℕ)) k =>
          let v := net.neighbors k
          if st.1 v = true ∧ cl v ≠ bc then
            (Function.update st.1 v false,
             st.2.1 + 1,
             Function.update st.2.2
               (if i0 + (st.2.1 + 1) < net.nNodes then i0 + (st.2.1 + 1)
                else i0 + (st.2.1 + 1) - net.nNodes) v)
          else st) st).2.2 x < net.nNodes := by
  intro slots
  induction slots with
  | nil => intro _ st h x hx; exact h x hx
  | cons k t ih =>
    intro hmem st h x hx
    simp only [List.foldl_cons]
    refine ih (fun a ha => hmem a (List.mem_cons_of_mem k ha)) _ ?_ x hx
    intro y hy
    show (if st.1 (net.neighbors k) = true ∧ cl (net.neighbors k) ≠ bc then
        ((Function.update st.1 (net.neighbors k) false,
          st.2.1 + 1,
          Function.update st.2.2
            (if i0 + (st.2.1 + 1) < net.nNodes then i0 + (st.2.1 + 1)
             else i0 + (st.2.1 + 1) - net.nNodes) (net.neighbors k)) :
          (ℕ → Bool) × ℕ × (ℕ → ℕ))
        else st).2.2 y < net.nNodes
    by_cases hcond : st.1 (net.neighbors k) = true ∧ cl (net.neighbors k) ≠ bc
    · rw [if_pos hcond]
      show Function.update st.2.2
          (if i0 + (st.2.1 + 1) < net.nNodes then i0 + (st.2.1 + 1)
           else i0 + (st.2.1 + 1) - net.nNodes) (net.neighbors k) y < net.nNodes
      by_cases hy2 : y = (if i0 + (st.2.1 + 1) < net.nNodes then i0 + (st.2.1 + 1)
          else i0 + (st.2.1 + 1) - net.nNodes)
      · rw [hy2, Function.update_same]
        exact hinv.nbr_lt j hj k (hmem k (List.mem_cons_self k t))
      · rw [Function.update_noteq hy2]
        exact h y hy
    · rw [if_neg hcond]
      exact h y hy

/-- The loop invariant of `FastLocalMovingAlgorithm.improveClusteringOneIteration`. -/
def FastLMInv (net : Network) (s : FastLMState) : Prop :=
  (∀ i < net.nNodes, s.clustering.clusters i < s.clustering.nClusters)
  ∧ (∀ l, s.clusterWeights l = clusterWeight net s.clustering l)
  ∧ s.clustering.nNodes = net.nNodes
  ∧ (∀ x < net.nNodes, s.nodeOrder x < net.nNodes)
  ∧ s.i < net.nNodes

theorem fastLMVisit_spec (net : Network) (hinv : NetworkInvariants net)
    (hw : ∀ k < net.nEdges, 0 ≤ net.edgeWeights k)
    (hS : 0 ≤ net.totalEdgeWeightSelfLinks)
    (resolution : ℚ) (s : FastLMState) (hs : FastLMInv net s) :
    FastLMInv net (fastLMVisit net resolution s)
    ∧ calcQuality resolution net s.clustering
      ≤ calcQuality resolution net (fastLMVisit net resolution s).clustering := by
  obtain ⟨hval, hcw, hn, hord, hi⟩ := hs
  set j := s.nodeOrder s.i with hjdef
  have hj : j < net.nNodes := hord s.i hi
  set mv := localMovingVisitNode net resolution s.clustering s.clusterWeights
    s.nNodesPerCluster s.unusedClusters s.nUnusedClusters j with hmvdef
  obtain ⟨hq, hval', hcw', hn'⟩ := localMovingVisitNode_spec net hinv hw hS resolution
    s.clustering s.clusterWeights s.nNodesPerCluster s.unusedClusters s.nUnusedClusters
    j hj hval hcw
  have hc : (fastLMVisit net resolution s).clustering = mv.clustering := rfl
  have hwts : (fastLMVisit net resolution s).clusterWeights = mv.clusterWeights := rfl
  have hieq : (fastLMVisit net resolution s).i
      = if s.i < net.nNodes - 1 then s.i + 1 else 0 := rfl
  have hnord : (fastLMVisit net resolution s).nodeOrder
      = (if mv.bestCluster ≠ mv.currentCluster then
          (rowSlots net j).foldl
            (fun (st : (ℕ → Bool) × ℕ × (ℕ → ℕ)) k =>
              let v := net.neighbors k
              if st.1 v = true ∧ mv.clustering.clusters v ≠ mv.bestCluster then
                (Function.update st.1 v false,
                 st.2.1 + 1,
                 Function.update st.2.2
                   (if s.i + (st.2.1 + 1) < net.nNodes then s.i + (st.2.1 + 1)
                    else s.i + (st.2.1 + 1) - net.nNodes) v)
              else st)
            (Function.update s.stableNodes j true, s.nUnstableNodes - 1, s.nodeOrder)
        else (Function.update s.stableNodes j true,
          s.nUnstableNodes - 1, s.nodeOrder)).2.2 := rfl
  refine ⟨⟨?_, ?_, ?_, ?_, ?_⟩, ?_⟩
  · rw [hc]
    exact hval'
  · rw [hwts, hc]
    exact hcw'
  · rw [hc, hn']
    exact hn
  · intro x hx
    rw [hnord]
    by_cases hmoved : mv.bestCluster ≠ mv.currentCluster
    · rw [if_pos hmoved]
      exact queue_fold_preserves_order net hinv j s.i hj mv.clustering.clusters
        mv.bestCluster (rowSlots net j) (fun a ha => mem_rowSlots_row net j a ha)
        (Function.update s.stableNodes j true, s.nUnstableNodes - 1, s.nodeOrder)
        (fun y hy => hord y hy) x hx
    · rw [if_neg hmoved]
      exact hord x hx
  · rw [hieq]
    by_cases h : s.i < net.nNodes - 1
    · rw [if_pos h]; omega
    · rw [if_neg h]; omega
  · rw [hc]
    exact hq

theorem fastLMLoop_spec (net : Network) (hinv : NetworkInvariants net)
    (hw : ∀ k < net.nEdges, 0 ≤ net.edgeWeights k)
    (hS : 0 ≤ net.totalEdgeWeightSelfLinks) (resolution : ℚ) :
    ∀ (fuel : ℕ) (s : FastLMState), FastLMInv net s →
      FastLMInv net (fastLMLoop net resolution fuel s)
      ∧ calcQuality resolution net s.clustering
        ≤ calcQuality resolution net (fastLMLoop net resolution fuel s).clustering := by
  intro fuel
  induction fuel with
  | zero => intro s hs; exact ⟨hs, le_rfl⟩
  | succ fuel ih =>
    intro s hs
    obtain ⟨hs', hq'⟩ := fastLMVisit_spec net hinv hw hS resolution s hs
    simp only [fastLMLoop]
    by_cases h : 0 < (fastLMVisit net resolution s).nUnstableNodes
    · rw [if_pos h]
      obtain ⟨hinv2, hq2⟩ := ih (fastLMVisit net resolution s) hs'
      exact ⟨hinv2, le_trans hq' hq2⟩
    · rw [if_neg h]
      exact ⟨hs', hq'⟩

/-- `FastLocalMovingAlgorithm.improveClusteringOneIteration` never decreases
the CPM quality of a valid clustering. -/
theorem fast_improveClusteringOneIteration_quality (net : Network)
    (hinv : NetworkInvariants net)
    (hw : ∀ k < net.nEdges, 0 ≤ net.edgeWeights k)
    (hS : 0 ≤ net.totalEdgeWeightSelfLinks)
    (resolution : ℚ) (c : Clustering) (stream : ℕ → ℕ) (fuel : ℕ)
    (hval : ∀ i < net.nNodes, c.clusters i < c.nClusters)
    (hn : c.nNodes = net.nNodes) (hpos : 0 < net.nNodes) :
    calcQuality resolution net c
      ≤ calcQuality resolution net
          (FastLocalMovingAlgorithm.improveClusteringOneIteration
            net resolution c stream fuel).1 := by
  unfold FastLocalMovingAlgorithm.improveClusteringOneIteration
  by_cases h1 : net.nNodes = 1
  · rw [if_pos h1]
  · rw [if_neg h1]
    have hs0 : FastLMInv net
        { clustering := c
          clusterWeights := fun l => clusterWeight net c l
          nNodesPerCluster := fun l => clusterNNodes net c l
          unusedClusters := fun k => (initialUnusedClusters net c).getD k 0
          nUnusedClusters := (initialUnusedClusters net c).length
          nodeOrder := generateRandomPermutation net.nNodes stream
          stableNodes := fun _ => false
          nUnstableNodes := net.nNodes
          i := 0
          update := false } := by
      refine ⟨hval, fun l => rfl, hn, ?_, hpos⟩
      intro x hx
      exact generateRandomPermutation_lt net.nNodes stream hpos x hx
    obtain ⟨⟨hval', hcw', hn', _, _⟩, hq⟩ :=
      fastLMLoop_spec net hinv hw hS resolution fuel _ hs0
    exact lm_finish net hinv resolution c _ _ hval' hn' hq

/-- C2: one call to `improveClustering` of the standard local moving
algorithm, and likewise each iteration
(`improveClusteringOneIteration`) of the fast local moving algorithm, never
decreases the CPM quality: for every network satisfying the construction
invariants with non-negative edge weights and non-negative self-link total,
every clustering of its nodes with ids in range, every random stream and
every loop fuel, `calcQuality` of the resulting clustering is at least
`calcQuality` of the input clustering (nodes move only on a strictly larger
quality increment). -/
theorem localMoving_quality_nondecreasing (net : Network)
    (hinv : NetworkInvariants net)
    (hw : ∀ k < net.nEdges, 0 ≤ net.edgeWeights k)
    (hS : 0 ≤ net.totalEdgeWeightSelfLinks)
    (resolution : ℚ) (c : Clustering)
    (hval : ∀ i < net.nNodes, c.clusters i < c.nClusters)
    (hn : c.nNodes = net.nNodes) (hpos : 0 < net.nNodes)
    (stream : ℕ → ℕ) (fuel : ℕ) :
    calcQuality resolution net c
      ≤ calcQuality resolution net
          (StandardLocalMovingAlgorithm.improveClustering net resolution c stream fuel).1
    ∧ calcQuality resolution net c
      ≤ calcQuality resolution net
          (FastLocalMovingAlgorithm.improveClusteringOneIteration
            net resolution c stream fuel).1 :=
  ⟨std_improveClustering_quality net hinv hw hS resolution c stream fuel hval hn hpos,
   fast_improveClusteringOneIteration_quality net hinv hw hS resolution c stream fuel
     hval hn hpos⟩

theorem localMoving_quality_nondecreasing_witness :
    calcQuality 1 pathNet2 (Clustering.initSingleton 2)
      ≤ calcQuality 1 pathNet2
          (StandardLocalMovingAlgorithm.improveClustering pathNet2 1
            (Clustering.initSingleton 2) (fun _ => 0) 3).1
    ∧ calcQuality 1 pathNet2 (Clustering.initSingleton 2)
      ≤ calcQuality 1 pathNet2
          (FastLocalMovingAlgorithm.improveClusteringOneIteration pathNet2 1
            (Clustering.initSingleton 2) (fun _ => 0) 3).1 :=
  localMoving_quality_nondecreasing pathNet2 pathNet2_invariants
    (fun k _ => by norm_num [pathNet2]) le_rfl 1 (Clustering.initSingleton 2)
    (fun i hi => hi) rfl (by decide) (fun _ => 0) 3

theorem valid_move_update (c : Clustering) (j best : ℕ) (h : ValidClustering c) :
    ValidClustering
      { c with
        clusters := Function.update c.clusters j best
        nClusters := if c.nClusters ≤ best then best + 1 else c.nClusters } := by
  intro i hi
  show Function.update c.clusters j best i
    < (if c.nClusters ≤ best then best + 1 else c.nClusters)
  by_cases hij : i = j
  · subst hij
    rw [Function.update_same]
    by_cases hb : c.nClusters ≤ best
    · rw [if_pos hb]; omega
    · rw [if_neg hb]; omega
  · rw [Function.update_noteq hij]
    by_cases hb : c.nClusters ≤ best
    · rw [if_pos hb]
      exact lt_of_lt_of_le (h i hi) (by omega)
    · rw [if_neg hb]
      exact h i hi

/-- The shared per-node block keeps every stored cluster id below
`nClusters`, whichever cluster it picks: either the clustering is unchanged
or one entry is rewritten with `nClusters` widened to cover it. -/
theorem localMovingVisitNode_preserves_valid (net : Network) (resolution : ℚ)
    (c : Clustering) (cw : ℕ → ℚ) (npc : ℕ → ℕ) (unused : ℕ → ℕ) (nUnused j : ℕ)
    (h : ValidClustering c) :
    ValidClustering
      (localMovingVisitNode net resolution c cw npc unused nUnused j).clustering := by
  set cur := c.clusters j with hcur
  set cw1 := Function.update cw cur (cw cur - net.nodeWeights j) with hcw1def
  set u := (if Function.update npc cur (npc cur - 1) cur = 0
      then Function.update unused nUnused cur else unused)
      ((if Function.update npc cur (npc cur - 1) cur = 0 then nUnused + 1 else nUnused) - 1)
    with hu
  set scan := scanNeighboringClusters net c.clusters j u with hscan
  set best := chooseBestCluster net resolution j cur cw1 scan.1 scan.2 with hbestdef
  have hmvc : (localMovingVisitNode net resolution c cw npc unused nUnused j).clustering
      = if best ≠ cur then
          { c with
            clusters := Function.update c.clusters j best
            nClusters := if c.nClusters ≤ best then best + 1 else c.nClusters }
        else c := rfl
  rw [hmvc]
  by_cases hbc : best = cur
  · rw [if_neg (not_not_intro hbc)]
    exact h
  · rw [if_pos hbc]
    exact valid_move_update c j best h

theorem standardLMLoop_preserves_valid (net : Network) (resolution : ℚ) :
    ∀ (fuel : ℕ) (s : StdLMState), ValidClustering s.clustering →
      ValidClustering (standardLMLoop net resolution fuel s).clustering := by
  intro fuel
  induction fuel with
  | zero => intro s hs; exact hs
  | succ fuel ih =>
    intro s hs
    have hs' : ValidClustering (standardLMVisit net resolution s).clustering :=
      localMovingVisitNode_preserves_valid net resolution s.clustering s.clusterWeights
        s.nNodesPerCluster s.unusedClusters s.nUnusedClusters (s.nodeOrder s.i) hs
    simp only [standardLMLoop]
    by_cases h : 0 < (standardLMVisit net resolution s).nUnstableNodes
    · rw [if_pos h]; exact ih _ hs'
    · rw [if_neg h]; exact hs'

theorem fastLMLoop_preserves_valid (net : Network) (resolution : ℚ) :
    ∀ (fuel : ℕ) (s : FastLMState), ValidClustering s.clustering →
      ValidClustering (fastLMLoop net resolution fuel s).clustering := by
  intro fuel
  induction fuel with
  | zero => intro s hs; exact hs
  | succ fuel ih =>
    intro s hs
    have hs' : ValidClustering (fastLMVisit net resolution s).clustering :=
      localMovingVisitNode_preserves_valid net resolution s.clustering s.clusterWeights
        s.nNodesPerCluster s.unusedClusters s.nUnusedClusters (s.nodeOrder s.i) hs
    simp only [fastLMLoop]
    by_cases h : 0 < (fastLMVisit net resolution s).nUnstableNodes
    · rw [if_pos h]; exact ih _ hs'
    · rw [if_neg h]; exact hs'

theorem valid_finish (c' : Clustering) (b : Bool) (h : ValidClustering c') :
    ValidClustering (if b then c'.removeEmptyClusters else c') := by
  by_cases hb : b = true
  · rw [if_pos hb]; exact valid_removeEmptyClusters c' h
  · rw [if_neg hb]; exact h

theorem std_improveClustering_preserves_valid (net : Network) (resolution : ℚ)
    (c : Clustering) (stream : ℕ → ℕ) (fuel : ℕ) (h : ValidClustering c) :
    ValidClustering
      (StandardLocalMovingAlgorithm.improveClustering net resolution c stream fuel).1 := by
  unfold StandardLocalMovingAlgorithm.improveClustering
  by_cases h1 : net.nNodes = 1
  · rw [if_pos h1]; exact h
  · rw [if_neg h1]
    exact valid_finish _ _ (standardLMLoop_preserves_valid net resolution fuel
      { clustering := c
        clusterWeights := fun l => clusterWeight net c l
        nNodesPerCluster := fun l => clusterNNodes net c l
        unusedClusters := fun k => (initialUnusedClusters net c).getD k 0
        nUnusedClusters := (initialUnusedClusters net c).length
        nodeOrder := generateRandomPermutation net.nNodes stream
        nUnstableNodes := net.nNodes
        i := 0
        update := false } h)

theorem fast_improveClustering_preserves_valid (net : Network) (resolution : ℚ)
    (c : Clustering) (stream : ℕ → ℕ) (fuel : ℕ) (h : ValidClustering c) :
    ValidClustering
      (FastLocalMovingAlgorithm.improveClusteringOneIteration
        net resolution c stream fuel).1 := by
  unfold FastLocalMovingAlgorithm.improveClusteringOneIteration
  by_cases h1 : net.nNodes = 1
  · rw [if_pos h1]; exact h
  · rw [if_neg h1]
    exact valid_finish _ _ (fastLMLoop_preserves_valid net resolution fuel
      { clustering := c
        clusterWeights := fun l => clusterWeight net c l
        nNodesPerCluster := fun l => clusterNNodes net c l
        unusedClusters := fun k => (initialUnusedClusters net c).getD k 0
        nUnusedClusters := (initialUnusedClusters net c).length
        nodeOrder := generateRandomPermutation net.nNodes stream
        stableNodes := fun _ => false
        nUnstableNodes := net.nNodes
        i := 0
        update := false } h)

/-- C9: every Clustering operation preserves the range invariant that each
stored cluster id lies below `nClusters`: `setCluster`,
`removeEmptyClusters`, `orderClustersByWeight`, `orderClustersByNNodes` and
`mergeClusters` (with an in-range outer clustering) keep `ValidClustering`,
and so do the per-node move of the local moving algorithms (widening
`nClusters` when the node moves to a cluster id outside it) and the full
standard and fast local moving passes. -/
theorem clustering_ops_preserve_range (c : Clustering) (h : ValidClustering c) :
    (∀ node cluster, ValidClustering (c.setCluster node cluster))
    ∧ ValidClustering c.removeEmptyClusters
    ∧ (∀ w, ValidClustering (c.orderClustersByWeight w))
    ∧ ValidClustering c.orderClustersByNNodes
    ∧ (∀ outer, ValidClustering outer →
        (∀ i < c.nNodes, c.clusters i < outer.nNodes) →
        ValidClustering (c.mergeClusters outer))
    ∧ (∀ (net : Network) (resolution : ℚ) (cw : ℕ → ℚ) (npc unused : ℕ → ℕ)
        (nUnused j : ℕ), ValidClustering
          (localMovingVisitNode net resolution c cw npc unused nUnused j).clustering)
    ∧ (∀ (net : Network) (resolution : ℚ) (stream : ℕ → ℕ) (fuel : ℕ),
        ValidClustering
          (StandardLocalMovingAlgorithm.improveClustering net resolution c stream fuel).1)
    ∧ (∀ (net : Network) (resolution : ℚ) (stream : ℕ → ℕ) (fuel : ℕ),
        ValidClustering
          (FastLocalMovingAlgorithm.improveClusteringOneIteration
            net resolution c stream fuel).1) :=
  ⟨fun node cluster => valid_setCluster c node cluster h,
   valid_removeEmptyClusters c h,
   fun w => valid_orderClustersByWeight c w,
   valid_orderClustersByWeight c (fun _ => 1),
   fun outer ho hdom => valid_mergeClusters c outer ho hdom,
   fun net resolution cw npc unused nUnused j =>
     localMovingVisitNode_preserves_valid net resolution c cw npc unused nUnused j h,
   fun net resolution stream fuel =>
     std_improveClustering_preserves_valid net resolution c stream fuel h,
   fun net resolution stream fuel =>
     fast_improveClustering_preserves_valid net resolution c stream fuel h⟩

theorem clustering_ops_preserve_range_witness :
    ValidClustering (Clustering.initSingleton 2)
    ∧ ValidClustering ((Clustering.initSingleton 2).setCluster 0 5) :=
  ⟨by decide,
   (clustering_ops_preserve_range (Clustering.initSingleton 2) (by decide)).1 0 5⟩

/-- `fastExp` (utils): exponents below `-256` clamp to `0`, otherwise
`(1 + x/256)` squared eight times. -/
def fastExp (exponent : ℚ) : ℚ :=
  if exponent < -256 then 0
  else
    let e1 := 1 + exponent / 256
    let e2 := e1 * e1
    let e3 := e2 * e2
    let e4 := e3 * e3
    let e5 := e4 * e4
    let e6 := e5 * e5
    let e7 := e6 * e6
    let e8 := e7 * e7
    e8 * e8

/-- The mutable state of `LocalMergingAlgorithm.findClustering` (network.ts
lines 1126-1268): the clustering under construction and the per-cluster
scratch arrays, all allocated once before the node loop. -/
structure LMState where
  clustering : Clustering
  clusterWeights : ℕ → ℚ
  nonSingletonClusters : ℕ → Bool
  externalEdgeWeightPerCluster : ℕ → ℚ
  edgeWeightPerCluster : ℕ → ℚ
  neighboringClusters : ℕ → ℕ
  cumTransformed : ℕ → ℚ
  update : Bool

/-- The state of the candidate loop of `findClustering`: the
`edgeWeightPerCluster` scratch being reset, the best cluster, the maximal
quality increment, the total transformed increment and the cumulative
transformed increments per candidate index. -/
structure LMCandState where
  ew : ℕ → ℚ
  bestCluster : ℕ
  maxQVI : ℚ
  totalT : ℚ
  cum : ℕ → ℚ

/-- The binary search of `findClustering` over the cumulative transformed
quality increments (`while (minIdx < maxIdx - 1)`), indexed by fuel; the
source's `Math.trunc` division is the `Int` division towards zero. -/
def lmBinarySearch (cum : ℕ → ℚ) (r : ℚ) : ℕ → ℤ → ℤ → ℤ
  | 0, _, maxIdx => maxIdx
  | fuel + 1, minIdx, maxIdx =>
    if minIdx < maxIdx - 1 then
      let midIdx := (minIdx + maxIdx).tdiv 2
      if r ≤ cum midIdx.toNat then lmBinarySearch cum r fuel minIdx midIdx
      else lmBinarySearch cum r fuel midIdx maxIdx
    else maxIdx

/-- The body of the node loop of `LocalMergingAlgorithm.findClustering`
(network.ts lines 1146-1261) for visited node `j` with random draw `r`: a
node of a singleton cluster that is well connected to the rest of the network
is removed from its cluster, its neighbouring clusters are collected together
with the accumulated edge weights, every well-connected neighbouring cluster
with a non-negative quality increment receives a transformed increment, and
the node joins the cluster selected by binary search over the cumulative
transformed increments.  Rational arithmetic has no infinity, so the source's
guard `totalTransformedQualityValueIncrement < Number.POSITIVE_INFINITY` is
always true and only the binary-search branch is kept. -/
def localMergingVisit (net : Network) (resolution randomness : ℚ)
    (totalNodeWeight : ℚ) (r : ℚ) (j : ℕ) (s : LMState) : LMState :=
  if s.nonSingletonClusters j = false
      ∧ s.clusterWeights j * (totalNodeWeight - s.clusterWeights j) * resolution
          ≤ s.externalEdgeWeightPerCluster j then
    let cw := Function.update s.clusterWeights j 0
    let ext := Function.update s.externalEdgeWeightPerCluster j 0
    let nb0 := Function.update s.neighboringClusters 0 j
    let scan := (rowSlots net j).foldl
      (fun (st : (ℕ → ℚ) × (ℕ → ℕ) × ℕ) k =>
        let l := s.clustering.clusters (net.neighbors k)
        let st1 := if st.1 l = 0 then
            (st.1, Function.update st.2.1 st.2.2 l, st.2.2 + 1) else st
        (Function.update st1.1 l (st1.1 l + net.edgeWeights k), st1.2.1, st1.2.2))
      (s.edgeWeightPerCluster, nb0, 1)
    let nbc := scan.2.1
    let nNeighboringClusters := scan.2.2
    let cand := (List.range nNeighboringClusters).foldl
      (fun (st : LMCandState) k =>
        let l := nbc k
        let st1 :=
          if cw l * (totalNodeWeight - cw l) * resolution ≤ ext l then
            let qvi := st.ew l - net.nodeWeights j * cw l * resolution
            { st with
              bestCluster := if st.maxQVI < qvi then l else st.bestCluster
              maxQVI := if st.maxQVI < qvi then qvi else st.maxQVI
              totalT := if 0 ≤ qvi then st.totalT + fastExp (qvi / randomness)
                else st.totalT }
          else st
        { st1 with
          ew := Function.update st1.ew l 0
          cum := Function.update st1.cum k st1.totalT })
      { ew := scan.1
        bestCluster := j
        maxQVI := 0
        totalT := 0
        cum := s.cumTransformed }
    let chosenCluster :=
      nbc (lmBinarySearch cand.cum (cand.totalT * r) (nNeighboringClusters + 2)
        (-1) ((nNeighboringClusters : ℤ) + 1)).toNat
    let cw2 := Function.update cw chosenCluster (cw chosenCluster + net.nodeWeights j)
    let ext2 := (rowSlots net j).foldl
      (fun e k =>
        if s.clustering.clusters (net.neighbors k) = chosenCluster then
          Function.update e chosenCluster (e chosenCluster - net.edgeWeights k)
        else
          Function.update e chosenCluster (e chosenCluster + net.edgeWeights k))
      ext
    if chosenCluster ≠ j then
      { clustering := { s.clustering with
          clusters := Function.update s.clustering.clusters j chosenCluster }
        clusterWeights := cw2
        nonSingletonClusters := Function.update s.nonSingletonClusters chosenCluster true
        externalEdgeWeightPerCluster := ext2
        edgeWeightPerCluster := cand.ew
        neighboringClusters := nbc
        cumTransformed := cand.cum
        update := true }
    else
      { clustering := s.clustering
        clusterWeights := cw2
        nonSingletonClusters := s.nonSingletonClusters
        externalEdgeWeightPerCluster := ext2
        edgeWeightPerCluster := cand.ew
        neighboringClusters := nbc
        cumTransformed := cand.cum
        update := s.update }
  else s

/-- `LocalMergingAlgorithm.findClustering` (network.ts lines 1126-1268):
starting from the singleton clustering, one pass over the nodes in random
order merges well-connected singleton-cluster nodes into randomly chosen
neighbouring clusters, compacting empty clusters at the end when anything
moved.  The random draws are modelled as streams: `stream` feeds the random
permutation and `dstream i` is the `nextDouble` draw available at visit `i`
(the source draws lazily from one generator; quantifying over all streams
covers every draw sequence). -/
def LocalMergingAlgorithm.findClustering (net : Network)
    (resolution randomness : ℚ) (stream : ℕ → ℕ) (dstream : ℕ → ℚ) : Clustering :=
  if net.nNodes = 1 then Clustering.initSingleton net.nNodes
  else
    let nodeOrder := generateRandomPermutation net.nNodes stream
    let sF := (List.range net.nNodes).foldl
      (fun s i => localMergingVisit net resolution randomness net.getTotalNodeWeight
        (dstream i) (nodeOrder i) s)
      { clustering := Clustering.initSingleton net.nNodes
        clusterWeights := net.nodeWeights
        nonSingletonClusters := fun _ => false
        externalEdgeWeightPerCluster := fun i => net.nodeTotalEdgeWeight i
        edgeWeightPerCluster := fun _ => 0
        neighboringClusters := fun _ => 0
        cumTransformed := fun _ => 0
        update := false }
    if sF.update then sF.clustering.removeEmptyClusters else sF.clustering

/-- The refinement construction of `LeidenAlgorithm.improveClusteringOneIteration`
(leidenAlgorithm.ts lines 195-209): iterate over the clusters, find a
clustering of each cluster's subnetwork, and write each subnetwork node's
refined cluster as the running total of subnetwork cluster counts plus its
cluster in the subnetwork clustering. -/
def buildRefinement (c : Clustering) (sub : ℕ → Clustering) : Clustering :=
  (List.range c.nClusters).foldl
    (fun (ref : Clustering) i =>
      { ref with
        clusters := (List.range (sub i).nNodes).foldl
          (fun cl j => Function.update cl ((c.nodesOfCluster i).getD j 0)
            (ref.nClusters + (sub i).clusters j)) ref.clusters
        nClusters := ref.nClusters + (sub i).nClusters })
    { nNodes := c.nNodes, nClusters := 0, clusters := fun _ => 0 }

/-- The first refined cluster id handed to subnetwork `m`: the total number
of clusters assigned to the earlier subnetworks. -/
def refinementOffset (sub : ℕ → Clustering) (m : ℕ) : ℕ :=
  ∑ i ∈ Finset.range m, (sub i).nClusters

/-- The inner write loop of the refinement construction: with pairwise
distinct targets (the source writes to the distinct nodes of one cluster),
each target ends at its own written value and every other entry is
untouched. -/
theorem refine_inner_fold (L : List ℕ) (hnd : L.Nodup) (base : ℕ) (g : ℕ → ℕ) :
    ∀ (J : List ℕ), J.Nodup → (∀ j ∈ J, j < L.length) →
    ∀ (cl : ℕ → ℕ),
      (∀ j ∈ J, (J.foldl (fun cl j => Function.update cl (L.getD j 0) (base + g j)) cl)
          (L.getD j 0) = base + g j)
      ∧ (∀ a, (∀ j ∈ J, a ≠ L.getD j 0) →
          (J.foldl (fun cl j => Function.update cl (L.getD j 0) (base + g j)) cl) a
            = cl a) := by
  intro J
  induction J with
  | nil =>
    intro _ _ cl
    exact ⟨fun j hj => absurd hj (List.not_mem_nil j), fun a _ => rfl⟩
  | cons j0 T ih =>
    intro hndJ hJlen cl
    obtain ⟨hj0T, hndT⟩ := List.nodup_cons.mp hndJ
    obtain ⟨hT1, hT2⟩ := ih hndT (fun j hj => hJlen j (List.mem_cons_of_mem _ hj))
      (Function.update cl (L.getD j0 0) (base + g j0))
    simp only [List.foldl_cons]
    constructor
    · intro j hj
      rcases List.mem_cons.mp hj with hj0 | hjT
      · subst hj0
        have hnot : ∀ j' ∈ T, L.getD j 0 ≠ L.getD j' 0 := by
          intro j' hj'
          have hjj' : j ≠ j' := fun h => hj0T (h ▸ hj')
          have hjlen : j < L.length := hJlen j (List.mem_cons_self j T)
          have hj'len : j' < L.length := hJlen j' (List.mem_cons_of_mem _ hj')
          rw [List.getD_eq_getElem L 0 hjlen, List.getD_eq_getElem L 0 hj'len]
          intro hcon
          exact hjj' ((List.Nodup.getElem_inj_iff hnd).mp hcon)
        rw [hT2 (L.getD j 0) hnot, Function.update_same]
      · exact hT1 j hjT
    · intro a ha
      rw [hT2 a (fun j' hj' => ha j' (List.mem_cons_of_mem _ hj'))]
      exact Function.update_noteq (ha j0 (List.mem_cons_self _ _)) _ _

/-- One step of the refinement loop of the Leiden algorithm: process
subnetwork `i`, writing its nodes' refined cluster ids and advancing the
running cluster count. -/
def refineStep (c : Clustering) (sub : ℕ → Clustering) (ref : Clustering)
    (i : ℕ) : Clustering :=
  { ref with
    clusters := (List.range (sub i).nNodes).foldl
      (fun cl j => Function.update cl ((c.nodesOfCluster i).getD j 0)
        (ref.nClusters + (sub i).clusters j)) ref.clusters
    nClusters := ref.nClusters + (sub i).nClusters }

theorem buildRefinement_eq (c : Clustering) (sub : ℕ → Clustering) :
    buildRefinement c sub = (List.range c.nClusters).foldl (refineStep c sub)
      { nNodes := c.nNodes, nClusters := 0, clusters := fun _ => 0 } := rfl

theorem nodesOfCluster_nodup (c : Clustering) (l : ℕ) :
    (c.nodesOfCluster l).Nodup :=
  (List.nodup_range c.nNodes).filter _

theorem mem_nodesOfCluster (c : Clustering) (l a : ℕ) :
    a ∈ c.nodesOfCluster l ↔ a < c.nNodes ∧ c.clusters a = l := by
  unfold Clustering.nodesOfCluster
  rw [List.mem_filter, List.mem_range]
  constructor
  · intro ⟨h1, h2⟩
    exact ⟨h1, of_decide_eq_true h2⟩
  · intro ⟨h1, h2⟩
    exact ⟨h1, decide_eq_true h2⟩

/-- After processing the first `m` subnetworks, the running cluster count is
the total over those subnetworks, and every node of an already-processed
cluster carries a refined id inside its own cluster's id window. -/
theorem buildRefinement_window (c : Clustering) (sub : ℕ → Clustering) (M : ℕ)
    (hsubn : ∀ i < M, (sub i).nNodes = (c.nodesOfCluster i).length)
    (hsubval : ∀ i < M, ValidClustering (sub i)) :
    ∀ m, m ≤ M →
      ((List.range m).foldl (refineStep c sub)
          { nNodes := c.nNodes, nClusters := 0, clusters := fun _ => 0 }).nClusters
        = refinementOffset sub m
      ∧ ∀ a, a < c.nNodes → c.clusters a < m →
          (refinementOffset sub (c.clusters a)
              ≤ ((List.range m).foldl (refineStep c sub)
                  { nNodes := c.nNodes, nClusters := 0,
                    clusters := fun _ => 0 }).clusters a
            ∧ ((List.range m).foldl (refineStep c sub)
                { nNodes := c.nNodes, nClusters := 0,
                  clusters := fun _ => 0 }).clusters a
              < refinementOffset sub (c.clusters a) + (sub (c.clusters a)).nClusters) := by
  intro m
  induction m with
  | zero =>
    intro _
    constructor
    · show (0 : ℕ) = refinementOffset sub 0
      rw [refinementOffset, Finset.sum_range_zero]
    · intro a _ hlt
      exact absurd hlt (Nat.not_lt_zero _)
  | succ m ih =>
    intro hmM
    obtain ⟨ihN, ihW⟩ := ih (le_trans (Nat.le_succ m) hmM)
    have hmltM : m < M := hmM
    rw [List.range_succ]
    simp only [List.foldl_append, List.foldl_cons, List.foldl_nil]
    set R := (List.range m).foldl (refineStep c sub)
      { nNodes := c.nNodes, nClusters := 0, clusters := fun _ => 0 } with hRdef
    obtain ⟨hI1, hI2⟩ := refine_inner_fold (c.nodesOfCluster m) (nodesOfCluster_nodup c m)
      R.nClusters (fun j => (sub m).clusters j) (List.range (sub m).nNodes)
      (List.nodup_range _)
      (fun j hj => by rw [← hsubn m hmltM]; exact List.mem_range.mp hj) R.clusters
    constructor
    · show R.nClusters + (sub m).nClusters = refinementOffset sub (m + 1)
      rw [ihN, refinementOffset, refinementOffset, Finset.sum_range_succ]
    · intro a ha hlt
      by_cases hca : c.clusters a = m
      · have hmem : a ∈ c.nodesOfCluster m := (mem_nodesOfCluster c m a).mpr ⟨ha, hca⟩
        obtain ⟨j0, hj0len, hj0get⟩ := List.getElem_of_mem hmem
        have hgetD : (c.nodesOfCluster m).getD j0 0 = a := by
          rw [List.getD_eq_getElem _ 0 hj0len, hj0get]
        have h1 : (refineStep c sub R m).clusters ((c.nodesOfCluster m).getD j0 0)
            = R.nClusters + (sub m).clusters j0 :=
          hI1 j0 (List.mem_range.mpr (by rw [hsubn m hmltM]; exact hj0len))
        rw [hgetD] at h1
        have hvb : (sub m).clusters j0 < (sub m).nClusters :=
          hsubval m hmltM j0 (by rw [hsubn m hmltM]; exact hj0len)
        rw [hca, h1]
        omega
      · have hno : ∀ j ∈ List.range (sub m).nNodes,
            a ≠ (c.nodesOfCluster m).getD j 0 := by
          intro j hj hcon
          have hjlen : j < (c.nodesOfCluster m).length := by
            rw [← hsubn m hmltM]; exact List.mem_range.mp hj
          have : a ∈ c.nodesOfCluster m := by
            rw [hcon, List.getD_eq_getElem _ 0 hjlen]
            exact List.getElem_mem hjlen
          exact hca ((mem_nodesOfCluster c m a).mp this).2
        have h2 : (refineStep c sub R m).clusters a = R.clusters a := hI2 a hno
        rw [h2]
        exact ihW a ha (by omega)

/-- One visit of the local merging loop keeps every stored cluster id and
every entry of the `neighboringClusters` scratch array below `nNodes`, and
leaves the clustering's `nClusters` and `nNodes` untouched: whatever index
the binary search returns, the chosen cluster is read from the scratch
array, whose entries are all node ids or previously stored cluster ids. -/
theorem localMergingVisit_inv (net : Network)
    (resolution randomness totalNodeWeight r : ℚ) (j : ℕ) (hj : j < net.nNodes)
    (hnbr : ∀ k ∈ net.row j, net.neighbors k < net.nNodes) (s : LMState)
    (h1 : ∀ v < net.nNodes, s.clustering.clusters v < net.nNodes)
    (h2 : ∀ idx, s.neighboringClusters idx < net.nNodes)
    (h3 : s.clustering.nClusters = net.nNodes)
    (h4 : s.clustering.nNodes = net.nNodes) :
    (∀ v < net.nNodes,
      (localMergingVisit net resolution randomness totalNodeWeight r j s).clustering.clusters v
        < net.nNodes)
    ∧ (∀ idx,
        (localMergingVisit net resolution randomness totalNodeWeight r j s).neighboringClusters idx
          < net.nNodes)
    ∧ (localMergingVisit net resolution randomness totalNodeWeight r j s).clustering.nClusters
        = net.nNodes
    ∧ (localMergingVisit net resolution randomness totalNodeWeight r j s).clustering.nNodes
        = net.nNodes := by
  by_cases hguard : s.nonSingletonClusters j = false
      ∧ s.clusterWeights j * (totalNodeWeight - s.clusterWeights j) * resolution
          ≤ s.externalEdgeWeightPerCluster j
  · set cw := Function.update s.clusterWeights j 0 with hcw
    set ext := Function.update s.externalEdgeWeightPerCluster j 0 with hext
    set nb0 := Function.update s.neighboringClusters 0 j with hnb0
    set scan := (rowSlots net j).foldl
      (fun (st : (ℕ → ℚ) × (ℕ → ℕ) × ℕ) k =>
        let l := s.clustering.clusters (net.neighbors k)
        let st1 := if st.1 l = 0 then
            (st.1, Function.update st.2.1 st.2.2 l, st.2.2 + 1) else st
        (Function.update st1.1 l (st1.1 l + net.edgeWeights k), st1.2.1, st1.2.2))
      (s.edgeWeightPerCluster, nb0, 1) with hscan
    set nbc := scan.2.1 with hnbc
    set nN := scan.2.2 with hnN
    set cand := (List.range nN).foldl
      (fun (st : LMCandState) k =>
        let l := nbc k
        let st1 :=
          if cw l * (totalNodeWeight - cw l) * resolution ≤ ext l then
            let qvi := st.ew l - net.nodeWeights j * cw l * resolution
            { st with
              bestCluster := if st.maxQVI < qvi then l else st.bestCluster
              maxQVI := if st.maxQVI < qvi then qvi else st.maxQVI
              totalT := if 0 ≤ qvi then st.totalT + fastExp (qvi / randomness)
                else st.totalT }
          else st
        { st1 with
          ew := Function.update st1.ew l 0
          cum := Function.update st1.cum k st1.totalT })
      { ew := scan.1
        bestCluster := j
        maxQVI := 0
        totalT := 0
        cum := s.cumTransformed } with hcand
    set chosen := nbc (lmBinarySearch cand.cum (cand.totalT * r) (nN + 2)
      (-1) ((nN : ℤ) + 1)).toNat with hchosen
    set cw2 := Function.update cw chosen (cw chosen + net.nodeWeights j) with hcw2
    set ext2 := (rowSlots net j).foldl
      (fun e k =>
        if s.clustering.clusters (net.neighbors k) = chosen then
          Function.update e chosen (e chosen - net.edgeWeights k)
        else
          Function.update e chosen (e chosen + net.edgeWeights k))
      ext with hext2
    have hvis : localMergingVisit net resolution randomness totalNodeWeight r j s
        = if chosen ≠ j then
            { clustering := { s.clustering with
                clusters := Function.update s.clustering.clusters j chosen }
              clusterWeights := cw2
              nonSingletonClusters := Function.update s.nonSingletonClusters chosen true
              externalEdgeWeightPerCluster := ext2
              edgeWeightPerCluster := cand.ew
              neighboringClusters := nbc
              cumTransformed := cand.cum
              update := true }
          else
            { clustering := s.clustering
              clusterWeights := cw2
              nonSingletonClusters := s.nonSingletonClusters
              externalEdgeWeightPerCluster := ext2
              edgeWeightPerCluster := cand.ew
              neighboringClusters := nbc
              cumTransformed := cand.cum
              update := s.update } := by
      unfold localMergingVisit
      rw [if_pos hguard]
    have hnb_all : ∀ idx, nbc idx < net.nNodes := by
      have hgen : ∀ (slots : List ℕ), (∀ k ∈ slots, k ∈ net.row j) →
          ∀ (st : (ℕ → ℚ) × (ℕ → ℕ) × ℕ), (∀ idx, st.2.1 idx < net.nNodes) →
          ∀ idx, ((slots.foldl
            (fun (st : (ℕ → ℚ) × (ℕ → ℕ) × ℕ) k =>
              let l := s.clustering.clusters (net.neighbors k)
              let st1 := if st.1 l = 0 then
                  (st.1, Function.update st.2.1 st.2.2 l, st.2.2 + 1) else st
              (Function.update st1.1 l (st1.1 l + net.edgeWeights k), st1.2.1, st1.2.2))
            st).2.1) idx < net.nNodes := by
        intro slots
        induction slots with
        | nil => intro _ st h idx; exact h idx
        | cons k t ih =>
          intro hmem st h idx
          simp only [List.foldl_cons]
          refine ih (fun a ha => hmem a (List.mem_cons_of_mem k ha)) _ ?_ idx
          intro y
          have hl : s.clustering.clusters (net.neighbors k) < net.nNodes :=
            h1 _ (hnbr k (hmem k (List.mem_cons_self k t)))
          show ((if st.1 (s.clustering.clusters (net.neighbors k)) = 0 then
              (st.1, Function.update st.2.1 st.2.2
                (s.clustering.clusters (net.neighbors k)), st.2.2 + 1) else st) :
                (ℕ → ℚ) × (ℕ → ℕ) × ℕ).2.1 y < net.nNodes
          by_cases hz : st.1 (s.clustering.clusters (net.neighbors k)) = 0
          · rw [if_pos hz]
            show Function.update st.2.1 st.2.2
              (s.clustering.clusters (net.neighbors k)) y < net.nNodes
            by_cases hy : y = st.2.2
            · rw [hy, Function.update_same]
              exact hl
            · rw [Function.update_noteq hy]
              exact h y
          · rw [if_neg hz]
            exact h y
      rw [hnbc, hscan]
      refine hgen (rowSlots net j) (fun a ha => mem_rowSlots_row net j a ha)
        (s.edgeWeightPerCluster, nb0, 1) ?_
      intro y
      show nb0 y < net.nNodes
      rw [hnb0]
      by_cases hy : y = 0
      · rw [hy, Function.update_same]
        exact hj
      · rw [Function.update_noteq hy]
        exact h2 y
    rw [hvis]
    by_cases hcj : chosen ≠ j
    · rw [if_pos hcj]
      refine ⟨?_, hnb_all, h3, h4⟩
      intro v hv
      show Function.update s.clustering.clusters j chosen v < net.nNodes
      by_cases hvj : v = j
      · rw [hvj, Function.update_same]
        exact hnb_all _
      · rw [Function.update_noteq hvj]
        exact h1 v hv
    · rw [if_neg hcj]
      exact ⟨h1, hnb_all, h3, h4⟩
  · have heq : localMergingVisit net resolution randomness totalNodeWeight r j s = s := by
      unfold localMergingVisit
      rw [if_neg hguard]
    rw [heq]
    exact ⟨h1, h2, h3, h4⟩

/-- `LocalMergingAlgorithm.findClustering` returns a clustering of the
network's nodes with every stored id below `nClusters`, for every network
whose neighbour ids are in range. -/
theorem findClustering_valid (net : Network)
    (hnbr : ∀ i < net.nNodes, ∀ k ∈ net.row i, net.neighbors k < net.nNodes)
    (resolution randomness : ℚ) (stream : ℕ → ℕ) (dstream : ℕ → ℚ) :
    ValidClustering
      (LocalMergingAlgorithm.findClustering net resolution randomness stream dstream)
    ∧ (LocalMergingAlgorithm.findClustering net resolution randomness stream dstream).nNodes
        = net.nNodes := by
  by_cases hone : net.nNodes = 1
  · have hres : LocalMergingAlgorithm.findClustering net resolution randomness stream dstream
        = Clustering.initSingleton net.nNodes := by
      unfold LocalMergingAlgorithm.findClustering
      rw [if_pos hone]
    rw [hres]
    exact ⟨valid_initSingleton _, rfl⟩
  by_cases hzero : net.nNodes = 0
  · have hres : LocalMergingAlgorithm.findClustering net resolution randomness stream dstream
        = Clustering.initSingleton net.nNodes := by
      unfold LocalMergingAlgorithm.findClustering
      rw [if_neg hone, hzero]
      rfl
    rw [hres]
    exact ⟨valid_initSingleton _, rfl⟩
  have hpos : 0 < net.nNodes := Nat.pos_of_ne_zero hzero
  have hfold : ∀ (l : List ℕ) (s : LMState),
      (∀ i ∈ l, generateRandomPermutation net.nNodes stream i < net.nNodes) →
      (∀ v < net.nNodes, s.clustering.clusters v < net.nNodes) →
      (∀ idx, s.neighboringClusters idx < net.nNodes) →
      s.clustering.nClusters = net.nNodes →
      s.clustering.nNodes = net.nNodes →
      (∀ v < net.nNodes,
        ((l.foldl (fun s i => localMergingVisit net resolution randomness
          net.getTotalNodeWeight (dstream i)
          (generateRandomPermutation net.nNodes stream i) s) s)).clustering.clusters v
          < net.nNodes)
      ∧ ((l.foldl (fun s i => localMergingVisit net resolution randomness
          net.getTotalNodeWeight (dstream i)
          (generateRandomPermutation net.nNodes stream i) s) s)).clustering.nClusters
          = net.nNodes
      ∧ ((l.foldl (fun s i => localMergingVisit net resolution randomness
          net.getTotalNodeWeight (dstream i)
          (generateRandomPermutation net.nNodes stream i) s) s)).clustering.nNodes
          = net.nNodes := by
    intro l
    induction l with
    | nil => intro s _ hA hB hC hD; exact ⟨hA, hC, hD⟩
    | cons i t ih =>
      intro s hl hA hB hC hD
      simp only [List.foldl_cons]
      have hji : generateRandomPermutation net.nNodes stream i < net.nNodes :=
        hl i (List.mem_cons_self i t)
      obtain ⟨hA', hB', hC', hD'⟩ := localMergingVisit_inv net resolution randomness
        net.getTotalNodeWeight (dstream i) (generateRandomPermutation net.nNodes stream i)
        hji (hnbr _ hji) s hA hB hC hD
      exact ih _ (fun a ha => hl a (List.mem_cons_of_mem i ha)) hA' hB' hC' hD'
  set sF := (List.range net.nNodes).foldl
    (fun s i => localMergingVisit net resolution randomness net.getTotalNodeWeight
      (dstream i) (generateRandomPermutation net.nNodes stream i) s)
    { clustering := Clustering.initSingleton net.nNodes
      clusterWeights := net.nodeWeights
      nonSingletonClusters := fun _ => false
      externalEdgeWeightPerCluster := fun i => net.nodeTotalEdgeWeight i
      edgeWeightPerCluster := fun _ => 0
      neighboringClusters := fun _ => 0
      cumTransformed := fun _ => 0
      update := false } with hsFdef
  obtain ⟨ha, hb, hc⟩ := hfold (List.range net.nNodes)
    { clustering := Clustering.initSingleton net.nNodes
      clusterWeights := net.nodeWeights
      nonSingletonClusters := fun _ => false
      externalEdgeWeightPerCluster := fun i => net.nodeTotalEdgeWeight i
      edgeWeightPerCluster := fun _ => 0
      neighboringClusters := fun _ => 0
      cumTransformed := fun _ => 0
      update := false }
    (fun i hi => generateRandomPermutation_lt net.nNodes stream hpos i (List.mem_range.mp hi))
    (fun v hv => hv) (fun idx => hpos) rfl rfl
  rw [← hsFdef] at ha hb hc
  have hvalid : ValidClustering sF.clustering := by
    intro v hv
    rw [hc] at hv
    rw [hb]
    exact ha v hv
  have hres : LocalMergingAlgorithm.findClustering net resolution randomness stream dstream
      = if sF.update then sF.clustering.removeEmptyClusters else sF.clustering := by
    rw [hsFdef]
    unfold LocalMergingAlgorithm.findClustering
    rw [if_neg hone]
  rw [hres]
  refine ⟨valid_finish _ _ hvalid, ?_⟩
  by_cases hu : sF.update = true
  · rw [if_pos hu]
    exact hc
  · rw [if_neg hu]
    exact hc

/-- C3: the Leiden refinement never merges nodes of different non-refined
clusters.  The refinement is built cluster by cluster from the per-cluster
subnetwork clusterings found by the local merging algorithm, giving
subnetwork `i` the id window starting at the running total of earlier
subnetworks' cluster counts; the windows of different clusters are disjoint,
so two nodes with the same refined id lie in the same non-refined cluster.
The subnetworks are abstracted by the two facts `createSubnetwork`
guarantees: subnetwork `i` has as many nodes as cluster `i`, and its
neighbour ids are local node indices. -/
theorem leiden_refinement_respects_clusters (c : Clustering)
    (hval : ValidClustering c) (subnet : ℕ → Network)
    (hsubn : ∀ i < c.nClusters, (subnet i).nNodes = (c.nodesOfCluster i).length)
    (hnbr : ∀ i < c.nClusters, ∀ v < (subnet i).nNodes, ∀ k ∈ (subnet i).row v,
        (subnet i).neighbors k < (subnet i).nNodes)
    (resolution randomness : ℚ) (stream : ℕ → ℕ → ℕ) (dstream : ℕ → ℕ → ℚ)
    (a b : ℕ) (ha : a < c.nNodes) (hb : b < c.nNodes)
    (heq : (buildRefinement c (fun i => LocalMergingAlgorithm.findClustering (subnet i)
        resolution randomness (stream i) (dstream i))).clusters a
      = (buildRefinement c (fun i => LocalMergingAlgorithm.findClustering (subnet i)
          resolution randomness (stream i) (dstream i))).clusters b) :
    c.clusters a = c.clusters b := by
  set sub := fun i => LocalMergingAlgorithm.findClustering (subnet i) resolution randomness
    (stream i) (dstream i) with hsubdef
  have hsubval : ∀ i < c.nClusters, ValidClustering (sub i) := fun i hi =>
    (findClustering_valid (subnet i) (hnbr i hi) resolution randomness
      (stream i) (dstream i)).1
  have hsubnn : ∀ i < c.nClusters, (sub i).nNodes = (c.nodesOfCluster i).length := by
    intro i hi
    have h' : (sub i).nNodes = (subnet i).nNodes :=
      (findClustering_valid (subnet i) (hnbr i hi) resolution randomness
        (stream i) (dstream i)).2
    rw [h']
    exact hsubn i hi
  obtain ⟨-, hW⟩ := buildRefinement_window c sub c.nClusters hsubnn hsubval
    c.nClusters le_rfl
  have hwa := hW a ha (hval a ha)
  have hwb := hW b hb (hval b hb)
  rw [buildRefinement_eq c sub] at heq
  by_contra hne
  have hmono : ∀ x y : ℕ, x < y →
      refinementOffset sub x + (sub x).nClusters ≤ refinementOffset sub y := by
    intro x y hxy
    have h1 : refinementOffset sub (x + 1) ≤ refinementOffset sub y := by
      unfold refinementOffset
      exact Finset.sum_le_sum_of_subset (Finset.range_subset.mpr hxy)
    have h2 : refinementOffset sub (x + 1)
        = refinementOffset sub x + (sub x).nClusters := by
      unfold refinementOffset
      exact Finset.sum_range_succ _ _
    omega
  rcases Nat.lt_trichotomy (c.clusters a) (c.clusters b) with hlt | heq2 | hlt
  · have := hmono (c.clusters a) (c.clusters b) hlt
    omega
  · exact hne heq2
  · have := hmono (c.clusters b) (c.clusters a) hlt
    omega

/-- A one-node network with a single unit-weight node and no edges, the
shape `createSubnetwork` gives a singleton cluster. -/
def oneNodeNet : Network :=
  { nNodes := 1
    nEdges := 0
    nodeWeights := fun _ => 1
    firstNeighborIndices := fun _ => 0
    neighbors := fun _ => 0
    edgeWeights := fun _ => 0
    totalEdgeWeightSelfLinks := 0 }

theorem leiden_refinement_respects_clusters_witness :
    (Clustering.initSingleton 2).clusters 0 = (Clustering.initSingleton 2).clusters 0 :=
  leiden_refinement_respects_clusters (Clustering.initSingleton 2)
    (valid_initSingleton 2) (fun _ => oneNodeNet) (by decide) (by decide)
    1 (1 / 100) (fun _ _ => 0) (fun _ _ => 0) 0 0 (by decide) (by decide) rfl

/-- Layout, following layout.ts: two coordinate arrays indexed by node.
Coordinates are real numbers: the claims about `standardize` are stated for
exact real arithmetic. -/
structure Layout where
  nNodes : ℕ
  x : ℕ → ℝ
  y : ℕ → ℝ

/-- `calcAverage` (utils/arrays.ts) on the first `n` entries. -/
noncomputable def calcAverage (n : ℕ) (v : ℕ → ℝ) : ℝ :=
  (∑ i ∈ Finset.range n, v i) / n

/-- The ascending sort of the first `n` entries, as produced by
`values.slice().sort((a, b) => a - b)` in `calcMedian` (utils/arrays.ts). -/
noncomputable def sortedVals (n : ℕ) (v : ℕ → ℝ) : List ℝ :=
  ((List.range n).map v).mergeSort (fun a b => decide (a ≤ b))

/-- `calcMedian` (utils/arrays.ts): the middle sorted value for an odd count,
the mean of the two middle sorted values for an even count. -/
noncomputable def calcMedian (n : ℕ) (v : ℕ → ℝ) : ℝ :=
  if n % 2 = 1 then (sortedVals n v).getD ((n - 1) / 2) 0
  else ((sortedVals n v).getD (n / 2 - 1) 0 + (sortedVals n v).getD (n / 2) 0) / 2

/-- `getAverageDistance` (layout.ts): the mean Euclidean distance over the
`n * (n - 1) / 2` unordered node pairs. -/
noncomputable def averageDistance (n : ℕ) (x y : ℕ → ℝ) : ℝ :=
  (∑ i ∈ Finset.range n, ∑ j ∈ Finset.range i,
      Real.sqrt ((x i - x j) * (x i - x j) + (y i - y j) * (y i - y j)))
    / ((n : ℝ) * ((n : ℝ) - 1) / 2)

/-- The centered first coordinates of `standardize` (layout.ts lines
233-239): each coordinate minus the average. -/
noncomputable def Layout.xc (lay : Layout) : ℕ → ℝ :=
  fun i => lay.x i - calcAverage lay.nNodes lay.x

/-- The centered second coordinates of `standardize`. -/
noncomputable def Layout.yc (lay : Layout) : ℕ → ℝ :=
  fun i => lay.y i - calcAverage lay.nNodes lay.y

/-- `variance1` of `standardize` (layout.ts lines 241-251). -/
noncomputable def Layout.variance1 (lay : Layout) : ℝ :=
  (∑ i ∈ Finset.range lay.nNodes, lay.xc i * lay.xc i) / lay.nNodes

/-- `variance2` of `standardize`. -/
noncomputable def Layout.variance2 (lay : Layout) : ℝ :=
  (∑ i ∈ Finset.range lay.nNodes, lay.yc i * lay.yc i) / lay.nNodes

/-- `covariance` of `standardize`. -/
noncomputable def Layout.covariance (lay : Layout) : ℝ :=
  (∑ i ∈ Finset.range lay.nNodes, lay.xc i * lay.yc i) / lay.nNodes

/-- `discriminant` of `standardize` (layout.ts line 252). -/
noncomputable def Layout.discriminant (lay : Layout) : ℝ :=
  lay.variance1 * lay.variance1 + lay.variance2 * lay.variance2
    - 2 * lay.variance1 * lay.variance2 + 4 * lay.covariance * lay.covariance

/-- `eigenvalue1` of `standardize` (layout.ts line 253). -/
noncomputable def Layout.eigenvalue1 (lay : Layout) : ℝ :=
  (lay.variance1 + lay.variance2 - Real.sqrt lay.discriminant) / 2

/-- `eigenvalue2` of `standardize` (layout.ts line 254). -/
noncomputable def Layout.eigenvalue2 (lay : Layout) : ℝ :=
  (lay.variance1 + lay.variance2 + Real.sqrt lay.discriminant) / 2

/-- The length of the first (unnormalised) eigenvector of `standardize`
(layout.ts line 257). -/
noncomputable def Layout.ev1len (lay : Layout) : ℝ :=
  Real.sqrt ((lay.variance1 + lay.covariance - lay.eigenvalue1)
      * (lay.variance1 + lay.covariance - lay.eigenvalue1)
    + (lay.variance2 + lay.covariance - lay.eigenvalue1)
      * (lay.variance2 + lay.covariance - lay.eigenvalue1))

/-- `normalizedEigenvector11` of `standardize`. -/
noncomputable def Layout.n11 (lay : Layout) : ℝ :=
  (lay.variance1 + lay.covariance - lay.eigenvalue1) / lay.ev1len

/-- `normalizedEigenvector12` of `standardize`. -/
noncomputable def Layout.n12 (lay : Layout) : ℝ :=
  (lay.variance2 + lay.covariance - lay.eigenvalue1) / lay.ev1len

/-- The length of the second (unnormalised) eigenvector of `standardize`
(layout.ts line 262). -/
noncomputable def Layout.ev2len (lay : Layout) : ℝ :=
  Real.sqrt ((lay.variance1 + lay.covariance - lay.eigenvalue2)
      * (lay.variance1 + lay.covariance - lay.eigenvalue2)
    + (lay.variance2 + lay.covariance - lay.eigenvalue2)
      * (lay.variance2 + lay.covariance - lay.eigenvalue2))

/-- `normalizedEigenvector21` of `standardize`. -/
noncomputable def Layout.n21 (lay : Layout) : ℝ :=
  (lay.variance1 + lay.covariance - lay.eigenvalue2) / lay.ev2len

/-- `normalizedEigenvector22` of `standardize`. -/
noncomputable def Layout.n22 (lay : Layout) : ℝ :=
  (lay.variance2 + lay.covariance - lay.eigenvalue2) / lay.ev2len

/-- The rotated first coordinates of `standardize` (layout.ts lines
265-270). -/
noncomputable def Layout.xr (lay : Layout) : ℕ → ℝ :=
  fun i => lay.n11 * lay.xc i + lay.n12 * lay.yc i

/-- The rotated second coordinates of `standardize`. -/
noncomputable def Layout.yr (lay : Layout) : ℕ → ℝ :=
  fun i => lay.n21 * lay.xc i + lay.n22 * lay.yc i

/-- The first coordinates after the flip step of `standardize` (layout.ts
lines 272-276): negated when their median is positive. -/
noncomputable def Layout.xf (lay : Layout) : ℕ → ℝ :=
  if 0 < calcMedian lay.nNodes lay.xr then fun i => -lay.xr i else lay.xr

/-- The second coordinates after the flip step of `standardize`. -/
noncomputable def Layout.yf (lay : Layout) : ℕ → ℝ :=
  if 0 < calcMedian lay.nNodes lay.yr then fun i => -lay.yr i else lay.yr

/-- `Layout.standardize` (layout.ts lines 233-285): translate to the
centroid, rotate along the principal eigenvector, flip each dimension with a
positive median and, when requested, divide all coordinates by the average
node distance. -/
noncomputable def Layout.standardize (lay : Layout) (standardizeDistances : Bool) :
    Layout :=
  if standardizeDistances then
    { nNodes := lay.nNodes
      x := fun i => lay.xf i / averageDistance lay.nNodes lay.xf lay.yf
      y := fun i => lay.yf i / averageDistance lay.nNodes lay.xf lay.yf }
  else
    { nNodes := lay.nNodes, x := lay.xf, y := lay.yf }

theorem sortedVals_sorted (n : ℕ) (v : ℕ → ℝ) :
    (sortedVals n v).Sorted (· ≤ ·) := by
  have h := @List.sorted_mergeSort ℝ (fun a b => decide (a ≤ b))
    (fun a b c hab hbc => by
      simp only [decide_eq_true_eq] at hab hbc ⊢
      exact le_trans hab hbc)
    (fun a b => by
      rcases le_total a b with h | h <;> simp [h])
    ((List.range n).map v)
  refine h.imp ?_
  intro a b hab
  exact of_decide_eq_true hab

theorem sortedVals_perm (n : ℕ) (v : ℕ → ℝ) :
    List.Perm (sortedVals n v) ((List.range n).map v) :=
  List.mergeSort_perm _ _

theorem sortedVals_length (n : ℕ) (v : ℕ → ℝ) : (sortedVals n v).length = n := by
  rw [sortedVals, List.length_mergeSort, List.length_map, List.length_range]

/-- A sorted list that is a permutation of the values is the sorted value
list: sortedness with respect to `≤` determines the list. -/
theorem sortedVals_unique (n : ℕ) (v : ℕ → ℝ) (L : List ℝ)
    (hperm : List.Perm L ((List.range n).map v)) (hsort : L.Sorted (· ≤ ·)) :
    sortedVals n v = L :=
  List.eq_of_perm_of_sorted ((sortedVals_perm n v).trans hperm.symm)
    (sortedVals_sorted n v) hsort

/-- Negating the values reverses the sorted list and negates its entries. -/
theorem sortedVals_neg (n : ℕ) (v : ℕ → ℝ) :
    sortedVals n (fun i => -v i) = ((sortedVals n v).reverse).map (fun a => -a) := by
  refine sortedVals_unique n (fun i => -v i) _ ?_ ?_
  · have p1 : List.Perm ((sortedVals n v).reverse.map (fun a => -a))
        ((sortedVals n v).map (fun a => -a)) := ((sortedVals n v).reverse_perm).map _
    have p2 : List.Perm ((sortedVals n v).map (fun a => -a))
        (((List.range n).map v).map (fun a => -a)) := (sortedVals_perm n v).map _
    have p3 : ((List.range n).map v).map (fun a => -a)
        = (List.range n).map (fun i => -v i) := by
      rw [List.map_map]
      rfl
    exact p1.trans (p3 ▸ p2)
  · rw [List.Sorted, List.pairwise_map, List.pairwise_reverse]
    refine (sortedVals_sorted n v).imp ?_
    intro a b hab
    simpa using hab

/-- Dividing the values by a positive constant divides the sorted list
entrywise. -/
theorem sortedVals_div (n : ℕ) (v : ℕ → ℝ) (d : ℝ) (hd : 0 < d) :
    sortedVals n (fun i => v i / d) = (sortedVals n v).map (fun a => a / d) := by
  refine sortedVals_unique n (fun i => v i / d) _ ?_ ?_
  · have p2 : List.Perm ((sortedVals n v).map (fun a => a / d))
        (((List.range n).map v).map (fun a => a / d)) := (sortedVals_perm n v).map _
    have p3 : ((List.range n).map v).map (fun a => a / d)
        = (List.range n).map (fun i => v i / d) := by
      rw [List.map_map]
      rfl
    exact p3 ▸ p2
  · rw [List.Sorted, List.pairwise_map]
    refine (sortedVals_sorted n v).imp ?_
    intro a b hab
    exact div_le_div_of_nonneg_right hab (le_of_lt hd)

/-- `calcMedian` of the negated values is the negated median. -/
theorem calcMedian_neg (n : ℕ) (v : ℕ → ℝ) :
    calcMedian n (fun i => -v i) = -calcMedian n v := by
  by_cases hn : n = 0
  · subst hn
    unfold calcMedian sortedVals
    norm_num
  have hlen : (sortedVals n v).length = n := sortedVals_length n v
  have hget : ∀ k, k < n →
      (sortedVals n (fun i => -v i)).getD k 0 = -((sortedVals n v).getD (n - 1 - k) 0) := by
    intro k hk
    have hk1 : n - 1 - k < n := by omega
    rw [sortedVals_neg, List.getD_eq_getElem _ 0 (by
        rw [List.length_map, List.length_reverse, hlen]; exact hk),
      List.getD_eq_getElem _ 0 (by rw [hlen]; exact hk1)]
    rw [List.getElem_map, List.getElem_reverse]
    congr 2
    rw [hlen]
  unfold calcMedian
  by_cases hodd : n % 2 = 1
  · rw [if_pos hodd, if_pos hodd, hget _ (by omega)]
    congr 2
    omega
  · rw [if_neg hodd, if_neg hodd, hget _ (by omega), hget _ (by omega)]
    have h1 : n - 1 - (n / 2 - 1) = n / 2 := by omega
    have h2 : n - 1 - n / 2 = n / 2 - 1 := by omega
    rw [h1, h2]
    ring

/-- `calcMedian` of the values divided by a positive constant is the median
divided by that constant. -/
theorem calcMedian_div (n : ℕ) (v : ℕ → ℝ) (d : ℝ) (hd : 0 < d) :
    calcMedian n (fun i => v i / d) = calcMedian n v / d := by
  by_cases hn : n = 0
  · subst hn
    unfold calcMedian sortedVals
    norm_num
  have hlen : (sortedVals n v).length = n := sortedVals_length n v
  have hget : ∀ k, k < n →
      (sortedVals n (fun i => v i / d)).getD k 0 = ((sortedVals n v).getD k 0) / d := by
    intro k hk
    rw [sortedVals_div n v d hd, List.getD_eq_getElem _ 0 (by
        rw [List.length_map, hlen]; exact hk),
      List.getD_eq_getElem _ 0 (by rw [hlen]; exact hk)]
    rw [List.getElem_map]
  unfold calcMedian
  by_cases hodd : n % 2 = 1
  · rw [if_pos hodd, if_pos hodd, hget _ (by omega)]
  · rw [if_neg hodd, if_neg hodd, hget _ (by omega), hget _ (by omega)]
    ring

theorem getD_zero_of_all_zero (l : List ℝ) (h : ∀ a ∈ l, a = 0) (k : ℕ) :
    l.getD k 0 = 0 := by
  by_cases hk : k < l.length
  · rw [List.getD_eq_getElem l 0 hk]
    exact h _ (List.getElem_mem hk)
  · rw [List.getD_eq_default l 0 (by omega)]

theorem calcMedian_zero_of (n : ℕ) (v : ℕ → ℝ) (h : ∀ i < n, v i = 0) :
    calcMedian n v = 0 := by
  have hmem : ∀ a ∈ sortedVals n v, a = 0 := by
    intro a ha
    have : a ∈ (List.range n).map v := (sortedVals_perm n v).mem_iff.mp ha
    obtain ⟨i, hi, rfl⟩ := List.mem_map.mp this
    exact h i (List.mem_range.mp hi)
  unfold calcMedian
  by_cases hodd : n % 2 = 1
  · rw [if_pos hodd, getD_zero_of_all_zero _ hmem]
  · rw [if_neg hodd, getD_zero_of_all_zero _ hmem, getD_zero_of_all_zero _ hmem]
    norm_num

/-- A layout with two distinct nodes placed symmetrically on the
anti-diagonal: the centered coordinates have equal variances and negative
covariance, so the first eigenvector of `standardize` degenerates to the
zero vector. -/
def degenerateLayout : Layout :=
  { nNodes := 2
    x := fun i => if i = 0 then 1 else -1
    y := fun i => if i = 0 then -1 else 1 }

theorem degenerate_avg1 : calcAverage degenerateLayout.nNodes degenerateLayout.x = 0 := by
  unfold calcAverage degenerateLayout
  norm_num [Finset.sum_range_succ]

theorem degenerate_avg2 : calcAverage degenerateLayout.nNodes degenerateLayout.y = 0 := by
  unfold calcAverage degenerateLayout
  norm_num [Finset.sum_range_succ]

theorem degenerate_v1 : degenerateLayout.variance1 = 1 := by
  unfold Layout.variance1 Layout.xc
  rw [degenerate_avg1]
  unfold degenerateLayout
  norm_num [Finset.sum_range_succ]

theorem degenerate_v2 : degenerateLayout.variance2 = 1 := by
  unfold Layout.variance2 Layout.yc
  rw [degenerate_avg2]
  unfold degenerateLayout
  norm_num [Finset.sum_range_succ]

theorem degenerate_cov : degenerateLayout.covariance = -1 := by
  unfold Layout.covariance Layout.xc Layout.yc
  rw [degenerate_avg1, degenerate_avg2]
  unfold degenerateLayout
  norm_num [Finset.sum_range_succ]

theorem degenerate_disc : degenerateLayout.discriminant = 4 := by
  unfold Layout.discriminant
  rw [degenerate_v1, degenerate_v2, degenerate_cov]
  norm_num

theorem degenerate_ev1 : degenerateLayout.eigenvalue1 = 0 := by
  unfold Layout.eigenvalue1
  rw [degenerate_v1, degenerate_v2, degenerate_disc,
    show (4 : ℝ) = 2 ^ 2 by norm_num, Real.sqrt_sq (by norm_num : (0 : ℝ) ≤ 2)]
  norm_num

theorem degenerate_n11 : degenerateLayout.n11 = 0 := by
  unfold Layout.n11 Layout.ev1len
  rw [degenerate_v1, degenerate_v2, degenerate_cov, degenerate_ev1]
  norm_num

theorem degenerate_n12 : degenerateLayout.n12 = 0 := by
  unfold Layout.n12 Layout.ev1len
  rw [degenerate_v1, degenerate_v2, degenerate_cov, degenerate_ev1]
  norm_num

theorem degenerate_xr : ∀ i, degenerateLayout.xr i = 0 := by
  intro i
  unfold Layout.xr
  rw [degenerate_n11, degenerate_n12]
  ring

theorem degenerate_n21_eq_n22 : degenerateLayout.n21 = degenerateLayout.n22 := by
  unfold Layout.n21 Layout.n22
  rw [degenerate_v1, degenerate_v2]

theorem degenerate_yr : ∀ i < degenerateLayout.nNodes, degenerateLayout.yr i = 0 := by
  intro i hi
  have h0 : degenerateLayout.xc i + degenerateLayout.yc i = 0 := by
    unfold Layout.xc Layout.yc
    rw [degenerate_avg1, degenerate_avg2]
    have hi2 : i < 2 := hi
    interval_cases i <;> norm_num [degenerateLayout]
  unfold Layout.yr
  rw [degenerate_n21_eq_n22]
  linear_combination degenerateLayout.n22 * h0

theorem degenerate_xf : degenerateLayout.xf = degenerateLayout.xr := by
  unfold Layout.xf
  rw [if_neg]
  rw [calcMedian_zero_of _ _ (fun i _ => degenerate_xr i)]
  norm_num

theorem degenerate_yf : degenerateLayout.yf = degenerateLayout.yr := by
  unfold Layout.yf
  rw [if_neg]
  rw [calcMedian_zero_of _ _ degenerate_yr]
  norm_num

/-- C8 counterexample: the two-node layout `(1, -1), (-1, 1)` has distinct
(non-coincident) nodes, yet after `standardize true` every coordinate is `0`
(the first eigenvector degenerates to the zero vector and the average
distance collapses to `0`), so the mean pairwise distance of the result is
`0`, not `1`. -/
theorem standardize_mean_distance_ne_one :
    degenerateLayout.x 0 ≠ degenerateLayout.x 1
    ∧ averageDistance (Layout.standardize degenerateLayout true).nNodes
        (Layout.standardize degenerateLayout true).x
        (Layout.standardize degenerateLayout true).y ≠ 1 := by
  constructor
  · unfold degenerateLayout
    norm_num
  · have hx : ∀ i, (Layout.standardize degenerateLayout true).x i = 0 := by
      intro i
      show degenerateLayout.xf i / averageDistance degenerateLayout.nNodes
        degenerateLayout.xf degenerateLayout.yf = 0
      rw [degenerate_xf, degenerate_xr i, zero_div]
    have hy : ∀ i < (2 : ℕ), (Layout.standardize degenerateLayout true).y i = 0 := by
      intro i hi
      show degenerateLayout.yf i / averageDistance degenerateLayout.nNodes
        degenerateLayout.xf degenerateLayout.yf = 0
      rw [degenerate_yf, degenerate_yr i hi, zero_div]
    have hx0 := hx 0
    have hx1 := hx 1
    have hy0 := hy 0 (by norm_num)
    have hy1 := hy 1 (by norm_num)
    have havg : averageDistance (Layout.standardize degenerateLayout true).nNodes
        (Layout.standardize degenerateLayout true).x
        (Layout.standardize degenerateLayout true).y = 0 := by
      show averageDistance 2 (Layout.standardize degenerateLayout true).x
        (Layout.standardize degenerateLayout true).y = 0
      unfold averageDistance
      simp only [Finset.sum_range_succ, Finset.sum_range_zero, hx0, hx1, hy0, hy1]
      norm_num
    rw [havg]
    norm_num

theorem sum_sq_pos_of_ne (a b t : ℝ) (h : a - b = t) (ht : t ≠ 0) :
    0 < a * a + b * b := by
  rcases eq_or_ne a 0 with ha | ha
  · have hb : b ≠ 0 := by
      intro hb
      rw [ha, hb] at h
      exact ht (by linarith)
    nlinarith [mul_self_nonneg a, mul_self_pos.mpr hb]
  · nlinarith [mul_self_nonneg b, mul_self_pos.mpr ha]

theorem standardize_disc_nonneg (lay : Layout) : 0 ≤ lay.discriminant := by
  have hD : lay.discriminant = (lay.variance1 - lay.variance2) ^ 2
      + (2 * lay.covariance) ^ 2 := by
    unfold Layout.discriminant
    ring
  rw [hD]
  positivity

theorem standardize_sqrtD_sq (lay : Layout) :
    Real.sqrt lay.discriminant * Real.sqrt lay.discriminant
      = lay.variance1 * lay.variance1 + lay.variance2 * lay.variance2
        - 2 * lay.variance1 * lay.variance2
        + 4 * lay.covariance * lay.covariance :=
  Real.mul_self_sqrt (standardize_disc_nonneg lay)

theorem standardize_ev1_sq_pos (lay : Layout) (hv : lay.variance1 ≠ lay.variance2) :
    0 < (lay.variance1 + lay.covariance - lay.eigenvalue1)
        * (lay.variance1 + lay.covariance - lay.eigenvalue1)
      + (lay.variance2 + lay.covariance - lay.eigenvalue1)
        * (lay.variance2 + lay.covariance - lay.eigenvalue1) :=
  sum_sq_pos_of_ne _ _ (lay.variance1 - lay.variance2) (by ring) (sub_ne_zero.mpr hv)

theorem standardize_ev2_sq_pos (lay : Layout) (hv : lay.variance1 ≠ lay.variance2) :
    0 < (lay.variance1 + lay.covariance - lay.eigenvalue2)
        * (lay.variance1 + lay.covariance - lay.eigenvalue2)
      + (lay.variance2 + lay.covariance - lay.eigenvalue2)
        * (lay.variance2 + lay.covariance - lay.eigenvalue2) :=
  sum_sq_pos_of_ne _ _ (lay.variance1 - lay.variance2) (by ring) (sub_ne_zero.mpr hv)

theorem standardize_ev1len_sq (lay : Layout) (hv : lay.variance1 ≠ lay.variance2) :
    lay.ev1len * lay.ev1len
      = (lay.variance1 + lay.covariance - lay.eigenvalue1)
          * (lay.variance1 + lay.covariance - lay.eigenvalue1)
        + (lay.variance2 + lay.covariance - lay.eigenvalue1)
          * (lay.variance2 + lay.covariance - lay.eigenvalue1) :=
  Real.mul_self_sqrt (le_of_lt (standardize_ev1_sq_pos lay hv))

theorem standardize_ev2len_sq (lay : Layout) (hv : lay.variance1 ≠ lay.variance2) :
    lay.ev2len * lay.ev2len
      = (lay.variance1 + lay.covariance - lay.eigenvalue2)
          * (lay.variance1 + lay.covariance - lay.eigenvalue2)
        + (lay.variance2 + lay.covariance - lay.eigenvalue2)
          * (lay.variance2 + lay.covariance - lay.eigenvalue2) :=
  Real.mul_self_sqrt (le_of_lt (standardize_ev2_sq_pos lay hv))

theorem standardize_row1_unit (lay : Layout) (hv : lay.variance1 ≠ lay.variance2) :
    lay.n11 * lay.n11 + lay.n12 * lay.n12 = 1 := by
  unfold Layout.n11 Layout.n12
  rw [div_mul_div_comm, div_mul_div_comm, div_add_div_same,
    standardize_ev1len_sq lay hv]
  exact div_self (ne_of_gt (standardize_ev1_sq_pos lay hv))

theorem standardize_row2_unit (lay : Layout) (hv : lay.variance1 ≠ lay.variance2) :
    lay.n21 * lay.n21 + lay.n22 * lay.n22 = 1 := by
  unfold Layout.n21 Layout.n22
  rw [div_mul_div_comm, div_mul_div_comm, div_add_div_same,
    standardize_ev2len_sq lay hv]
  exact div_self (ne_of_gt (standardize_ev2_sq_pos lay hv))

theorem standardize_rows_orth (lay : Layout) :
    lay.n11 * lay.n21 + lay.n12 * lay.n22 = 0 := by
  have horth0 : (lay.variance1 + lay.covariance - lay.eigenvalue1)
      * (lay.variance1 + lay.covariance - lay.eigenvalue2)
      + (lay.variance2 + lay.covariance - lay.eigenvalue1)
      * (lay.variance2 + lay.covariance - lay.eigenvalue2) = 0 := by
    have hdd := standardize_sqrtD_sq lay
    unfold Layout.eigenvalue1 Layout.eigenvalue2
    linear_combination (-(1 : ℝ) / 2) * hdd
  unfold Layout.n11 Layout.n12 Layout.n21 Layout.n22
  rw [div_mul_div_comm, div_mul_div_comm, div_add_div_same, horth0, zero_div]

theorem standardize_qform1 (lay : Layout) :
    (lay.variance1 + lay.covariance - lay.eigenvalue1)
      * (lay.variance1 + lay.covariance - lay.eigenvalue1) * lay.variance1
    + 2 * ((lay.variance1 + lay.covariance - lay.eigenvalue1)
      * (lay.variance2 + lay.covariance - lay.eigenvalue1)) * lay.covariance
    + (lay.variance2 + lay.covariance - lay.eigenvalue1)
      * (lay.variance2 + lay.covariance - lay.eigenvalue1) * lay.variance2
    = lay.eigenvalue2
      * ((lay.variance1 + lay.covariance - lay.eigenvalue1)
          * (lay.variance1 + lay.covariance - lay.eigenvalue1)
        + (lay.variance2 + lay.covariance - lay.eigenvalue1)
          * (lay.variance2 + lay.covariance - lay.eigenvalue1)) := by
  have hdd := standardize_sqrtD_sq lay
  unfold Layout.eigenvalue1 Layout.eigenvalue2
  linear_combination
    (-(2 * lay.covariance + Real.sqrt lay.discriminant) / 4) * hdd

theorem standardize_qform2 (lay : Layout) :
    (lay.variance1 + lay.covariance - lay.eigenvalue2)
      * (lay.variance1 + lay.covariance - lay.eigenvalue2) * lay.variance1
    + 2 * ((lay.variance1 + lay.covariance - lay.eigenvalue2)
      * (lay.variance2 + lay.covariance - lay.eigenvalue2)) * lay.covariance
    + (lay.variance2 + lay.covariance - lay.eigenvalue2)
      * (lay.variance2 + lay.covariance - lay.eigenvalue2) * lay.variance2
    = lay.eigenvalue1
      * ((lay.variance1 + lay.covariance - lay.eigenvalue2)
          * (lay.variance1 + lay.covariance - lay.eigenvalue2)
        + (lay.variance2 + lay.covariance - lay.eigenvalue2)
          * (lay.variance2 + lay.covariance - lay.eigenvalue2)) := by
  have hdd := standardize_sqrtD_sq lay
  unfold Layout.eigenvalue1 Layout.eigenvalue2
  linear_combination
    (-(2 * lay.covariance - Real.sqrt lay.discriminant) / 4) * hdd

theorem rows_to_cols (p q r s : ℝ) (h1 : p * p + q * q = 1)
    (h2 : r * r + s * s = 1) (h3 : p * r + q * s = 0) :
    p * p + r * r = 1 ∧ q * q + s * s = 1 ∧ p * q + r * s = 0 := by
  have hd : (p * s - q * r) * (p * s - q * r) = 1 := by
    linear_combination (r * r + s * s) * h1 + h2 - (p * r + q * s) * h3
  have hs : s = (p * s - q * r) * p := by
    linear_combination (-s) * h1 + q * h3
  have hr : r = -((p * s - q * r) * q) := by
    linear_combination (-r) * h1 + p * h3
  refine ⟨?_, ?_, ?_⟩
  · linear_combination h1 + (r - (p * s - q * r) * q) * hr + q * q * hd
  · linear_combination h1 + (s + (p * s - q * r) * p) * hs + p * p * hd
  · linear_combination s * hr - (p * s - q * r) * q * hs - p * q * hd

theorem centered_sum_zero (lay : Layout) (hn : 0 < lay.nNodes) :
    (∑ i ∈ Finset.range lay.nNodes, lay.xc i) = 0
    ∧ (∑ i ∈ Finset.range lay.nNodes, lay.yc i) = 0 := by
  have hne : (lay.nNodes : ℝ) ≠ 0 := Nat.cast_ne_zero.mpr (by omega)
  constructor
  · unfold Layout.xc calcAverage
    rw [Finset.sum_sub_distrib, Finset.sum_const, Finset.card_range, nsmul_eq_mul]
    field_simp
  · unfold Layout.yc calcAverage
    rw [Finset.sum_sub_distrib, Finset.sum_const, Finset.card_range, nsmul_eq_mul]
    field_simp

theorem rotated_variance_sums (lay : Layout) (hn : 0 < lay.nNodes)
    (hv : lay.variance1 ≠ lay.variance2) :
    (∑ i ∈ Finset.range lay.nNodes, lay.xr i * lay.xr i)
      = lay.nNodes * lay.eigenvalue2
    ∧ (∑ i ∈ Finset.range lay.nNodes, lay.yr i * lay.yr i)
      = lay.nNodes * lay.eigenvalue1 := by
  have hne : (lay.nNodes : ℝ) ≠ 0 := Nat.cast_ne_zero.mpr (by omega)
  have hSxx : (∑ i ∈ Finset.range lay.nNodes, lay.xc i * lay.xc i)
      = lay.nNodes * lay.variance1 := by
    unfold Layout.variance1
    field_simp
  have hSyy : (∑ i ∈ Finset.range lay.nNodes, lay.yc i * lay.yc i)
      = lay.nNodes * lay.variance2 := by
    unfold Layout.variance2
    field_simp
  have hSxy : (∑ i ∈ Finset.range lay.nNodes, lay.xc i * lay.yc i)
      = lay.nNodes * lay.covariance := by
    unfold Layout.covariance
    field_simp
  have hL1ne : lay.ev1len * lay.ev1len ≠ 0 := by
    rw [standardize_ev1len_sq lay hv]
    exact ne_of_gt (standardize_ev1_sq_pos lay hv)
  have hL2ne : lay.ev2len * lay.ev2len ≠ 0 := by
    rw [standardize_ev2len_sq lay hv]
    exact ne_of_gt (standardize_ev2_sq_pos lay hv)
  have hkey1 : lay.n11 * lay.n11 * lay.variance1
      + 2 * (lay.n11 * lay.n12) * lay.covariance
      + lay.n12 * lay.n12 * lay.variance2 = lay.eigenvalue2 := by
    have hstep : lay.n11 * lay.n11 * lay.variance1
        + 2 * (lay.n11 * lay.n12) * lay.covariance
        + lay.n12 * lay.n12 * lay.variance2
        = ((lay.variance1 + lay.covariance - lay.eigenvalue1)
            * (lay.variance1 + lay.covariance - lay.eigenvalue1) * lay.variance1
          + 2 * ((lay.variance1 + lay.covariance - lay.eigenvalue1)
            * (lay.variance2 + lay.covariance - lay.eigenvalue1)) * lay.covariance
          + (lay.variance2 + lay.covariance - lay.eigenvalue1)
            * (lay.variance2 + lay.covariance - lay.eigenvalue1) * lay.variance2)
          / (lay.ev1len * lay.ev1len) := by
      unfold Layout.n11 Layout.n12
      ring
    rw [hstep, standardize_qform1 lay, ← standardize_ev1len_sq lay hv,
      mul_div_cancel_right₀ _ hL1ne]
  have hkey2 : lay.n21 * lay.n21 * lay.variance1
      + 2 * (lay.n21 * lay.n22) * lay.covariance
      + lay.n22 * lay.n22 * lay.variance2 = lay.eigenvalue1 := by
    have hstep : lay.n21 * lay.n21 * lay.variance1
        + 2 * (lay.n21 * lay.n22) * lay.covariance
        + lay.n22 * lay.n22 * lay.variance2
        = ((lay.variance1 + lay.covariance - lay.eigenvalue2)
            * (lay.variance1 + lay.covariance - lay.eigenvalue2) * lay.variance1
          + 2 * ((lay.variance1 + lay.covariance - lay.eigenvalue2)
            * (lay.variance2 + lay.covariance - lay.eigenvalue2)) * lay.covariance
          + (lay.variance2 + lay.covariance - lay.eigenvalue2)
            * (lay.variance2 + lay.covariance - lay.eigenvalue2) * lay.variance2)
          / (lay.ev2len * lay.ev2len) := by
      unfold Layout.n21 Layout.n22
      ring
    rw [hstep, standardize_qform2 lay, ← standardize_ev2len_sq lay hv,
      mul_div_cancel_right₀ _ hL2ne]
  constructor
  · have hexp : (∑ i ∈ Finset.range lay.nNodes, lay.xr i * lay.xr i)
        = lay.n11 * lay.n11 * (∑ i ∈ Finset.range lay.nNodes, lay.xc i * lay.xc i)
          + 2 * (lay.n11 * lay.n12)
            * (∑ i ∈ Finset.range lay.nNodes, lay.xc i * lay.yc i)
          + lay.n12 * lay.n12
            * (∑ i ∈ Finset.range lay.nNodes, lay.yc i * lay.yc i) := by
      rw [Finset.mul_sum, Finset.mul_sum, Finset.mul_sum, ← Finset.sum_add_distrib,
        ← Finset.sum_add_distrib]
      refine Finset.sum_congr rfl ?_
      intro i _
      unfold Layout.xr
      ring
    rw [hexp, hSxx, hSxy, hSyy, ← hkey1]
    ring
  · have hexp : (∑ i ∈ Finset.range lay.nNodes, lay.yr i * lay.yr i)
        = lay.n21 * lay.n21 * (∑ i ∈ Finset.range lay.nNodes, lay.xc i * lay.xc i)
          + 2 * (lay.n21 * lay.n22)
            * (∑ i ∈ Finset.range lay.nNodes, lay.xc i * lay.yc i)
          + lay.n22 * lay.n22
            * (∑ i ∈ Finset.range lay.nNodes, lay.yc i * lay.yc i) := by
      rw [Finset.mul_sum, Finset.mul_sum, Finset.mul_sum, ← Finset.sum_add_distrib,
        ← Finset.sum_add_distrib]
      refine Finset.sum_congr rfl ?_
      intro i _
      unfold Layout.yr
      ring
    rw [hexp, hSxx, hSxy, hSyy, ← hkey2]
    ring

theorem rotated_dist_eq (lay : Layout) (hv : lay.variance1 ≠ lay.variance2)
    (i j : ℕ) :
    (lay.xr i - lay.xr j) * (lay.xr i - lay.xr j)
      + (lay.yr i - lay.yr j) * (lay.yr i - lay.yr j)
    = (lay.xc i - lay.xc j) * (lay.xc i - lay.xc j)
      + (lay.yc i - lay.yc j) * (lay.yc i - lay.yc j) := by
  obtain ⟨hc1, hc2, hc3⟩ := rows_to_cols lay.n11 lay.n12 lay.n21 lay.n22
    (standardize_row1_unit lay hv) (standardize_row2_unit lay hv)
    (standardize_rows_orth lay)
  unfold Layout.xr Layout.yr
  linear_combination ((lay.xc i - lay.xc j) * (lay.xc i - lay.xc j)) * hc1
    + ((lay.yc i - lay.yc j) * (lay.yc i - lay.yc j)) * hc2
    + (2 * (lay.xc i - lay.xc j) * (lay.yc i - lay.yc j)) * hc3

theorem xf_cases (lay : Layout) :
    (0 < calcMedian lay.nNodes lay.xr ∧ lay.xf = fun i => -lay.xr i)
    ∨ (¬ 0 < calcMedian lay.nNodes lay.xr ∧ lay.xf = lay.xr) := by
  by_cases hm : 0 < calcMedian lay.nNodes lay.xr
  · exact Or.inl ⟨hm, by unfold Layout.xf; rw [if_pos hm]⟩
  · exact Or.inr ⟨hm, by unfold Layout.xf; rw [if_neg hm]⟩

theorem yf_cases (lay : Layout) :
    (0 < calcMedian lay.nNodes lay.yr ∧ lay.yf = fun i => -lay.yr i)
    ∨ (¬ 0 < calcMedian lay.nNodes lay.yr ∧ lay.yf = lay.yr) := by
  by_cases hm : 0 < calcMedian lay.nNodes lay.yr
  · exact Or.inl ⟨hm, by unfold Layout.yf; rw [if_pos hm]⟩
  · exact Or.inr ⟨hm, by unfold Layout.yf; rw [if_neg hm]⟩

theorem xf_sq_diff (lay : Layout) (i j : ℕ) :
    (lay.xf i - lay.xf j) * (lay.xf i - lay.xf j)
      = (lay.xr i - lay.xr j) * (lay.xr i - lay.xr j) := by
  rcases xf_cases lay with ⟨-, h⟩ | ⟨-, h⟩
  · rw [h]
    show (-lay.xr i - -lay.xr j) * (-lay.xr i - -lay.xr j) = _
    ring
  · rw [h]

theorem yf_sq_diff (lay : Layout) (i j : ℕ) :
    (lay.yf i - lay.yf j) * (lay.yf i - lay.yf j)
      = (lay.yr i - lay.yr j) * (lay.yr i - lay.yr j) := by
  rcases yf_cases lay with ⟨-, h⟩ | ⟨-, h⟩
  · rw [h]
    show (-lay.yr i - -lay.yr j) * (-lay.yr i - -lay.yr j) = _
    ring
  · rw [h]

/-- The rotation and the flips leave every pairwise distance, and hence the
average distance, unchanged. -/
theorem flipped_avgdist_eq (lay : Layout) (hv : lay.variance1 ≠ lay.variance2) :
    averageDistance lay.nNodes lay.xf lay.yf
      = averageDistance lay.nNodes lay.xc lay.yc := by
  unfold averageDistance
  congr 1
  refine Finset.sum_congr rfl ?_
  intro i _
  refine Finset.sum_congr rfl ?_
  intro j _
  rw [xf_sq_diff lay i j, yf_sq_diff lay i j, rotated_dist_eq lay hv i j]

theorem centered_diff (lay : Layout) (i j : ℕ) :
    lay.xc i - lay.xc j = lay.x i - lay.x j
    ∧ lay.yc i - lay.yc j = lay.y i - lay.y j := by
  constructor
  · unfold Layout.xc
    ring
  · unfold Layout.yc
    ring

/-- A layout with two distinct nodes has a positive average centered
distance. -/
theorem centered_avgdist_pos (lay : Layout) (hn : 2 ≤ lay.nNodes)
    (i0 j0 : ℕ) (hi0 : i0 < lay.nNodes) (hj0 : j0 < lay.nNodes)
    (hij : lay.x i0 ≠ lay.x j0 ∨ lay.y i0 ≠ lay.y j0) :
    0 < averageDistance lay.nNodes lay.xc lay.yc := by
  have hne : i0 ≠ j0 := by
    rintro rfl
    rcases hij with h | h <;> exact h rfl
  obtain ⟨a, b, hba, han, hbn, hsep⟩ : ∃ a b, b < a ∧ a < lay.nNodes ∧ b < lay.nNodes
      ∧ (lay.x a ≠ lay.x b ∨ lay.y a ≠ lay.y b) := by
    rcases lt_or_gt_of_ne hne with h | h
    · exact ⟨j0, i0, h, hj0, hi0, by
        rcases hij with h2 | h2
        · exact Or.inl (fun hh => h2 hh.symm)
        · exact Or.inr (fun hh => h2 hh.symm)⟩
    · exact ⟨i0, j0, h, hi0, hj0, hij⟩
  have hterm : 0 < Real.sqrt ((lay.xc a - lay.xc b) * (lay.xc a - lay.xc b)
      + (lay.yc a - lay.yc b) * (lay.yc a - lay.yc b)) := by
    refine Real.sqrt_pos.mpr ?_
    rw [(centered_diff lay a b).1, (centered_diff lay a b).2]
    rcases hsep with h | h
    · have hx0 : lay.x a - lay.x b ≠ 0 := sub_ne_zero.mpr h
      nlinarith [mul_self_pos.mpr hx0, mul_self_nonneg (lay.y a - lay.y b)]
    · have hy0 : lay.y a - lay.y b ≠ 0 := sub_ne_zero.mpr h
      nlinarith [mul_self_pos.mpr hy0, mul_self_nonneg (lay.x a - lay.x b)]
  have hnonneg : ∀ i j : ℕ, 0 ≤ Real.sqrt ((lay.xc i - lay.xc j) * (lay.xc i - lay.xc j)
      + (lay.yc i - lay.yc j) * (lay.yc i - lay.yc j)) :=
    fun i j => Real.sqrt_nonneg _
  have hsum : Real.sqrt ((lay.xc a - lay.xc b) * (lay.xc a - lay.xc b)
      + (lay.yc a - lay.yc b) * (lay.yc a - lay.yc b))
      ≤ ∑ i ∈ Finset.range lay.nNodes, ∑ j ∈ Finset.range i,
          Real.sqrt ((lay.xc i - lay.xc j) * (lay.xc i - lay.xc j)
            + (lay.yc i - lay.yc j) * (lay.yc i - lay.yc j)) := by
    have h1 : Real.sqrt ((lay.xc a - lay.xc b) * (lay.xc a - lay.xc b)
        + (lay.yc a - lay.yc b) * (lay.yc a - lay.yc b))
        ≤ ∑ j ∈ Finset.range a,
            Real.sqrt ((lay.xc a - lay.xc j) * (lay.xc a - lay.xc j)
              + (lay.yc a - lay.yc j) * (lay.yc a - lay.yc j)) :=
      Finset.single_le_sum (fun j _ => hnonneg a j) (Finset.mem_range.mpr hba)
    have h2 : (∑ j ∈ Finset.range a,
          Real.sqrt ((lay.xc a - lay.xc j) * (lay.xc a - lay.xc j)
            + (lay.yc a - lay.yc j) * (lay.yc a - lay.yc j)))
        ≤ ∑ i ∈ Finset.range lay.nNodes, ∑ j ∈ Finset.range i,
            Real.sqrt ((lay.xc i - lay.xc j) * (lay.xc i - lay.xc j)
              + (lay.yc i - lay.yc j) * (lay.yc i - lay.yc j)) :=
      Finset.single_le_sum
        (fun i _ => Finset.sum_nonneg (fun j _ => hnonneg i j))
        (Finset.mem_range.mpr han)
    linarith
  have hden : (0 : ℝ) < (lay.nNodes : ℝ) * ((lay.nNodes : ℝ) - 1) / 2 := by
    have h2 : (2 : ℝ) ≤ (lay.nNodes : ℝ) := by exact_mod_cast hn
    nlinarith
  unfold averageDistance
  exact div_pos (lt_of_lt_of_le hterm hsum) hden

/-- C8 (amended): for every layout with at least two nodes, a pair of
distinct nodes, and distinct variances of the centered coordinates (so that
the closed-form eigenvectors of `standardize` do not degenerate to the zero
vector), `standardize true` produces zero mean coordinates in both
dimensions, horizontal variance at least the vertical variance,
non-positive medians in both dimensions, and mean pairwise distance exactly
one. -/
theorem standardize_spec (lay : Layout) (hn : 2 ≤ lay.nNodes)
    (hv : lay.variance1 ≠ lay.variance2)
    (i0 j0 : ℕ) (hi0 : i0 < lay.nNodes) (hj0 : j0 < lay.nNodes)
    (hij : lay.x i0 ≠ lay.x j0 ∨ lay.y i0 ≠ lay.y j0) :
    calcAverage (Layout.standardize lay true).nNodes
      (Layout.standardize lay true).x = 0
    ∧ calcAverage (Layout.standardize lay true).nNodes
        (Layout.standardize lay true).y = 0
    ∧ (Layout.standardize lay true).variance2
        ≤ (Layout.standardize lay true).variance1
    ∧ calcMedian (Layout.standardize lay true).nNodes
        (Layout.standardize lay true).x ≤ 0
    ∧ calcMedian (Layout.standardize lay true).nNodes
        (Layout.standardize lay true).y ≤ 0
    ∧ averageDistance (Layout.standardize lay true).nNodes
        (Layout.standardize lay true).x (Layout.standardize lay true).y = 1 := by
  have hn0 : 0 < lay.nNodes := by omega
  have hnne : (lay.nNodes : ℝ) ≠ 0 := Nat.cast_ne_zero.mpr (by omega)
  set A := averageDistance lay.nNodes lay.xf lay.yf with hAdef
  have hsx : (Layout.standardize lay true).x = fun i => lay.xf i / A := rfl
  have hsy : (Layout.standardize lay true).y = fun i => lay.yf i / A := rfl
  have hsn : (Layout.standardize lay true).nNodes = lay.nNodes := rfl
  have hApos : 0 < A := by
    rw [hAdef, flipped_avgdist_eq lay hv]
    exact centered_avgdist_pos lay hn i0 j0 hi0 hj0 hij
  have hAne : A ≠ 0 := ne_of_gt hApos
  obtain ⟨hsxc, hsyc⟩ := centered_sum_zero lay hn0
  have hsum_xr : (∑ i ∈ Finset.range lay.nNodes, lay.xr i) = 0 := by
    unfold Layout.xr
    rw [Finset.sum_add_distrib, ← Finset.mul_sum, ← Finset.mul_sum, hsxc, hsyc]
    ring
  have hsum_yr : (∑ i ∈ Finset.range lay.nNodes, lay.yr i) = 0 := by
    unfold Layout.yr
    rw [Finset.sum_add_distrib, ← Finset.mul_sum, ← Finset.mul_sum, hsxc, hsyc]
    ring
  have hsum_xf : (∑ i ∈ Finset.range lay.nNodes, lay.xf i) = 0 := by
    rcases xf_cases lay with ⟨-, h⟩ | ⟨-, h⟩
    · have hcg : (∑ i ∈ Finset.range lay.nNodes, lay.xf i)
          = ∑ i ∈ Finset.range lay.nNodes, -lay.xr i :=
        Finset.sum_congr rfl (fun i _ => by rw [h])
      rw [hcg, Finset.sum_neg_distrib, hsum_xr, neg_zero]
    · have hcg : (∑ i ∈ Finset.range lay.nNodes, lay.xf i)
          = ∑ i ∈ Finset.range lay.nNodes, lay.xr i :=
        Finset.sum_congr rfl (fun i _ => by rw [h])
      rw [hcg, hsum_xr]
  have hsum_yf : (∑ i ∈ Finset.range lay.nNodes, lay.yf i) = 0 := by
    rcases yf_cases lay with ⟨-, h⟩ | ⟨-, h⟩
    · have hcg : (∑ i ∈ Finset.range lay.nNodes, lay.yf i)
          = ∑ i ∈ Finset.range lay.nNodes, -lay.yr i :=
        Finset.sum_congr rfl (fun i _ => by rw [h])
      rw [hcg, Finset.sum_neg_distrib, hsum_yr, neg_zero]
    · have hcg : (∑ i ∈ Finset.range lay.nNodes, lay.yf i)
          = ∑ i ∈ Finset.range lay.nNodes, lay.yr i :=
        Finset.sum_congr rfl (fun i _ => by rw [h])
      rw [hcg, hsum_yr]
  have hmean1 : calcAverage (Layout.standardize lay true).nNodes
      (Layout.standardize lay true).x = 0 := by
    rw [hsn, hsx]
    unfold calcAverage
    rw [← Finset.sum_div, hsum_xf, zero_div, zero_div]
  have hmean2 : calcAverage (Layout.standardize lay true).nNodes
      (Layout.standardize lay true).y = 0 := by
    rw [hsn, hsy]
    unfold calcAverage
    rw [← Finset.sum_div, hsum_yf, zero_div, zero_div]
  obtain ⟨hrx, hry⟩ := rotated_variance_sums lay hn0 hv
  have hsq_xf : ∀ i, lay.xf i * lay.xf i = lay.xr i * lay.xr i := by
    intro i
    rcases xf_cases lay with ⟨-, h⟩ | ⟨-, h⟩
    · rw [h]
      show -lay.xr i * -lay.xr i = _
      ring
    · rw [h]
  have hsq_yf : ∀ i, lay.yf i * lay.yf i = lay.yr i * lay.yr i := by
    intro i
    rcases yf_cases lay with ⟨-, h⟩ | ⟨-, h⟩
    · rw [h]
      show -lay.yr i * -lay.yr i = _
      ring
    · rw [h]
  have hstdxc : ∀ i, (Layout.standardize lay true).xc i = lay.xf i / A := by
    intro i
    unfold Layout.xc
    rw [hmean1, hsx]
    show lay.xf i / A - 0 = lay.xf i / A
    rw [sub_zero]
  have hstdyc : ∀ i, (Layout.standardize lay true).yc i = lay.yf i / A := by
    intro i
    unfold Layout.yc
    rw [hmean2, hsy]
    show lay.yf i / A - 0 = lay.yf i / A
    rw [sub_zero]
  have hv1std : (Layout.standardize lay true).variance1
      = lay.eigenvalue2 / (A * A) := by
    unfold Layout.variance1
    rw [hsn]
    have hcg : (∑ i ∈ Finset.range lay.nNodes,
        (Layout.standardize lay true).xc i * (Layout.standardize lay true).xc i)
        = (∑ i ∈ Finset.range lay.nNodes, lay.xr i * lay.xr i) / (A * A) := by
      rw [Finset.sum_div]
      refine Finset.sum_congr rfl ?_
      intro i _
      rw [hstdxc i, div_mul_div_comm, hsq_xf i]
    rw [hcg, hrx, div_div, mul_comm (A * A) ((lay.nNodes : ℝ)),
      mul_div_mul_left _ _ hnne]
  have hv2std : (Layout.standardize lay true).variance2
      = lay.eigenvalue1 / (A * A) := by
    unfold Layout.variance2
    rw [hsn]
    have hcg : (∑ i ∈ Finset.range lay.nNodes,
        (Layout.standardize lay true).yc i * (Layout.standardize lay true).yc i)
        = (∑ i ∈ Finset.range lay.nNodes, lay.yr i * lay.yr i) / (A * A) := by
      rw [Finset.sum_div]
      refine Finset.sum_congr rfl ?_
      intro i _
      rw [hstdyc i, div_mul_div_comm, hsq_yf i]
    rw [hcg, hry, div_div, mul_comm (A * A) ((lay.nNodes : ℝ)),
      mul_div_mul_left _ _ hnne]
  have hlam : lay.eigenvalue1 ≤ lay.eigenvalue2 := by
    unfold Layout.eigenvalue1 Layout.eigenvalue2
    have := Real.sqrt_nonneg lay.discriminant
    linarith
  have hvarle : (Layout.standardize lay true).variance2
      ≤ (Layout.standardize lay true).variance1 := by
    rw [hv1std, hv2std]
    exact div_le_div_of_nonneg_right hlam (by positivity)
  have hmedxf : calcMedian lay.nNodes lay.xf ≤ 0 := by
    rcases xf_cases lay with ⟨hm, h⟩ | ⟨hm, h⟩
    · rw [h, calcMedian_neg]
      linarith
    · rw [h]
      exact le_of_not_lt hm
  have hmedyf : calcMedian lay.nNodes lay.yf ≤ 0 := by
    rcases yf_cases lay with ⟨hm, h⟩ | ⟨hm, h⟩
    · rw [h, calcMedian_neg]
      linarith
    · rw [h]
      exact le_of_not_lt hm
  have hmed1 : calcMedian (Layout.standardize lay true).nNodes
      (Layout.standardize lay true).x ≤ 0 := by
    rw [hsn, hsx, calcMedian_div lay.nNodes lay.xf A hApos]
    calc calcMedian lay.nNodes lay.xf / A ≤ 0 / A :=
      div_le_div_of_nonneg_right hmedxf hApos.le
    _ = 0 := zero_div A
  have hmed2 : calcMedian (Layout.standardize lay true).nNodes
      (Layout.standardize lay true).y ≤ 0 := by
    rw [hsn, hsy, calcMedian_div lay.nNodes lay.yf A hApos]
    calc calcMedian lay.nNodes lay.yf / A ≤ 0 / A :=
      div_le_div_of_nonneg_right hmedyf hApos.le
    _ = 0 := zero_div A
  have hC : (0 : ℝ) < (lay.nNodes : ℝ) * ((lay.nNodes : ℝ) - 1) / 2 := by
    have h2 : (2 : ℝ) ≤ (lay.nNodes : ℝ) := by exact_mod_cast hn
    nlinarith
  have hAC : (∑ i ∈ Finset.range lay.nNodes, ∑ j ∈ Finset.range i,
      Real.sqrt ((lay.xf i - lay.xf j) * (lay.xf i - lay.xf j)
        + (lay.yf i - lay.yf j) * (lay.yf i - lay.yf j)))
      = A * ((lay.nNodes : ℝ) * ((lay.nNodes : ℝ) - 1) / 2) := by
    rw [hAdef]
    unfold averageDistance
    rw [div_mul_cancel₀ _ (ne_of_gt hC)]
  have hdist : averageDistance lay.nNodes (fun i => lay.xf i / A)
      (fun i => lay.yf i / A) = 1 := by
    unfold averageDistance
    have hterm : ∀ i j : ℕ,
        Real.sqrt ((lay.xf i / A - lay.xf j / A) * (lay.xf i / A - lay.xf j / A)
          + (lay.yf i / A - lay.yf j / A) * (lay.yf i / A - lay.yf j / A))
        = Real.sqrt ((lay.xf i - lay.xf j) * (lay.xf i - lay.xf j)
            + (lay.yf i - lay.yf j) * (lay.yf i - lay.yf j)) / A := by
      intro i j
      have harg : (lay.xf i / A - lay.xf j / A) * (lay.xf i / A - lay.xf j / A)
          + (lay.yf i / A - lay.yf j / A) * (lay.yf i / A - lay.yf j / A)
          = ((lay.xf i - lay.xf j) * (lay.xf i - lay.xf j)
            + (lay.yf i - lay.yf j) * (lay.yf i - lay.yf j)) / (A * A) := by
        ring
      rw [harg, Real.sqrt_div (add_nonneg (mul_self_nonneg _) (mul_self_nonneg _)) (A * A),
        Real.sqrt_mul_self hApos.le]
    have hcg : (∑ i ∈ Finset.range lay.nNodes, ∑ j ∈ Finset.range i,
        Real.sqrt ((lay.xf i / A - lay.xf j / A) * (lay.xf i / A - lay.xf j / A)
          + (lay.yf i / A - lay.yf j / A) * (lay.yf i / A - lay.yf j / A)))
        = (∑ i ∈ Finset.range lay.nNodes, ∑ j ∈ Finset.range i,
            Real.sqrt ((lay.xf i - lay.xf j) * (lay.xf i - lay.xf j)
              + (lay.yf i - lay.yf j) * (lay.yf i - lay.yf j))) / A := by
      rw [Finset.sum_div]
      refine Finset.sum_congr rfl ?_
      intro i _
      rw [Finset.sum_div]
      refine Finset.sum_congr rfl ?_
      intro j _
      exact hterm i j
    rw [hcg, hAC, mul_comm, mul_div_assoc, div_self hAne, mul_one,
      div_self (ne_of_gt hC)]
  have hfinal : averageDistance (Layout.standardize lay true).nNodes
      (Layout.standardize lay true).x (Layout.standardize lay true).y = 1 := by
    rw [hsn, hsx, hsy]
    exact hdist
  exact ⟨hmean1, hmean2, hvarle, hmed1, hmed2, hfinal⟩

/-- Two nodes at `(0,0)` and `(2,0)`: distinct centered variances, so the
standardisation is non-degenerate. -/
def witnessLayout : Layout :=
  { nNodes := 2
    x := fun i => if i = 0 then 0 else 2
    y := fun _ => 0 }

theorem witnessLayout_v1 : witnessLayout.variance1 = 1 := by
  unfold Layout.variance1 Layout.xc calcAverage witnessLayout
  norm_num [Finset.sum_range_succ]

theorem witnessLayout_v2 : witnessLayout.variance2 = 0 := by
  unfold Layout.variance2 Layout.yc calcAverage witnessLayout
  norm_num [Finset.sum_range_succ]

theorem standardize_spec_witness :
    (2 ≤ witnessLayout.nNodes
      ∧ witnessLayout.variance1 ≠ witnessLayout.variance2
      ∧ witnessLayout.x 0 ≠ witnessLayout.x 1)
    ∧ (calcAverage (Layout.standardize witnessLayout true).nNodes
        (Layout.standardize witnessLayout true).x = 0
      ∧ calcAverage (Layout.standardize witnessLayout true).nNodes
          (Layout.standardize witnessLayout true).y = 0
      ∧ (Layout.standardize witnessLayout true).variance2
          ≤ (Layout.standardize witnessLayout true).variance1
      ∧ calcMedian (Layout.standardize witnessLayout true).nNodes
          (Layout.standardize witnessLayout true).x ≤ 0
      ∧ calcMedian (Layout.standardize witnessLayout true).nNodes
          (Layout.standardize witnessLayout true).y ≤ 0
      ∧ averageDistance (Layout.standardize witnessLayout true).nNodes
          (Layout.standardize witnessLayout true).x
          (Layout.standardize witnessLayout true).y = 1) :=
  ⟨⟨by norm_num [witnessLayout],
    by rw [witnessLayout_v1, witnessLayout_v2]; norm_num,
    by norm_num [witnessLayout]⟩,
   standardize_spec witnessLayout (by norm_num [witnessLayout])
     (by rw [witnessLayout_v1, witnessLayout_v2]; norm_num)
     0 1 (by norm_num [witnessLayout]) (by norm_num [witnessLayout])
     (Or.inl (by norm_num [witnessLayout]))⟩
